import Mathlib

/-!
Verification of `cluster_meters.py` (ParkingLocator): schedule-signature
construction, time/day normalization, union-find spatial clustering and the
cluster/membership aggregation pipeline, shallowly embedded in Lean.

Strings are modelled as `List Char` internally (Lean `String` is a wrapper
around `List Char`); Python `float` coordinates are modelled as `ℚ`; the
floating-point trigonometry of `haversine_m` is kept abstract as a distance
parameter, since IEEE `sin`/`cos`/`asin` are outside the embedding.
-/

namespace ParkingLocator

/-! ## Generic string helpers (Python `str` operations) -/

/-- Python whitespace for `str.strip` / `int()` (ASCII portion). -/
def pyIsSpace (c : Char) : Bool :=
  c = ' ' || c = '\t' || c = '\n' || c = '\x0d' || c = '\x0b' || c = '\x0c'

/-- Python `str.strip()` on char lists. -/
def stripL (cs : List Char) : List Char :=
  ((cs.dropWhile pyIsSpace).reverse.dropWhile pyIsSpace).reverse

/-- Python `str.lower()` (ASCII portion, matching the day/meridiem tokens used). -/
def lowerL (cs : List Char) : List Char := cs.map Char.toLower

/-- Python `s.split(sep)` for a one-character separator. -/
def splitOnCharL (sep : Char) : List Char → List (List Char)
  | [] => [[]]
  | c :: cs =>
    if c = sep then [] :: splitOnCharL sep cs
    else
      match splitOnCharL sep cs with
      | [] => [[c]]
      | g :: gs => (c :: g) :: gs

/-- Python `sep.join(xs)` on char lists. -/
def intercalateL (sep : List Char) : List (List Char) → List Char
  | [] => []
  | [x] => x
  | x :: xs => x ++ sep ++ intercalateL sep xs

/-- Python `pat in s` (contiguous substring test). -/
def hasInfix (pat : List Char) : List Char → Bool
  | [] => pat.isEmpty
  | c :: cs => pat.isPrefixOf (c :: cs) || hasInfix pat cs

/-- Decimal digit run parser: consumes digits and single underscores between
digits, as accepted by Python `int()` (e.g. `int "1_0" = 10`). Returns the
value, or `none` when the shape is invalid. -/
def pyDigitsAux : List Char → Nat → Bool → Option Nat
  | [], acc, sawDigit => if sawDigit then some acc else none
  | c :: cs, acc, sawDigit =>
    if c.isDigit then pyDigitsAux cs (acc * 10 + (c.toNat - 48)) true
    else if c = '_' && sawDigit then
      match cs with
      | d :: _ => if d.isDigit then pyDigitsAux cs acc false else none
      | [] => none
    else none

/-- Python `int(s)`: strip whitespace, optional sign, digit groups. -/
def pyInt (cs : List Char) : Option Int :=
  match stripL cs with
  | '+' :: rest => (pyDigitsAux rest 0 false).map Int.ofNat
  | '-' :: rest => (pyDigitsAux rest 0 false).map (fun n => -(n : Int))
  | rest => (pyDigitsAux rest 0 false).map Int.ofNat

/-- Base-10 digit accumulation, the algorithm of `Nat.toDigits 10`. -/
def natDigitsAux : Nat → Nat → List Char → List Char
  | 0, _, ds => ds
  | fuel + 1, n, ds =>
    let d := Nat.digitChar (n % 10)
    let n2 := n / 10
    if n2 = 0 then d :: ds else natDigitsAux fuel n2 (d :: ds)

/-- Decimal digits of a natural number (`str(n)` for `n : Nat`). -/
def natDigits (n : Nat) : List Char :=
  natDigitsAux (n + 1) n []

/-- Python format `"%02d" % n` (also `f"\x7bn:02d\x7d"`): minimum width 2,
zero padding, with the sign counting toward the width. -/
def fmt02 (n : Int) : List Char :=
  if n < 0 then
    '-' :: natDigits n.natAbs
  else
    let d := natDigits n.toNat
    List.replicate (2 - d.length) '0' ++ d

/-! ## `norm_time` (cluster_meters.py lines 59-86) -/

/-- One-or-more whitespace eater, for the `\s+` that a space in a
`strptime` format compiles to. -/
def eatSpaces1 : List Char → Option (List Char)
  | c :: cs => if pyIsSpace c then some (cs.dropWhile pyIsSpace) else none
  | [] => none

/-- `strptime` `%I` directive: `1[0-2] | 0[1-9] | [1-9]` (two digits
preferred; the follow set makes maximal munch deterministic here). -/
def parseHour12 : List Char → Option (Nat × List Char)
  | '1' :: c :: rest =>
    if '0' ≤ c ∧ c ≤ '2' then some (10 + (c.toNat - 48), rest)
    else some (1, c :: rest)
  | '0' :: c :: rest =>
    if '1' ≤ c ∧ c ≤ '9' then some (c.toNat - 48, rest) else none
  | c :: rest =>
    if '1' ≤ c ∧ c ≤ '9' then some (c.toNat - 48, rest) else none
  | [] => none

/-- `strptime` `%M` directive: `[0-5]\d | \d`. -/
def parseMin : List Char → Option (Nat × List Char)
  | c :: d :: rest =>
    if ('0' ≤ c ∧ c ≤ '5') ∧ d.isDigit then
      some ((c.toNat - 48) * 10 + (d.toNat - 48), rest)
    else if c.isDigit then some (c.toNat - 48, d :: rest)
    else none
  | [c] => if c.isDigit then some (c.toNat - 48, []) else none
  | [] => none

/-- `strptime` `%p` directive: `AM`/`PM`, case-insensitive; must end the
input (strptime requires the whole string to match). Returns `true` for PM. -/
def parseMeridiem : List Char → Option Bool
  | [a, m] =>
    if (a = 'A' ∨ a = 'a') ∧ (m = 'M' ∨ m = 'm') then some false
    else if (a = 'P' ∨ a = 'p') ∧ (m = 'M' ∨ m = 'm') then some true
    else none
  | _ => none

/-- 12-hour to 24-hour conversion used by `strptime`/`strftime`. -/
def to24h (hour12 : Nat) (pm : Bool) : Nat :=
  if pm then (if hour12 = 12 then 12 else hour12 + 12)
  else (if hour12 = 12 then 0 else hour12)

/-- `datetime.strptime(s, "%I:%M %p").strftime("%H:%M")`. -/
def strptimeIMp (cs : List Char) : Option (List Char) := do
  let (h, rest) ← parseHour12 cs
  match rest with
  | ':' :: rest2 => do
    let (m, rest3) ← parseMin rest2
    let rest4 ← eatSpaces1 rest3
    let pm ← parseMeridiem rest4
    pure (fmt02 (to24h h pm) ++ ':' :: fmt02 m)
  | _ => none

/-- `datetime.strptime(s, "%I %p").strftime("%H:%M")`. -/
def strptimeIp (cs : List Char) : Option (List Char) := do
  let (h, rest) ← parseHour12 cs
  let rest2 ← eatSpaces1 rest
  let pm ← parseMeridiem rest2
  pure (fmt02 (to24h h pm) ++ ':' :: fmt02 0)

/-- The guarded 24-hour branch of `norm_time` (the `try` block): succeeds with
the formatted result exactly when no exception is raised and the `0<=hh<=23`
guard holds; `none` otherwise (the code then falls through to the 12h parse). -/
def try24 (s : List Char) : Option (List Char) :=
  match splitOnCharL ':' s with
  | [a, b] =>
    match pyInt a with
    | none => none
    | some hh =>
      if hasInfix ['a', 'm'] (lowerL s) || hasInfix ['p', 'm'] (lowerL s) then none
      else if 0 ≤ hh ∧ hh ≤ 23 then
        match pyInt b with
        | some mm => some (fmt02 hh ++ ':' :: fmt02 mm)
        | none => none
      else none
  | _ => none

/-- `norm_time` on char lists. -/
def normTimeL (s0 : List Char) : List Char :=
  let s := stripL s0
  if s = [] ∨ lowerL s = ['n', 'a', 'n'] ∨ lowerL s = ['n', 'o', 'n', 'e'] then []
  else
    match try24 s with
    | some out => out
    | none =>
      match strptimeIMp s with
      | some out => out
      | none =>
        match strptimeIp s with
        | some out => out
        | none => s

/-- `norm_time(t)` (cluster_meters.py line 59): `None` maps to the empty
string, otherwise the string is normalized by `normTimeL`. -/
def norm_time (t : Option String) : String :=
  match t with
  | none => ""
  | some s => ⟨normTimeL s.data⟩

/-! ## `canonical_days` (cluster_meters.py lines 89-109) -/

/-- The fixed `DAY_ORDER` list. -/
def DAY_ORDER : List (List Char) :=
  [['M', 'o'], ['T', 'u'], ['W', 'e'], ['T', 'h'], ['F', 'r'], ['S', 'a'], ['S', 'u']]

/-- `DAY_MAP_LONG2ABBR` lookup (`.get`, returning `none` when absent). -/
def dayMapLong2Abbr (s : List Char) : Option (List Char) :=
  if s = "monday".data then some ['M', 'o']
  else if s = "tuesday".data then some ['T', 'u']
  else if s = "wednesday".data then some ['W', 'e']
  else if s = "thursday".data then some ['T', 'h']
  else if s = "friday".data then some ['F', 'r']
  else if s = "saturday".data then some ['S', 'a']
  else if s = "sunday".data then some ['S', 'u']
  else none

/-- The `parts` list: `[p.strip() for p in days_str.split(",") if p.strip()]`. -/
def dayParts (ds : List Char) : List (List Char) :=
  ((splitOnCharL ',' ds).map stripL).filter (fun p => p ≠ [])

/-- First loop of `canonical_days`: walk `DAY_ORDER` carrying `(abbr, seen)`,
appending each day found in `parts` to `abbr` and recording it in `seen`. -/
def canonicalLoop1 (parts : List (List Char)) :
    List (List Char) × List (List Char) :=
  DAY_ORDER.foldl
    (fun acc d => if d ∈ parts ∧ d ∉ acc.2 then (acc.1 ++ [d], acc.2 ++ [d]) else acc)
    ([], [])

/-- Second loop of `canonical_days`: append to `abbr` every part not in `seen`
of length at most 3 (`seen` is not extended by this loop). -/
def canonicalLoop2 (abbr seen : List (List Char)) (parts : List (List Char)) :
    List (List Char) :=
  parts.foldl (fun acc p => if p ∉ seen ∧ p.length ≤ 3 then acc ++ [p] else acc) abbr

/-- The fallback branch of `canonical_days`: map a long day name through
`DAY_MAP_LONG2ABBR`, `abbr or ""`. -/
def canonicalDaysFallback : Option (List Char) → List Char
  | some fb =>
    if fb ≠ [] ∧ stripL fb ≠ [] then
      (dayMapLong2Abbr (lowerL (stripL fb))).getD []
    else []
  | none => []

/-- `canonical_days(days_str, fallback_day_long)` on char lists. -/
def canonicalDaysL (daysStr : Option (List Char)) (fallback : Option (List Char)) :
    List Char :=
  match daysStr with
  | some ds =>
    if ds ≠ [] ∧ stripL ds ≠ [] then
      let parts := dayParts ds
      let loop1 := canonicalLoop1 parts
      intercalateL [','] (canonicalLoop2 loop1.1 loop1.2 parts)
    else canonicalDaysFallback fallback
  | none => canonicalDaysFallback fallback

/-- `canonical_days` over `String`, matching the source signature. -/
def canonical_days (daysStr : Option String) (fallback : Option String) : String :=
  ⟨canonicalDaysL (daysStr.map String.data) (fallback.map String.data)⟩

/-- Specification-side restatement of day-set normalization (§4.1 of the
design): the canonical ordered subset of the seven day codes present among
the tokens, followed by the unrecognized tokens of length at most 3 in input
order; empty input falls back to the long-day-name mapping. -/
def canonicalDaysSpec (daysStr : Option (List Char)) (fallback : Option (List Char)) :
    List Char :=
  match daysStr with
  | some ds =>
    if ds ≠ [] ∧ stripL ds ≠ [] then
      let parts := dayParts ds
      intercalateL [',']
        (DAY_ORDER.filter (fun d => decide (d ∈ parts)) ++
          parts.filter (fun p => decide (p ∉ DAY_ORDER ∧ p.length ≤ 3)))
    else canonicalDaysFallback fallback
  | none => canonicalDaysFallback fallback

/-! ### Lemmas about the `canonical_days` loops -/

theorem canonicalLoop1_general (parts : List (List Char)) :
    ∀ (l : List (List Char)) (a s : List (List Char)), l.Nodup → (∀ d ∈ l, d ∉ s) →
      l.foldl
        (fun acc d => if d ∈ parts ∧ d ∉ acc.2 then (acc.1 ++ [d], acc.2 ++ [d]) else acc)
        (a, s)
      = (a ++ l.filter (fun d => decide (d ∈ parts)),
         s ++ l.filter (fun d => decide (d ∈ parts))) := by
  intro l
  induction l with
  | nil => intro a s _ _; simp
  | cons d l ih =>
    intro a s hnd hs
    have hdnotin : d ∉ s := hs d (by simp)
    have hnd' : l.Nodup := (List.nodup_cons.mp hnd).2
    by_cases hdp : d ∈ parts
    · have : (if d ∈ parts ∧ d ∉ s then (a ++ [d], s ++ [d]) else (a, s)) =
          (a ++ [d], s ++ [d]) := by
        rw [if_pos ⟨hdp, hdnotin⟩]
      simp only [List.foldl_cons, this]
      rw [ih (a ++ [d]) (s ++ [d]) hnd'
        (fun e he => by
          intro hmem
          rcases List.mem_append.mp hmem with h1 | h2
          · exact hs e (by simp [he]) h1
          · have : e = d := by simpa using h2
            exact (List.nodup_cons.mp hnd).1 (this ▸ he))]
      simp [List.filter_cons, hdp]
    · have : (if d ∈ parts ∧ d ∉ s then (a ++ [d], s ++ [d]) else (a, s)) = (a, s) := by
        rw [if_neg (by tauto)]
      simp only [List.foldl_cons, this]
      rw [ih a s hnd' (fun e he => hs e (by simp [he]))]
      simp [List.filter_cons, hdp]

theorem canonicalLoop2_eq (seen : List (List Char)) (parts : List (List Char)) :
    ∀ abbr : List (List Char),
      canonicalLoop2 abbr seen parts
        = abbr ++ parts.filter (fun p => decide (p ∉ seen ∧ p.length ≤ 3)) := by
  induction parts with
  | nil => intro abbr; simp [canonicalLoop2]
  | cons p ps ih =>
    intro abbr
    by_cases h : p ∉ seen ∧ p.length ≤ 3
    · simp only [canonicalLoop2, List.foldl_cons, if_pos h] at *
      rw [ih (abbr ++ [p])]
      simp [List.filter_cons, h]
    · simp only [canonicalLoop2, List.foldl_cons, if_neg h] at *
      rw [ih abbr]
      simp [List.filter_cons, h]

/-- C4: for every comma-separated day token list, `canonical_days` returns the
canonical ordered subset of the seven day codes present among the (stripped,
nonempty) tokens — each at most once — followed by the unrecognized tokens of
length at most 3, preserved in input order; empty or whitespace input yields
the result of the long-day-name fallback mapping (the two-letter code of a
recognized long name, else the empty string). -/
theorem canonical_days_spec (daysStr fallback : Option (List Char)) :
    canonicalDaysL daysStr fallback = canonicalDaysSpec daysStr fallback := by
  have key : ∀ ds : List Char, (ds ≠ [] ∧ stripL ds ≠ []) →
      (let parts := dayParts ds
       let loop1 := canonicalLoop1 parts
       intercalateL [','] (canonicalLoop2 loop1.1 loop1.2 parts))
      = intercalateL [',']
          (DAY_ORDER.filter (fun d => decide (d ∈ dayParts ds)) ++
            (dayParts ds).filter (fun p => decide (p ∉ DAY_ORDER ∧ p.length ≤ 3))) := by
    intro ds _
    have hnodup : DAY_ORDER.Nodup := by decide
    have h1 : canonicalLoop1 (dayParts ds)
        = (DAY_ORDER.filter (fun d => decide (d ∈ dayParts ds)),
           DAY_ORDER.filter (fun d => decide (d ∈ dayParts ds))) := by
      have := canonicalLoop1_general (dayParts ds) DAY_ORDER [] [] hnodup
        (by intro d _ h; simp at h)
      simpa [canonicalLoop1] using this
    simp only [h1]
    rw [canonicalLoop2_eq]
    congr 1
    congr 1
    apply List.filter_congr
    intro p hp
    have hmem : p ∈ dayParts ds := hp
    by_cases hD : p ∈ DAY_ORDER
    · simp [hD, List.mem_filter, hmem]
    · simp [hD, List.mem_filter]
  cases daysStr with
  | none => rfl
  | some ds =>
    by_cases h : ds ≠ [] ∧ stripL ds ≠ []
    · simpa [canonicalDaysL, canonicalDaysSpec, if_pos h] using key ds h
    · simp [canonicalDaysL, canonicalDaysSpec, if_neg h]

/-- C3 (code bug): the docstring of `norm_time` ("Unknown -> ''") and the
design both promise that unparseable input normalizes to the empty string,
but the final `return s` of the source returns the stripped input unchanged:
`norm_time "junk"` evaluates to `"junk"`, not `""`. -/
theorem norm_time_junk : norm_time (some "junk") = "junk" ∧ ("junk" : String) ≠ "" := by
  constructor
  · rfl
  · decide

/-! ## `mode` (cluster_meters.py lines 205-210)

`collections.Counter` keeps keys in first-insertion order and
`most_common(1)` takes the maximum by count, returning the first maximal
item; both are modelled below (`firstDedup` for the key order, a strict-`>`
fold for `max`). -/

/-- Fuel-bounded helper for `firstDedup` (the fuel is enough whenever it is
at least the list length, keeping the definition kernel-computable). -/
def firstDedupAux {α : Type} [DecidableEq α] : Nat → List α → List α
  | 0, _ => []
  | _ + 1, [] => []
  | fuel + 1, v :: vs => v :: firstDedupAux fuel (vs.filter (fun w => w ≠ v))

/-- Keys of a `Counter` built from `l`: the distinct values of `l` in order
of first occurrence. -/
def firstDedup {α : Type} [DecidableEq α] (l : List α) : List α :=
  firstDedupAux l.length l

theorem firstDedupAux_fuel {α : Type} [DecidableEq α] :
    ∀ (fuel1 fuel2 : Nat) (l : List α), l.length ≤ fuel1 → l.length ≤ fuel2 →
      firstDedupAux fuel1 l = firstDedupAux fuel2 l
  | 0, 0, _, _, _ => rfl
  | 0, _ + 1, [], _, _ => rfl
  | 0, _ + 1, _ :: _, h1, _ => by simp at h1
  | _ + 1, 0, [], _, _ => rfl
  | _ + 1, 0, _ :: _, _, h2 => by simp at h2
  | f1 + 1, f2 + 1, [], _, _ => rfl
  | f1 + 1, f2 + 1, v :: vs, h1, h2 => by
    rw [firstDedupAux, firstDedupAux,
      firstDedupAux_fuel f1 f2 (vs.filter (fun w => w ≠ v))
        (le_trans (List.length_filter_le _ _) (by simpa using h1))
        (le_trans (List.length_filter_le _ _) (by simpa using h2))]

theorem firstDedup_nil {α : Type} [DecidableEq α] : firstDedup ([] : List α) = [] := rfl

theorem firstDedup_cons {α : Type} [DecidableEq α] (v : α) (vs : List α) :
    firstDedup (v :: vs) = v :: firstDedup (vs.filter (fun w => w ≠ v)) := by
  show firstDedupAux (vs.length + 1) (v :: vs) = _
  rw [firstDedupAux,
    firstDedupAux_fuel vs.length (vs.filter (fun w => w ≠ v)).length
      (vs.filter (fun w => w ≠ v)) (List.length_filter_le _ _) le_rfl]
  rfl

/-- Index of the first occurrence of `x` in a list (length of the list when
absent). -/
def firstIdx {α : Type} [DecidableEq α] (x : α) : List α → Nat
  | [] => 0
  | a :: l => if a = x then 0 else firstIdx x l + 1

/-- The filter `[v for v in values if v and str(v).strip()]`. -/
def modeKeep (v : String) : Bool :=
  !(v = "") && !(stripL v.data = [])

/-- `max` over Counter items keyed by count: replaces the best only on a
strictly greater count, so the first maximal key wins. -/
def maxKeyByCount (vals : List String) : List String → String → String
  | [], best => best
  | k :: ks, best =>
    maxKeyByCount vals ks (if vals.count best < vals.count k then k else best)

/-- `mode(values)` (cluster_meters.py line 205). -/
def mode (values : List String) : String :=
  let vals := values.filter modeKeep
  match firstDedup vals with
  | [] => ""
  | k :: ks => maxKeyByCount vals ks k

theorem mem_firstDedup {α : Type} [DecidableEq α] (l : List α) (x : α) :
    x ∈ firstDedup l ↔ x ∈ l := by
  match l with
  | [] => simp [firstDedup_nil]
  | v :: vs =>
    rw [firstDedup_cons]
    have ih := mem_firstDedup (vs.filter (fun w => w ≠ v)) x
    simp only [List.mem_cons, ih, List.mem_filter, decide_eq_true_eq]
    constructor
    · rintro (h | ⟨h1, _⟩)
      · exact Or.inl h
      · exact Or.inr h1
    · rintro (h | h)
      · exact Or.inl h
      · by_cases hxv : x = v
        · exact Or.inl hxv
        · exact Or.inr ⟨h, hxv⟩
termination_by l.length
decreasing_by
  simp only [List.length_cons]
  exact Nat.lt_succ_of_le (List.length_filter_le _ _)

theorem nodup_firstDedup {α : Type} [DecidableEq α] (l : List α) :
    (firstDedup l).Nodup := by
  match l with
  | [] => simp [firstDedup_nil]
  | v :: vs =>
    rw [firstDedup_cons]
    refine List.nodup_cons.mpr ⟨?_, nodup_firstDedup (vs.filter (fun w => w ≠ v))⟩
    intro hv
    have := (mem_firstDedup _ v).mp hv
    simp at this
termination_by l.length
decreasing_by
  simp only [List.length_cons]
  exact Nat.lt_succ_of_le (List.length_filter_le _ _)

/-- Filtering preserves the relative order of first occurrences. -/
theorem firstIdx_le_of_filter {α : Type} [DecidableEq α] (p : α → Bool) :
    ∀ (l : List α) (a b : α), a ∈ l.filter p → b ∈ l.filter p →
      firstIdx a (l.filter p) ≤ firstIdx b (l.filter p) → firstIdx a l ≤ firstIdx b l := by
  intro l
  induction l with
  | nil => intro a b ha _ _; simp at ha
  | cons c t ih =>
    intro a b ha hb hle
    by_cases pc : p c = true
    · rw [List.filter_cons_of_pos pc] at ha hb hle
      by_cases hca : c = a
      · simp [firstIdx, hca]
      · by_cases hcb : c = b
        · exfalso
          rw [firstIdx, if_neg hca, firstIdx, if_pos hcb] at hle
          omega
        · rw [firstIdx, if_neg hca, firstIdx, if_neg hcb] at hle ⊢
          have ha' : a ∈ t.filter p := by
            rcases List.mem_cons.mp ha with h | h
            · exact absurd h.symm hca
            · exact h
          have hb' : b ∈ t.filter p := by
            rcases List.mem_cons.mp hb with h | h
            · exact absurd h.symm hcb
            · exact h
          have := ih a b ha' hb' (by omega)
          omega
    · rw [List.filter_cons_of_neg pc] at ha hb hle
      have hca : c ≠ a := by
        intro h
        exact pc (h ▸ (List.mem_filter.mp ha).2)
      have hcb : c ≠ b := by
        intro h
        exact pc (h ▸ (List.mem_filter.mp hb).2)
      rw [firstIdx, if_neg hca, firstIdx, if_neg hcb]
      have := ih a b ha hb hle
      omega

/-- `firstDedup` preserves the relative order of first occurrences. -/
theorem firstIdx_le_of_firstDedup {α : Type} [DecidableEq α] :
    ∀ (l : List α) (a b : α), a ∈ l → b ∈ l →
      firstIdx a (firstDedup l) ≤ firstIdx b (firstDedup l) →
      firstIdx a l ≤ firstIdx b l := by
  intro l
  match l with
  | [] => intro a b ha _ _; simp at ha
  | v :: vs =>
    intro a b ha hb hle
    rw [firstDedup_cons] at hle
    by_cases hva : v = a
    · simp [firstIdx, hva]
    · by_cases hvb : v = b
      · exfalso
        rw [firstIdx, if_neg hva, firstIdx, if_pos hvb] at hle
        omega
      · rw [firstIdx, if_neg hva, firstIdx, if_neg hvb] at hle ⊢
        have ha' : a ∈ vs.filter (fun w => w ≠ v) := by
          simp only [List.mem_filter, decide_eq_true_eq]
          rcases List.mem_cons.mp ha with h | h
          · exact absurd h.symm hva
          · exact ⟨h, fun h2 => hva h2.symm⟩
        have hb' : b ∈ vs.filter (fun w => w ≠ v) := by
          simp only [List.mem_filter, decide_eq_true_eq]
          rcases List.mem_cons.mp hb with h | h
          · exact absurd h.symm hvb
          · exact ⟨h, fun h2 => hvb h2.symm⟩
        have h1 := firstIdx_le_of_firstDedup (vs.filter (fun w => w ≠ v)) a b
          ha' hb' (by omega)
        have h2 := firstIdx_le_of_filter (fun w => decide (w ≠ v)) vs a b ha' hb' h1
        omega
termination_by l => l.length
decreasing_by
  simp only [List.length_cons]
  exact Nat.lt_succ_of_le (List.length_filter_le _ _)

theorem firstIdx_cons_self {α : Type} [DecidableEq α] (a : α) (l : List α) :
    firstIdx a (a :: l) = 0 := by
  rw [firstIdx, if_pos rfl]

theorem firstIdx_cons_ne {α : Type} [DecidableEq α] {a x : α} (l : List α) (h : a ≠ x) :
    firstIdx x (a :: l) = firstIdx x l + 1 := by
  rw [firstIdx, if_neg h]

/-- Specification of the strict-max fold over Counter keys: the result is a
key of maximal count, and among equal-count keys it is the earliest in the
key list. -/
theorem maxKey_spec (vals : List String) :
    ∀ (ks : List String) (best : String), (best :: ks).Nodup →
      (maxKeyByCount vals ks best ∈ best :: ks) ∧
      (∀ k ∈ best :: ks, vals.count k ≤ vals.count (maxKeyByCount vals ks best)) ∧
      (∀ k ∈ best :: ks, vals.count k = vals.count (maxKeyByCount vals ks best) →
        firstIdx (maxKeyByCount vals ks best) (best :: ks) ≤ firstIdx k (best :: ks)) := by
  intro ks
  induction ks with
  | nil =>
    intro best _
    refine ⟨by simp [maxKeyByCount], ?_, ?_⟩
    · intro k hk
      simp only [List.mem_singleton] at hk
      subst hk
      simp [maxKeyByCount]
    · intro k hk _
      simp only [List.mem_singleton] at hk
      subst hk
      simp [maxKeyByCount]
  | cons k0 ks ih =>
    intro best hnd
    have hbest_ne_k0 : best ≠ k0 := by
      intro h
      exact (List.nodup_cons.mp hnd).1 (h ▸ List.mem_cons_self k0 ks)
    have hbest_notin : best ∉ ks := fun h => (List.nodup_cons.mp hnd).1 (List.mem_cons_of_mem _ h)
    have hk0_notin : k0 ∉ ks := (List.nodup_cons.mp (List.nodup_cons.mp hnd).2).1
    have hks_nd : ks.Nodup := (List.nodup_cons.mp (List.nodup_cons.mp hnd).2).2
    by_cases hc : vals.count best < vals.count k0
    · -- the new best is k0
      have hunf : maxKeyByCount vals (k0 :: ks) best = maxKeyByCount vals ks k0 := by
        simp [maxKeyByCount, if_pos hc]
      have hnd' : (k0 :: ks).Nodup := List.nodup_cons.mpr ⟨hk0_notin, hks_nd⟩
      obtain ⟨hi, hii, hiii⟩ := ih k0 hnd'
      rw [hunf]
      set m := maxKeyByCount vals ks k0 with hm
      have hcm : vals.count k0 ≤ vals.count m := hii k0 (List.mem_cons_self _ _)
      have hbm : vals.count best < vals.count m := lt_of_lt_of_le hc hcm
      refine ⟨List.mem_cons_of_mem _ hi, ?_, ?_⟩
      · intro k hk
        rcases List.mem_cons.mp hk with h | h
        · subst h; exact le_of_lt hbm
        · exact hii k h
      · intro k hk hkeq
        have hkne : k ≠ best := by
          intro h
          subst h
          omega
        have hk' : k ∈ k0 :: ks := by
          rcases List.mem_cons.mp hk with h | h
          · exact absurd h hkne
          · exact h
        have hmne : m ≠ best := by
          intro h
          rw [h] at hbm
          omega
        rw [firstIdx_cons_ne _ (Ne.symm hmne), firstIdx_cons_ne _ (Ne.symm hkne)]
        have := hiii k hk' hkeq
        omega
    · -- best stays
      have hunf : maxKeyByCount vals (k0 :: ks) best = maxKeyByCount vals ks best := by
        simp [maxKeyByCount, if_neg hc]
      have hnd' : (best :: ks).Nodup := List.nodup_cons.mpr ⟨hbest_notin, hks_nd⟩
      obtain ⟨hi, hii, hiii⟩ := ih best hnd'
      rw [hunf]
      set m := maxKeyByCount vals ks best with hm
      have hbm : vals.count best ≤ vals.count m := hii best (List.mem_cons_self _ _)
      refine ⟨?_, ?_, ?_⟩
      · rcases List.mem_cons.mp hi with h | h
        · exact h ▸ List.mem_cons_self _ _
        · exact List.mem_cons_of_mem _ (List.mem_cons_of_mem _ h)
      · intro k hk
        rcases List.mem_cons.mp hk with h | h
        · subst h; exact hbm
        · rcases List.mem_cons.mp h with h2 | h2
          · subst h2; omega
          · exact hii k (List.mem_cons_of_mem _ h2)
      · intro k hk hkeq
        by_cases hmb : m = best
        · rw [hmb, firstIdx_cons_self]
          omega
        · have hm_in_ks : m ∈ ks := by
            rcases List.mem_cons.mp hi with h | h
            · exact absurd h hmb
            · exact h
          have hm_ne_k0 : m ≠ k0 := fun h => hk0_notin (h ▸ hm_in_ks)
          rcases List.mem_cons.mp hk with hkb | hk2
          · -- k = best, with count best = count m : contradiction with m ≠ best
            exfalso
            subst hkb
            have := hiii k (List.mem_cons_self _ _) hkeq
            rw [firstIdx_cons_ne _ (Ne.symm hmb), firstIdx_cons_self] at this
            omega
          · rcases List.mem_cons.mp hk2 with hkk0 | hk3
            · -- k = k0 : counts force m = best, contradiction
              exfalso
              subst hkk0
              have hbmeq : vals.count best = vals.count m := by omega
              have h0 := hiii best (List.mem_cons_self _ _) hbmeq
              rw [firstIdx_cons_self, firstIdx_cons_ne _ (Ne.symm hmb)] at h0
              omega
            · -- k ∈ ks
              have hkne_b : k ≠ best := fun h => hbest_notin (h ▸ hk3)
              have hkne_k0 : k ≠ k0 := fun h => hk0_notin (h ▸ hk3)
              have := hiii k (List.mem_cons_of_mem _ hk3) hkeq
              rw [firstIdx_cons_ne _ (Ne.symm hmb), firstIdx_cons_ne _ (Ne.symm hkne_b)] at this
              rw [firstIdx_cons_ne _ (Ne.symm hmb), firstIdx_cons_ne _ (Ne.symm hm_ne_k0),
                firstIdx_cons_ne _ (Ne.symm hkne_b), firstIdx_cons_ne _ (Ne.symm hkne_k0)]
              omega

/-- C10: `mode` returns the empty string when no non-empty, non-whitespace
value exists; otherwise it returns a surviving value of maximal frequency,
and among the values tying for maximal frequency it returns the one whose
first occurrence comes earliest in the input sequence. -/
theorem mode_most_frequent (values : List String) :
    (values.filter modeKeep = [] → mode values = "") ∧
    (values.filter modeKeep ≠ [] →
      mode values ∈ values.filter modeKeep ∧
      (∀ v ∈ values.filter modeKeep,
        (values.filter modeKeep).count v ≤ (values.filter modeKeep).count (mode values)) ∧
      (∀ v ∈ values.filter modeKeep,
        (values.filter modeKeep).count v = (values.filter modeKeep).count (mode values) →
          firstIdx (mode values) values ≤ firstIdx v values)) := by
  set vals := values.filter modeKeep with hvals
  constructor
  · intro h
    simp only [mode, ← hvals, h, firstDedup_nil]
  · intro hne
    rcases hfd : firstDedup vals with _ | ⟨k, ks⟩
    · exfalso
      rcases vals with _ | ⟨v, rest⟩
      · exact hne rfl
      · have : v ∈ firstDedup (v :: rest) := (mem_firstDedup _ v).mpr (List.mem_cons_self _ _)
        rw [hfd] at this
        simp at this
    · have hmode : mode values = maxKeyByCount vals ks k := by
        simp only [mode, ← hvals, hfd]
      have hnd : (k :: ks).Nodup := hfd ▸ nodup_firstDedup vals
      obtain ⟨hi, hii, hiii⟩ := maxKey_spec vals ks k hnd
      rw [← hmode] at hi hii hiii
      have hmem : mode values ∈ vals := (mem_firstDedup _ _).mp (hfd ▸ hi)
      refine ⟨hmem, ?_, ?_⟩
      · intro v hv
        exact hii v (hfd ▸ (mem_firstDedup _ v).mpr hv)
      · intro v hv heq
        have h1 : firstIdx (mode values) (firstDedup vals) ≤ firstIdx v (firstDedup vals) := by
          rw [hfd]
          exact hiii v (hfd ▸ (mem_firstDedup _ v).mpr hv) heq
        have h2 : firstIdx (mode values) vals ≤ firstIdx v vals :=
          firstIdx_le_of_firstDedup vals _ v hmem hv h1
        exact firstIdx_le_of_filter modeKeep values _ v hmem hv h2

/-- Witness for C10 at a concrete input with a frequency tie: in
`["y", "x", "x", "y"]` both values occur twice and `y` occurs first. -/
theorem mode_most_frequent_witness :
    (["y", "x", "x", "y"] : List String).filter modeKeep ≠ [] ∧
      mode ["y", "x", "x", "y"] ∈ (["y", "x", "x", "y"] : List String).filter modeKeep :=
  ⟨by decide, ((mode_most_frequent ["y", "x", "x", "y"]).2 (by decide)).1⟩

/-! ## JSON serialization (`json.dumps` with `sort_keys=True`)

`build_schedule_signature` serializes each normalized record with
`json.dumps(e, sort_keys=True)` (ASCII escaping) to deduplicate and sort,
parses the sorted strings back with `json.loads`, and serializes the sorted
list with `ensure_ascii=False` before hashing. Both escaping flavours and a
`json.loads` model for the emitted shape are defined here. -/

/-- Python string comparison (`sorted`): lexicographic by code point. -/
def lexLeB : List Char → List Char → Bool
  | [], _ => true
  | _ :: _, [] => false
  | a :: as, b :: bs =>
    if a.toNat < b.toNat then true
    else if b.toNat < a.toNat then false
    else lexLeB as bs

/-- The order used by `sorted` on strings, as a relation. -/
def lexLe (a b : List Char) : Prop := lexLeB a b = true

instance : DecidableRel lexLe := fun a b =>
  inferInstanceAs (Decidable (lexLeB a b = true))

/-- Lowercase hex digit, as emitted by `"%x"` formatting. -/
def hexDigit (n : Nat) : Char :=
  if n < 10 then Char.ofNat (48 + n) else Char.ofNat (87 + n)

/-- `k`-digit zero-padded lowercase hex of `n`, big-endian. -/
def natToHex : Nat → Nat → List Char
  | 0, _ => []
  | k + 1, n => natToHex k (n / 16) ++ [hexDigit (n % 16)]

/-- `json.dumps` escaping of one character. With `ensure_ascii=True` every
character outside `0x20..0x7e` is escaped (`\uXXXX`, surrogate pairs beyond
the BMP); with `ensure_ascii=False` only control characters, the quote and
the backslash are escaped. -/
def jsonEscapeChar (ascii : Bool) (c : Char) : List Char :=
  if c = '"' then ['\\', '"']
  else if c = '\\' then ['\\', '\\']
  else if c = '\n' then ['\\', 'n']
  else if c = '\x0d' then ['\\', 'r']
  else if c = '\t' then ['\\', 't']
  else if c = '\x08' then ['\\', 'b']
  else if c = '\x0c' then ['\\', 'f']
  else if c.toNat < 0x20 then '\\' :: 'u' :: natToHex 4 c.toNat
  else if ascii && decide (0x7f ≤ c.toNat) then
    if c.toNat < 0x10000 then '\\' :: 'u' :: natToHex 4 c.toNat
    else
      let v := c.toNat - 0x10000
      '\\' :: 'u' :: natToHex 4 (0xd800 + v / 0x400) ++
        '\\' :: 'u' :: natToHex 4 (0xdc00 + v % 0x400)
  else [c]

/-- `json.dumps` escaping of a whole string body. -/
def jsonEscape (ascii : Bool) : List Char → List Char
  | [] => []
  | c :: cs => jsonEscapeChar ascii c ++ jsonEscape ascii cs

/-- A serialized JSON string: quote, escaped body, quote. -/
def jsonQuote (ascii : Bool) (s : List Char) : List Char :=
  '"' :: jsonEscape ascii s ++ ['"']

/-- A record: association list from field name to normalized value. -/
def Rec : Type := List (List Char × List Char)

instance : DecidableEq Rec := inferInstanceAs (DecidableEq (List (List Char × List Char)))

/-- Comparison of record items by key, as used by `sort_keys=True`. -/
def pairKeyLe (p q : List Char × List Char) : Prop := lexLe p.1 q.1

instance : DecidableRel pairKeyLe := fun p q =>
  inferInstanceAs (Decidable (lexLeB p.1 q.1 = true))

/-- `sort_keys=True`: record items sorted by key (stable; keys are distinct). -/
def sortPairsByKey (r : Rec) : Rec :=
  List.insertionSort pairKeyLe r

/-- One `"key": value` item of a serialized object (`": "` separator). -/
def dumpsPair (ascii : Bool) (p : List Char × List Char) : List Char :=
  jsonQuote ascii p.1 ++ ':' :: ' ' :: jsonQuote ascii p.2

/-- `json.dumps(rec, sort_keys=True)` for a string-valued record
(`", "` item separator, `": "` key separator, the defaults). -/
def dumpsRec (ascii : Bool) (r : Rec) : List Char :=
  '\x7b' :: intercalateL [',', ' '] ((sortPairsByKey r).map (dumpsPair ascii)) ++ ['\x7d']

/-- `json.dumps(entries, sort_keys=True, ensure_ascii=False)` for a list of
records. -/
def dumpsList (ascii : Bool) (rs : List Rec) : List Char :=
  '[' :: intercalateL [',', ' '] (rs.map (dumpsRec ascii)) ++ [']']

/-! ## SHA-1 (`hashlib.sha1(raw.encode("utf-8")).hexdigest()`) -/

/-- UTF-8 encoding of one character (`str.encode("utf-8")`), as byte values. -/
def utf8EncodeChar (c : Char) : List Nat :=
  let n := c.toNat
  if n < 0x80 then [n]
  else if n < 0x800 then [0xc0 + n / 0x40, 0x80 + n % 0x40]
  else if n < 0x10000 then
    [0xe0 + n / 0x1000, 0x80 + (n / 0x40) % 0x40, 0x80 + n % 0x40]
  else
    [0xf0 + n / 0x40000, 0x80 + (n / 0x1000) % 0x40,
      0x80 + (n / 0x40) % 0x40, 0x80 + n % 0x40]

/-- UTF-8 encoding of a string. -/
def utf8Encode : List Char → List Nat
  | [] => []
  | c :: cs => utf8EncodeChar c ++ utf8Encode cs

/-- 32-bit left rotation (inputs are 32-bit words). -/
def rotl32 (s x : Nat) : Nat :=
  (x * 2 ^ s + x / 2 ^ (32 - s)) % 4294967296

/-- The SHA-1 round function `f_t`. -/
def sha1F (t b c d : Nat) : Nat :=
  if t < 20 then (b &&& c) ||| ((b ^^^ 0xffffffff) &&& d)
  else if t < 40 then b ^^^ c ^^^ d
  else if t < 60 then (b &&& c) ||| (b &&& d) ||| (c &&& d)
  else b ^^^ c ^^^ d

/-- The SHA-1 round constants `K_t`. -/
def sha1K (t : Nat) : Nat :=
  if t < 20 then 0x5a827999
  else if t < 40 then 0x6ed9eba1
  else if t < 60 then 0x8f1bbcdc
  else 0xca62c1d6

/-- `k` bytes of `n`, big-endian. -/
def beBytes : Nat → Nat → List Nat
  | 0, _ => []
  | k + 1, n => beBytes k (n / 256) ++ [n % 256]

/-- SHA-1 message padding: `0x80`, zeros to 56 mod 64, 64-bit bit length. -/
def sha1Pad (msg : List Nat) : List Nat :=
  msg ++ 0x80 :: List.replicate ((119 - msg.length % 64) % 64) 0 ++
    beBytes 8 (msg.length * 8)

/-- Group bytes into big-endian 32-bit words. -/
def bytesToWords : List Nat → List Nat
  | b0 :: b1 :: b2 :: b3 :: rest =>
    (((b0 * 256 + b1) * 256 + b2) * 256 + b3) :: bytesToWords rest
  | _ => []

/-- Split a word list into 16-word blocks. -/
def chunks16 (ws : List Nat) : List (List Nat) :=
  match ws with
  | [] => []
  | w :: rest => (w :: rest).take 16 :: chunks16 ((w :: rest).drop 16)
termination_by ws.length
decreasing_by
  simp only [List.length_drop, List.length_cons]
  omega

/-- Message-schedule extension, most recent word first:
`w_t = rotl1 (w_(t-3) xor w_(t-8) xor w_(t-14) xor w_(t-16))`. -/
def extendRev (acc : List Nat) : Nat → List Nat
  | 0 => acc
  | k + 1 =>
    extendRev
      (rotl32 1 (acc.getD 2 0 ^^^ acc.getD 7 0 ^^^ acc.getD 13 0 ^^^ acc.getD 15 0) :: acc) k

/-- The 80 SHA-1 rounds over one block's schedule. -/
def sha1Rounds : List Nat → Nat → Nat × Nat × Nat × Nat × Nat → Nat × Nat × Nat × Nat × Nat
  | [], _, st => st
  | wt :: ws, t, (a, b, c, d, e) =>
    sha1Rounds ws (t + 1)
      ((rotl32 5 a + sha1F t b c d + e + wt + sha1K t) % 4294967296,
        a, rotl32 30 b, c, d)

/-- Process one 16-word block. -/
def sha1Block (h : Nat × Nat × Nat × Nat × Nat) (block : List Nat) :
    Nat × Nat × Nat × Nat × Nat :=
  let ws := (extendRev block.reverse 64).reverse
  let s := sha1Rounds ws 0 h
  ((h.1 + s.1) % 4294967296, (h.2.1 + s.2.1) % 4294967296,
    (h.2.2.1 + s.2.2.1) % 4294967296, (h.2.2.2.1 + s.2.2.2.1) % 4294967296,
    (h.2.2.2.2 + s.2.2.2.2) % 4294967296)

/-- SHA-1 digest of a byte string, as the 160-bit natural number. -/
def sha1Nat (msg : List Nat) : Nat :=
  let t := (chunks16 (bytesToWords (sha1Pad msg))).foldl sha1Block
    (0x67452301, 0xefcdab89, 0x98badcfe, 0x10325476, 0xc3d2e1f0)
  (((t.1 * 4294967296 + t.2.1) * 4294967296 + t.2.2.1) * 4294967296 + t.2.2.2.1)
    * 4294967296 + t.2.2.2.2

/-- `hashlib.sha1(bytes).hexdigest()`: 40 lowercase hex digits. -/
def sha1Hex (msg : List Nat) : List Char :=
  natToHex 40 (sha1Nat msg)

/-! ## `json.loads` for the emitted shape -/

/-- Value of one hex digit (loads accepts both cases). -/
def hexVal (c : Char) : Option Nat :=
  if '0' ≤ c ∧ c ≤ '9' then some (c.toNat - 48)
  else if 'a' ≤ c ∧ c ≤ 'f' then some (c.toNat - 87)
  else if 'A' ≤ c ∧ c ≤ 'F' then some (c.toNat - 55)
  else none

/-- Four hex digits, big-endian. -/
def hex4 (a b c d : Char) : Option Nat := do
  let x ← hexVal a
  let y ← hexVal b
  let z ← hexVal c
  let w ← hexVal d
  pure (((x * 16 + y) * 16 + z) * 16 + w)

/-- The character denoted by a two-character escape `\e`. -/
def escCharOf (e : Char) : Option Char :=
  if e = '"' then some '"'
  else if e = '\\' then some '\\'
  else if e = 'n' then some '\n'
  else if e = 'r' then some '\x0d'
  else if e = 't' then some '\t'
  else if e = 'b' then some '\x08'
  else if e = 'f' then some '\x0c'
  else none

/-- After a high surrogate `h`, decode the mandatory `\uXXXX` low-surrogate
continuation and combine into one scalar value. -/
def decodeSurrPair (h : Nat) : List Char → Option (Char × List Char)
  | b1 :: b2 :: a2 :: b2' :: c2 :: d2 :: rest2 =>
    if b1 = '\\' ∧ b2 = 'u' then
      match hex4 a2 b2' c2 d2 with
      | none => none
      | some lo =>
        if 0xdc00 ≤ lo ∧ lo < 0xe000 then
          some (Char.ofNat (0x10000 + (h - 0xd800) * 0x400 + (lo - 0xdc00)), rest2)
        else none
    else none
  | _ => none

/-- Decode the hex digits after a `\u` prefix (with surrogate pairing). -/
def decodeUSeq : List Char → Option (Char × List Char)
  | a :: b :: c :: d :: rest1 =>
    (match hex4 a b c d with
     | none => none
     | some h =>
       if 0xd800 ≤ h ∧ h < 0xdc00 then decodeSurrPair h rest1
       else if 0xdc00 ≤ h ∧ h < 0xe000 then none
       else some (Char.ofNat h, rest1))
  | _ => none

/-- Decode the body of a backslash escape. -/
def decodeBackslash : List Char → Option (Option Char × List Char)
  | [] => none
  | e :: rest =>
    if e = 'u' then (decodeUSeq rest).map (fun p => (some p.1, p.2))
    else (escCharOf e).map (fun c => (some c, rest))

/-- Decode one token of a JSON string body: `some (none, rest)` is the
closing quote, `some (some c, rest)` one decoded character. -/
def decodeTok : List Char → Option (Option Char × List Char)
  | [] => none
  | c0 :: rest0 =>
    if c0 = '"' then some (none, rest0)
    else if c0 = '\\' then decodeBackslash rest0
    else if c0.toNat < 0x20 then none
    else some (some c0, rest0)

/-- Fuel-bounded loop decoding a string body through the closing quote. -/
def decodeEscAux : Nat → List Char → Option (List Char × List Char)
  | 0, _ => none
  | fuel + 1, cs =>
    match decodeTok cs with
    | none => none
    | some (none, rest) => some ([], rest)
    | some (some c, rest) =>
      match decodeEscAux fuel rest with
      | some (s, r) => some (c :: s, r)
      | none => none

/-- Decode a JSON string body up to and including the closing quote (each
token consumes at least one character, so the length bounds the tokens). -/
def decodeEsc (cs : List Char) : Option (List Char × List Char) :=
  decodeEscAux (cs.length + 1) cs

/-- Decode a JSON string including its opening quote. -/
def decodeStr : List Char → Option (List Char × List Char)
  | [] => none
  | c :: rest => if c = '"' then decodeEsc rest else none

/-- Decode the items of a nonempty serialized object after its opening
brace, through the closing brace (fuel bounds the number of items). -/
def decodeRecAux : Nat → List Char → Option (Rec × List Char)
  | 0, _ => none
  | fuel + 1, cs =>
    match decodeStr cs with
    | none => none
    | some (k, r1) =>
      match r1 with
      | c1 :: c2 :: r2 =>
        if c1 = ':' ∧ c2 = ' ' then
          match decodeStr r2 with
          | none => none
          | some (v, r3) =>
            match r3 with
            | [] => none
            | c3 :: r4 =>
              if c3 = '\x7d' then some ([(k, v)], r4)
              else if c3 = ',' then
                match r4 with
                | [] => none
                | c4 :: r5 =>
                  if c4 = ' ' then
                    match decodeRecAux fuel r5 with
                    | some (ps, r6) => some ((k, v) :: ps, r6)
                    | none => none
                  else none
              else none
        else none
      | _ => none

/-- Decode one serialized object from the front of the input. -/
def decodeObj1 (fuel : Nat) : List Char → Option (Rec × List Char)
  | [] => none
  | c :: rest =>
    if c = '\x7b' then
      match rest with
      | [] => none
      | c2 :: rest2 => if c2 = '\x7d' then some ([], rest2) else decodeRecAux fuel rest
    else none

/-- `json.loads` of one serialized object (whole-string parse). -/
def loadsRec (cs : List Char) : Option Rec :=
  match decodeObj1 (cs.length + 1) cs with
  | some (r, []) => some r
  | _ => none

/-- Decode the items of a nonempty serialized array of objects after its
opening bracket, through the closing bracket. -/
def decodeArrAux : Nat → List Char → Option (List Rec × List Char)
  | 0, _ => none
  | fuel + 1, cs =>
    match decodeObj1 (cs.length + 1) cs with
    | none => none
    | some (r, r1) =>
      match r1 with
      | [] => none
      | c :: r2 =>
        if c = ']' then some ([r], r2)
        else if c = ',' then
          match r2 with
          | [] => none
          | c2 :: r3 =>
            if c2 = ' ' then
              match decodeArrAux fuel r3 with
              | some (rs, r4) => some (r :: rs, r4)
              | none => none
            else none
        else none

/-- `json.loads` of a serialized array of objects (whole-string parse). -/
def loadsArr (cs : List Char) : Option (List Rec) :=
  match cs with
  | [] => none
  | c :: rest =>
    if c = '[' then
      match rest with
      | [] => none
      | c2 :: rest2 =>
        if c2 = ']' ∧ rest2 = [] then some []
        else
          match decodeArrAux (rest.length + 1) rest with
          | some (rs, []) => some rs
          | _ => none
    else none

/-! ## `build_schedule_signature` (cluster_meters.py lines 112-140) -/

/-- One raw input row for a meter: association list column name → value
(string `dtype`, `keep_default_na=False`); `r.get(col)` is `rowGet`. -/
def Row : Type := List (List Char × List Char)

instance : DecidableEq Row := inferInstanceAs (DecidableEq (List (List Char × List Char)))

/-- `r.get(f)`: the value of column `f`, or `None` when absent. -/
def rowGet (r : Row) (f : List Char) : Option (List Char) :=
  match r with
  | [] => none
  | (k, v) :: rest => if k = f then some v else rowGet rest f

/-- `norm_time` applied to an optional cell (`None` maps to `""`). -/
def normTimeOpt : Option (List Char) → List Char
  | none => []
  | some s => normTimeL s

/-- The normalized record built for one row: for each requested field,
`days` goes through `canonical_days` (with the `day` column as fallback),
`from_time`/`to_time` through `norm_time`, and any other field is the raw
cell with `None` coerced to the empty string. Duplicate field names
collapse (dict keys). -/
def normRec (fields : List (List Char)) (r : Row) : Rec :=
  (firstDedup fields).map (fun f =>
    (f,
      if f = "days".data then canonicalDaysL (rowGet r "days".data) (rowGet r "day".data)
      else if f = "from_time".data then normTimeOpt (rowGet r "from_time".data)
      else if f = "to_time".data then normTimeOpt (rowGet r "to_time".data)
      else (rowGet r f).getD []))

/-- A normalized entry as compared by Python dict equality: key order is
irrelevant in a dict, so the canonical form is the key-sorted record. -/
def normEntry (fields : List (List Char)) (r : Row) : Rec :=
  sortPairsByKey (normRec fields r)

/-- `sorted` on a list of strings. -/
def sortStrs (l : List (List Char)) : List (List Char) :=
  List.insertionSort lexLe l

/-- `sorted(\x7bjson.dumps(e, sort_keys=True) for e in entries\x7d)`: the
deduplicated, sorted serialized entries. -/
def sigUniqSorted (fields : List (List Char)) (rows : List Row) : List (List Char) :=
  sortStrs (firstDedup ((rows.map (normRec fields)).map (dumpsRec true)))

/-- `entries_sorted = [json.loads(s) for s in sorted(uniq)]`. -/
def sigEntries (fields : List (List Char)) (rows : List Row) : List Rec :=
  (sigUniqSorted fields rows).filterMap loadsRec

/-- `raw = json.dumps(entries_sorted, sort_keys=True, ensure_ascii=False)`. -/
def sigRaw (fields : List (List Char)) (rows : List Row) : List Char :=
  dumpsList false (sigEntries fields rows)

/-- `build_schedule_signature(meter_df, fields)`: the SHA-1 hex digest of the
canonical serialization, and the canonical entry list. -/
def build_schedule_signature (rows : List Row) (fields : List (List Char)) :
    List Char × List Rec :=
  (sha1Hex (utf8Encode (sigRaw fields rows)), sigEntries fields rows)

/-! ## Roundtrip: the decoder inverts the serializer -/

theorem char_valid_ranges (c : Char) :
    c.toNat < 55296 ∨ (57343 < c.toNat ∧ c.toNat < 1114112) := c.valid

theorem hexVal_hexDigit (x : Nat) (h : x < 16) : hexVal (hexDigit x) = some x := by
  interval_cases x <;> rfl

theorem natToHex4_eq (n : Nat) :
    natToHex 4 n = [hexDigit (n / 4096 % 16), hexDigit (n / 256 % 16),
      hexDigit (n / 16 % 16), hexDigit (n % 16)] := by
  show natToHex 3 (n / 16) ++ [hexDigit (n % 16)] = _
  show natToHex 2 (n / 16 / 16) ++ [hexDigit (n / 16 % 16)] ++ [hexDigit (n % 16)] = _
  show natToHex 1 (n / 16 / 16 / 16) ++ [hexDigit (n / 16 / 16 % 16)] ++
    [hexDigit (n / 16 % 16)] ++ [hexDigit (n % 16)] = _
  show [hexDigit (n / 16 / 16 / 16 % 16)] ++ [hexDigit (n / 16 / 16 % 16)] ++
    [hexDigit (n / 16 % 16)] ++ [hexDigit (n % 16)] = _
  have h1 : n / 16 / 16 = n / 256 := by omega
  have h2 : n / 16 / 16 / 16 = n / 4096 := by omega
  rw [h1] at *
  rw [h2]
  rfl

theorem hex4_natToHex (n : Nat) (h : n < 65536) :
    hex4 (hexDigit (n / 4096 % 16)) (hexDigit (n / 256 % 16))
      (hexDigit (n / 16 % 16)) (hexDigit (n % 16)) = some n := by
  rw [hex4, hexVal_hexDigit _ (by omega), hexVal_hexDigit _ (by omega),
    hexVal_hexDigit _ (by omega), hexVal_hexDigit _ (by omega)]
  show some ((((n / 4096 % 16) * 16 + n / 256 % 16) * 16 + n / 16 % 16) * 16 + n % 16) = some n
  congr 1
  omega

theorem decodeTok_quote (r : List Char) : decodeTok ('"' :: r) = some (none, r) := by
  rw [decodeTok, if_pos rfl]

theorem decodeTok_escapeChar (ascii : Bool) (c : Char) (r : List Char) :
    decodeTok (jsonEscapeChar ascii c ++ r) = some (some c, r) := by
  by_cases h1 : c = '"'
  · subst h1
    show decodeTok ('\\' :: '"' :: r) = _
    rw [decodeTok, if_neg (by decide), if_pos rfl, decodeBackslash,
      if_neg (by decide), escCharOf, if_pos rfl]
    rfl
  · by_cases h2 : c = '\\'
    · subst h2
      show decodeTok ('\\' :: '\\' :: r) = _
      rw [decodeTok, if_neg (by decide), if_pos rfl, decodeBackslash,
        if_neg (by decide), escCharOf, if_neg (by decide), if_pos rfl]
      rfl
    · by_cases h3 : c = '\n'
      · subst h3
        show decodeTok ('\\' :: 'n' :: r) = _
        rw [decodeTok, if_neg (by decide), if_pos rfl, decodeBackslash,
          if_neg (by decide)]
        rfl
      · by_cases h4 : c = '\x0d'
        · subst h4
          show decodeTok ('\\' :: 'r' :: r) = _
          rw [decodeTok, if_neg (by decide), if_pos rfl, decodeBackslash,
            if_neg (by decide)]
          rfl
        · by_cases h5 : c = '\t'
          · subst h5
            show decodeTok ('\\' :: 't' :: r) = _
            rw [decodeTok, if_neg (by decide), if_pos rfl, decodeBackslash,
              if_neg (by decide)]
            rfl
          · by_cases h6 : c = '\x08'
            · subst h6
              show decodeTok ('\\' :: 'b' :: r) = _
              rw [decodeTok, if_neg (by decide), if_pos rfl, decodeBackslash,
                if_neg (by decide)]
              rfl
            · by_cases h7 : c = '\x0c'
              · subst h7
                show decodeTok ('\\' :: 'f' :: r) = _
                rw [decodeTok, if_neg (by decide), if_pos rfl, decodeBackslash,
                  if_neg (by decide)]
                rfl
              · by_cases h8 : c.toNat < 0x20
                · rw [jsonEscapeChar, if_neg h1, if_neg h2, if_neg h3, if_neg h4,
                    if_neg h5, if_neg h6, if_neg h7, if_pos h8, natToHex4_eq]
                  simp only [List.cons_append, List.nil_append]
                  rw [decodeTok, if_neg (by decide), if_pos rfl, decodeBackslash,
                    if_pos rfl]
                  rw [decodeUSeq, hex4_natToHex c.toNat (by omega)]
                  dsimp only
                  rw [if_neg (by omega), if_neg (by omega), Char.ofNat_toNat]
                  rfl
                · by_cases h9 : (ascii && decide (0x7f ≤ c.toNat)) = true
                  · have hval := char_valid_ranges c
                    by_cases h10 : c.toNat < 0x10000
                    · rw [jsonEscapeChar, if_neg h1, if_neg h2, if_neg h3, if_neg h4,
                        if_neg h5, if_neg h6, if_neg h7, if_neg h8, if_pos h9,
                        if_pos h10, natToHex4_eq]
                      simp only [List.cons_append, List.nil_append]
                      rw [decodeTok, if_neg (by decide), if_pos rfl, decodeBackslash,
                        if_pos rfl]
                      rw [decodeUSeq, hex4_natToHex c.toNat (by omega)]
                      dsimp only
                      rw [if_neg (by omega), if_neg (by omega), Char.ofNat_toNat]
                      rfl
                    · rw [jsonEscapeChar, if_neg h1, if_neg h2, if_neg h3, if_neg h4,
                        if_neg h5, if_neg h6, if_neg h7, if_neg h8, if_pos h9,
                        if_neg h10]
                      dsimp only
                      rw [natToHex4_eq, natToHex4_eq]
                      simp only [List.cons_append, List.append_assoc, List.nil_append]
                      rw [decodeTok, if_neg (by decide), if_pos rfl, decodeBackslash,
                        if_pos rfl]
                      rw [decodeUSeq,
                        hex4_natToHex (55296 + (c.toNat - 65536) / 1024) (by omega)]
                      dsimp only
                      rw [if_pos (by omega)]
                      rw [decodeSurrPair, if_pos (by decide)]
                      rw [hex4_natToHex (56320 + (c.toNat - 65536) % 1024) (by omega)]
                      dsimp only
                      rw [if_pos (by omega)]
                      rw [show 65536 + (55296 + (c.toNat - 65536) / 1024 - 55296) * 1024 +
                        (56320 + (c.toNat - 65536) % 1024 - 56320) = c.toNat from by omega,
                        Char.ofNat_toNat]
                      rfl
                  · rw [jsonEscapeChar, if_neg h1, if_neg h2, if_neg h3, if_neg h4,
                      if_neg h5, if_neg h6, if_neg h7, if_neg h8, if_neg h9]
                    show decodeTok (c :: r) = _
                    rw [decodeTok, if_neg h1, if_neg h2, if_neg h8]

theorem jsonEscapeChar_ne_nil (ascii : Bool) (c : Char) :
    jsonEscapeChar ascii c ≠ [] := by
  intro h
  have hrt := decodeTok_escapeChar ascii c []
  rw [h] at hrt
  rw [show decodeTok ([] ++ []) = none from rfl] at hrt
  exact Option.noConfusion hrt

theorem jsonEscapeChar_length_pos (ascii : Bool) (c : Char) :
    1 ≤ (jsonEscapeChar ascii c).length :=
  List.length_pos.mpr (jsonEscapeChar_ne_nil ascii c)

theorem jsonEscape_length_ge (ascii : Bool) :
    ∀ s : List Char, s.length ≤ (jsonEscape ascii s).length
  | [] => le_refl _
  | c :: cs => by
    rw [jsonEscape, List.length_append, List.length_cons]
    have h1 := jsonEscapeChar_length_pos ascii c
    have h2 := jsonEscape_length_ge ascii cs
    omega

theorem decodeEscAux_escape (ascii : Bool) :
    ∀ (s : List Char) (fuel : Nat) (t : List Char), s.length < fuel →
      decodeEscAux fuel (jsonEscape ascii s ++ '"' :: t) = some (s, t) := by
  intro s
  induction s with
  | nil =>
    intro fuel t h
    obtain ⟨f, rfl⟩ : ∃ f, fuel = f + 1 := ⟨fuel - 1, by omega⟩
    show decodeEscAux (f + 1) ('"' :: t) = some ([], t)
    rw [decodeEscAux, decodeTok_quote]
  | cons c cs ih =>
    intro fuel t h
    obtain ⟨f, rfl⟩ : ∃ f, fuel = f + 1 := ⟨fuel - 1, by omega⟩
    rw [jsonEscape, List.append_assoc, decodeEscAux, decodeTok_escapeChar]
    dsimp only
    rw [ih f t (by simp at h; omega)]

theorem decodeEsc_escape (ascii : Bool) (s t : List Char) :
    decodeEsc (jsonEscape ascii s ++ '"' :: t) = some (s, t) := by
  apply decodeEscAux_escape
  have := jsonEscape_length_ge ascii s
  simp only [List.length_append, List.length_cons]
  omega

theorem decodeStr_quote (ascii : Bool) (s t : List Char) :
    decodeStr (jsonQuote ascii s ++ t) = some (s, t) := by
  rw [jsonQuote]
  simp only [List.cons_append, List.append_assoc, List.singleton_append]
  rw [decodeStr, if_pos rfl]
  exact decodeEsc_escape ascii s t

theorem jsonQuote_length_pos (ascii : Bool) (s : List Char) :
    1 ≤ (jsonQuote ascii s).length := by
  rw [jsonQuote]
  simp

theorem dumpsPair_length_pos (ascii : Bool) (p : List Char × List Char) :
    1 ≤ (dumpsPair ascii p).length := by
  rw [dumpsPair, List.length_append]
  have := jsonQuote_length_pos ascii p.1
  omega

theorem intercalateL_length_ge {α : Type} (sep : List Char) (f : α → List Char)
    (hf : ∀ x, 1 ≤ (f x).length) :
    ∀ l : List α, l.length ≤ (intercalateL sep (l.map f)).length
  | [] => by simp [intercalateL]
  | [x] => by
    simp only [List.map_cons, List.map_nil, intercalateL, List.length_cons,
      List.length_nil]
    exact hf x
  | x :: y :: l => by
    have ih := intercalateL_length_ge sep f hf (y :: l)
    have hx := hf x
    show (x :: y :: l).length ≤ (f x ++ sep ++ intercalateL sep ((y :: l).map f)).length
    simp only [List.length_append, List.length_cons] at *
    omega

theorem intercalateL_cons2 (sep x y : List Char) (l : List (List Char)) :
    intercalateL sep (x :: y :: l) = x ++ sep ++ intercalateL sep (y :: l) := rfl

theorem intercalateL_head (sep x : List Char) (l : List (List Char)) :
    ∃ rest, intercalateL sep (x :: l) = x ++ rest := by
  cases l with
  | nil => exact ⟨[], (List.append_nil x).symm⟩
  | cons y l => exact ⟨sep ++ intercalateL sep (y :: l), by rw [intercalateL_cons2,
      List.append_assoc]⟩

theorem decodeRecAux_pairs (ascii : Bool) :
    ∀ (ps : Rec) (t : List Char) (fuel : Nat), ps ≠ [] → ps.length ≤ fuel →
      decodeRecAux fuel (intercalateL [',', ' '] (ps.map (dumpsPair ascii)) ++ '\x7d' :: t)
        = some (ps, t) := by
  intro ps
  induction ps with
  | nil => intro t fuel h _; exact absurd rfl h
  | cons p ps ih =>
    intro t fuel _ hf
    obtain ⟨f, rfl⟩ : ∃ f, fuel = f + 1 := ⟨fuel - 1, by simp at hf; omega⟩
    rcases ps with _ | ⟨q, qs⟩
    · show decodeRecAux (f + 1) (dumpsPair ascii p ++ '\x7d' :: t) = some ([p], t)
      rw [dumpsPair, decodeRecAux]
      simp only [List.append_assoc, List.cons_append]
      rw [decodeStr_quote]
      try dsimp only
      rw [if_pos ⟨rfl, rfl⟩, decodeStr_quote]
      try dsimp only
      rw [if_pos rfl]
    · rw [List.map_cons, List.map_cons, intercalateL_cons2]
      rw [dumpsPair, decodeRecAux]
      simp only [List.append_assoc, List.cons_append, List.nil_append]
      rw [decodeStr_quote]
      try dsimp only
      rw [if_pos ⟨rfl, rfl⟩, decodeStr_quote]
      try dsimp only
      rw [if_neg (by decide), if_pos rfl]
      try dsimp only
      rw [if_pos rfl]
      have := ih t f (by simp) (by simp at hf ⊢; omega)
      rw [List.map_cons] at this
      rw [this]

theorem dumpsPair_head_quote (ascii : Bool) (p : List Char × List Char)
    (r : List Char) :
    dumpsPair ascii p ++ r = '"' :: (jsonEscape ascii p.1 ++
      ('"' :: ':' :: ' ' :: jsonQuote ascii p.2) ++ r) := by
  rw [dumpsPair, jsonQuote]
  simp only [List.cons_append, List.append_assoc, List.singleton_append,
    List.nil_append]

theorem decodeObj1_dumpsRec (ascii : Bool) (r : Rec) (t : List Char) (fuel : Nat)
    (hf : (sortPairsByKey r).length ≤ fuel) :
    decodeObj1 fuel (dumpsRec ascii r ++ t) = some (sortPairsByKey r, t) := by
  rw [dumpsRec]
  rcases hsp : sortPairsByKey r with _ | ⟨q, qs⟩
  · show decodeObj1 fuel ('\x7b' :: '\x7d' :: t) = some ([], t)
    rw [decodeObj1, if_pos rfl]
    try dsimp only
    rw [if_pos rfl]
  · have hlen : (q :: qs).length ≤ fuel := hsp ▸ hf
    have hrt := decodeRecAux_pairs ascii (q :: qs) t fuel (by simp) hlen
    obtain ⟨rest, hrest⟩ :=
      intercalateL_head [',', ' '] (dumpsPair ascii q) ((qs).map (dumpsPair ascii))
    rw [List.map_cons] at hrt
    rw [List.map_cons, hrest]
    rw [hrest] at hrt
    rw [dumpsPair_head_quote] at hrt
    simp only [List.cons_append, List.append_assoc, List.singleton_append]
    rw [dumpsPair_head_quote]
    rw [decodeObj1, if_pos rfl]
    try dsimp only
    rw [if_neg (by decide)]
    simp only [List.cons_append, List.append_assoc, List.nil_append] at hrt ⊢
    exact hrt

theorem dumpsRec_length_ge (ascii : Bool) (r : Rec) :
    (sortPairsByKey r).length ≤ (dumpsRec ascii r).length := by
  rw [dumpsRec]
  have := intercalateL_length_ge [',', ' '] (dumpsPair ascii)
    (dumpsPair_length_pos ascii) (sortPairsByKey r)
  simp only [List.length_cons, List.length_append, List.length_map] at *
  omega

theorem loadsRec_dumpsRec (ascii : Bool) (r : Rec) :
    loadsRec (dumpsRec ascii r) = some (sortPairsByKey r) := by
  rw [loadsRec]
  have h := decodeObj1_dumpsRec ascii r [] ((dumpsRec ascii r).length + 1)
    (by have := dumpsRec_length_ge ascii r; omega)
  rw [List.append_nil] at h
  rw [h]

/-- `json.dumps(·, sort_keys=True)` determines the record up to key order. -/
theorem dumpsRec_inj (ascii : Bool) (r1 r2 : Rec)
    (h : dumpsRec ascii r1 = dumpsRec ascii r2) :
    sortPairsByKey r1 = sortPairsByKey r2 := by
  have h1 := loadsRec_dumpsRec ascii r1
  rw [h, loadsRec_dumpsRec] at h1
  exact (Option.some.inj h1).symm

theorem dumpsRec_head (ascii : Bool) (r : Rec) (x : List Char) :
    dumpsRec ascii r ++ x = '\x7b' ::
      (intercalateL [',', ' '] ((sortPairsByKey r).map (dumpsPair ascii)) ++ '\x7d' :: x) := by
  rw [dumpsRec]
  simp only [List.cons_append, List.append_assoc, List.singleton_append, List.nil_append]

theorem decodeArrAux_dumps (ascii : Bool) :
    ∀ (rs : List Rec) (t : List Char) (fuel : Nat), rs ≠ [] → rs.length ≤ fuel →
      decodeArrAux fuel (intercalateL [',', ' '] (rs.map (dumpsRec ascii)) ++ ']' :: t)
        = some (rs.map sortPairsByKey, t) := by
  intro rs
  induction rs with
  | nil => intro t fuel h _; exact absurd rfl h
  | cons r rs ih =>
    intro t fuel _ hf
    obtain ⟨f, rfl⟩ : ∃ f, fuel = f + 1 := ⟨fuel - 1, by simp at hf; omega⟩
    rcases rs with _ | ⟨r2, rs2⟩
    · show decodeArrAux (f + 1) (dumpsRec ascii r ++ ']' :: t) = some ([sortPairsByKey r], t)
      rw [decodeArrAux]
      rw [decodeObj1_dumpsRec ascii r (']' :: t) _
        (by have := dumpsRec_length_ge ascii r
            simp only [List.length_append]
            omega)]
      try dsimp only
      rw [if_pos rfl]
    · rw [List.map_cons, List.map_cons, intercalateL_cons2]
      rw [decodeArrAux]
      simp only [List.append_assoc, List.cons_append, List.nil_append]
      rw [decodeObj1_dumpsRec ascii r _ _
        (by have := dumpsRec_length_ge ascii r
            simp only [List.length_append]
            omega)]
      try dsimp only
      rw [if_neg (by decide), if_pos rfl]
      try dsimp only
      rw [if_pos rfl]
      have := ih t f (by simp) (by simp at hf ⊢; omega)
      rw [List.map_cons] at this
      rw [this]
      rfl

theorem dumpsRec_length_pos (ascii : Bool) (r : Rec) : 1 ≤ (dumpsRec ascii r).length := by
  rw [dumpsRec]
  simp

theorem loadsArr_dumpsList (ascii : Bool) (rs : List Rec) :
    loadsArr (dumpsList ascii rs) = some (rs.map sortPairsByKey) := by
  rcases rs with _ | ⟨r, rest⟩
  · rfl
  · obtain ⟨tail, htail⟩ := intercalateL_head [',', ' '] (dumpsRec ascii r)
      (rest.map (dumpsRec ascii))
    have hcons : intercalateL [',', ' '] ((r :: rest).map (dumpsRec ascii)) ++
        ']' :: ([] : List Char)
        = '\x7b' :: ((intercalateL [',', ' ']
            ((sortPairsByKey r).map (dumpsPair ascii)) ++ '\x7d' :: tail) ++ ']' :: []) := by
      rw [List.map_cons, htail, List.append_assoc, dumpsRec_head]
      simp only [List.append_assoc, List.cons_append]
    have hlen : (r :: rest).length ≤
        ('\x7b' :: ((intercalateL [',', ' ']
          ((sortPairsByKey r).map (dumpsPair ascii)) ++ '\x7d' :: tail) ++ ']' :: [])).length
          + 1 := by
      have h1 := intercalateL_length_ge [',', ' '] (dumpsRec ascii)
        (dumpsRec_length_pos ascii) (r :: rest)
      have h2 := congrArg List.length hcons
      simp only [List.length_cons, List.length_append, List.length_map] at h1 h2 ⊢
      omega
    have hrt := decodeArrAux_dumps ascii (r :: rest) []
      (('\x7b' :: ((intercalateL [',', ' ']
        ((sortPairsByKey r).map (dumpsPair ascii)) ++ '\x7d' :: tail) ++ ']' :: [])).length
        + 1) (by simp) hlen
    rw [hcons] at hrt
    rw [dumpsList]
    rw [show ('[' :: intercalateL [',', ' '] ((r :: rest).map (dumpsRec ascii))) ++ [']']
        = '[' :: (intercalateL [',', ' '] ((r :: rest).map (dumpsRec ascii)) ++ ']' :: [])
        from by simp]
    rw [hcons]
    rw [loadsArr, if_pos rfl]
    try dsimp only
    rw [if_neg (fun hpair => absurd hpair.1 (by decide))]
    rw [hrt]

/-- `json.dumps(·, sort_keys=True)` on entry lists determines the entries up
to key order within each record. -/
theorem dumpsList_inj (ascii : Bool) (l1 l2 : List Rec)
    (h : dumpsList ascii l1 = dumpsList ascii l2) :
    l1.map sortPairsByKey = l2.map sortPairsByKey := by
  have h1 := loadsArr_dumpsList ascii l1
  rw [h, loadsArr_dumpsList] at h1
  exact (Option.some.inj h1).symm

/-! ## The string order is total, transitive and antisymmetric -/

theorem charToNat_inj {a b : Char} (h : a.toNat = b.toNat) : a = b := by
  have ha := Char.ofNat_toNat a
  rw [h, Char.ofNat_toNat b] at ha
  exact ha.symm

theorem lexLeB_total : ∀ a b : List Char, lexLeB a b = true ∨ lexLeB b a = true
  | [], [] => Or.inl rfl
  | [], _ :: _ => Or.inl rfl
  | _ :: _, [] => Or.inr rfl
  | a :: as, b :: bs => by
    rcases Nat.lt_trichotomy a.toNat b.toNat with h | h | h
    · left; rw [lexLeB, if_pos h]
    · rcases lexLeB_total as bs with ih | ih
      · left; rw [lexLeB, if_neg (by omega), if_neg (by omega)]; exact ih
      · right; rw [lexLeB, if_neg (by omega), if_neg (by omega)]; exact ih
    · right; rw [lexLeB, if_pos h]

theorem lexLeB_trans : ∀ a b c : List Char,
    lexLeB a b = true → lexLeB b c = true → lexLeB a c = true
  | [], _, _, _, _ => rfl
  | _ :: _, [], _, h1, _ => by simp [lexLeB] at h1
  | _ :: _, _ :: _, [], _, h2 => by simp [lexLeB] at h2
  | a :: as, b :: bs, c :: cs, h1, h2 => by
    rw [lexLeB] at h1 h2 ⊢
    by_cases hab : a.toNat < b.toNat
    · by_cases hbc : b.toNat < c.toNat
      · rw [if_pos (by omega)]
      · rw [if_neg hbc] at h2
        by_cases hcb : c.toNat < b.toNat
        · rw [if_pos hcb] at h2; exact absurd h2 (by simp)
        · rw [if_pos (by omega)]
    · rw [if_neg hab] at h1
      by_cases hba : b.toNat < a.toNat
      · rw [if_pos hba] at h1; exact absurd h1 (by simp)
      · rw [if_neg hba] at h1
        by_cases hbc : b.toNat < c.toNat
        · rw [if_pos (by omega)]
        · rw [if_neg hbc] at h2
          by_cases hcb : c.toNat < b.toNat
          · rw [if_pos hcb] at h2; exact absurd h2 (by simp)
          · rw [if_neg hcb] at h2
            rw [if_neg (by omega), if_neg (by omega)]
            exact lexLeB_trans as bs cs h1 h2

theorem lexLeB_antisymm : ∀ a b : List Char,
    lexLeB a b = true → lexLeB b a = true → a = b
  | [], [], _, _ => rfl
  | [], _ :: _, _, h2 => by simp [lexLeB] at h2
  | _ :: _, [], h1, _ => by simp [lexLeB] at h1
  | a :: as, b :: bs, h1, h2 => by
    rw [lexLeB] at h1 h2
    by_cases hab : a.toNat < b.toNat
    · rw [if_neg (by omega), if_pos hab] at h2; exact absurd h2 (by simp)
    · by_cases hba : b.toNat < a.toNat
      · rw [if_neg hab, if_pos hba] at h1; exact absurd h1 (by simp)
      · rw [if_neg hab, if_neg hba] at h1
        rw [if_neg hba, if_neg hab] at h2
        have hchar : a = b := charToNat_inj (by omega)
        rw [hchar, lexLeB_antisymm as bs h1 h2]

instance : IsTotal (List Char) lexLe := ⟨lexLeB_total⟩

instance : IsTrans (List Char) lexLe := ⟨lexLeB_trans⟩

instance : IsAntisymm (List Char) lexLe := ⟨lexLeB_antisymm⟩

instance : IsTotal (List Char × List Char) pairKeyLe := ⟨fun p q => lexLeB_total p.1 q.1⟩

instance : IsTrans (List Char × List Char) pairKeyLe :=
  ⟨fun p q r h1 h2 => lexLeB_trans p.1 q.1 r.1 h1 h2⟩

/-! ## C1: the signature is a pure function of the entry set -/

/-- Sorting the items of an already key-sorted record changes nothing. -/
theorem sortPairsByKey_idem (r : Rec) :
    sortPairsByKey (sortPairsByKey r) = sortPairsByKey r :=
  List.Sorted.insertionSort_eq (List.sorted_insertionSort pairKeyLe r)

/-- Serializing a record equals serializing its key-sorted form: `dumps`
sorts the items itself. -/
theorem dumpsRec_sortPairs (ascii : Bool) (r : Rec) :
    dumpsRec ascii (sortPairsByKey r) = dumpsRec ascii r := by
  unfold dumpsRec
  rw [sortPairsByKey_idem]

/-- Two lists of strings with the same members and no duplicates sort to the
same list. -/
theorem sortStrs_eq_of_mem_iff {l1 l2 : List (List Char)}
    (h1 : l1.Nodup) (h2 : l2.Nodup) (h : ∀ x, x ∈ l1 ↔ x ∈ l2) :
    sortStrs l1 = sortStrs l2 := by
  have hperm : l1.Perm l2 := by
    apply List.Subperm.antisymm
    · exact List.subperm_of_subset h1 (fun x hx => (h x).mp hx)
    · exact List.subperm_of_subset h2 (fun x hx => (h x).mpr hx)
  exact List.eq_of_perm_of_sorted
    ((List.perm_insertionSort lexLe l1).trans
      (hperm.trans (List.perm_insertionSort lexLe l2).symm))
    (List.sorted_insertionSort lexLe l1) (List.sorted_insertionSort lexLe l2)

/-- C1: `build_schedule_signature` is a pure function of the set of distinct
normalized entry records (Python dict equality, i.e. key-sorted records): any
two row lists — in particular any permutation and/or duplication of one row
list — whose normalized entries form the same set receive exactly the same
hash and the same canonical entry list. -/
theorem build_schedule_signature_deterministic
    (rows1 rows2 : List Row) (fields : List (List Char))
    (h : (∀ e ∈ rows1.map (normEntry fields), e ∈ rows2.map (normEntry fields)) ∧
         (∀ e ∈ rows2.map (normEntry fields), e ∈ rows1.map (normEntry fields))) :
    build_schedule_signature rows1 fields = build_schedule_signature rows2 fields := by
  suffices hsu : sigUniqSorted fields rows1 = sigUniqSorted fields rows2 by
    unfold build_schedule_signature sigRaw sigEntries
    rw [hsu]
  unfold sigUniqSorted
  apply sortStrs_eq_of_mem_iff (nodup_firstDedup _) (nodup_firstDedup _)
  intro x
  rw [mem_firstDedup, mem_firstDedup]
  simp only [List.map_map, List.mem_map, Function.comp]
  constructor
  · rintro ⟨r, hr, rfl⟩
    have he : normEntry fields r ∈ rows2.map (normEntry fields) :=
      h.1 _ (List.mem_map.mpr ⟨r, hr, rfl⟩)
    obtain ⟨r', hr', he'⟩ := List.mem_map.mp he
    refine ⟨r', hr', ?_⟩
    rw [← dumpsRec_sortPairs true (normRec fields r'), ← dumpsRec_sortPairs true (normRec fields r)]
    show dumpsRec true (normEntry fields r') = dumpsRec true (normEntry fields r)
    rw [he']
  · rintro ⟨r, hr, rfl⟩
    have he : normEntry fields r ∈ rows1.map (normEntry fields) :=
      h.2 _ (List.mem_map.mpr ⟨r, hr, rfl⟩)
    obtain ⟨r', hr', he'⟩ := List.mem_map.mp he
    refine ⟨r', hr', ?_⟩
    rw [← dumpsRec_sortPairs true (normRec fields r'), ← dumpsRec_sortPairs true (normRec fields r)]
    show dumpsRec true (normEntry fields r') = dumpsRec true (normEntry fields r)
    rw [he']

/-! ## C5: signature sensitivity -/

theorem map_eq_self_of_mem {α : Type} (f : α → α) :
    ∀ l : List α, (∀ x ∈ l, f x = x) → l.map f = l
  | [], _ => rfl
  | x :: xs, h => by
    rw [List.map_cons, h x (List.mem_cons_self _ _),
      map_eq_self_of_mem f xs (fun y hy => h y (List.mem_cons_of_mem _ hy))]

/-- The canonical entry list contains exactly the distinct normalized entries
of the rows (as key-sorted records, i.e. Python dict equality). -/
theorem mem_sigEntries (fields : List (List Char)) (rows : List Row) (e : Rec) :
    e ∈ sigEntries fields rows ↔ e ∈ rows.map (normEntry fields) := by
  rw [sigEntries, sigUniqSorted, sortStrs]
  constructor
  · intro he
    obtain ⟨s, hs, hload⟩ := List.mem_filterMap.mp he
    rw [List.mem_insertionSort, mem_firstDedup] at hs
    obtain ⟨rec, hrec, rfl⟩ := List.mem_map.mp hs
    obtain ⟨r, hr, rfl⟩ := List.mem_map.mp hrec
    rw [loadsRec_dumpsRec] at hload
    exact List.mem_map.mpr ⟨r, hr, (Option.some.inj hload)⟩
  · intro he
    obtain ⟨r, hr, rfl⟩ := List.mem_map.mp he
    apply List.mem_filterMap.mpr
    refine ⟨dumpsRec true (normRec fields r), ?_, ?_⟩
    · rw [List.mem_insertionSort, mem_firstDedup]
      exact List.mem_map.mpr ⟨normRec fields r, List.mem_map.mpr ⟨r, hr, rfl⟩, rfl⟩
    · rw [loadsRec_dumpsRec]
      rfl

/-- Every canonical entry is already key-sorted. -/
theorem sigEntries_sorted (fields : List (List Char)) (rows : List Row) :
    ∀ e ∈ sigEntries fields rows, sortPairsByKey e = e := by
  intro e he
  rw [mem_sigEntries] at he
  obtain ⟨r, _, rfl⟩ := List.mem_map.mp he
  exact sortPairsByKey_idem (normRec fields r)

/-- C5 (amended): two row lists over the same signature fields whose sets of
distinct normalized entries differ always produce different canonical entry
lists and different canonical serializations — the exact byte strings fed to
SHA-1. (The hex digests themselves differ unless SHA-1 collides on the two
serializations, which is not ruled out by the pigeonhole bound below.) -/
theorem build_schedule_signature_raw_injective
    (rows1 rows2 : List Row) (fields : List (List Char))
    (h : ∃ e : Rec, (e ∈ rows1.map (normEntry fields) ∧ e ∉ rows2.map (normEntry fields)) ∨
         (e ∈ rows2.map (normEntry fields) ∧ e ∉ rows1.map (normEntry fields))) :
    sigEntries fields rows1 ≠ sigEntries fields rows2 ∧
      sigRaw fields rows1 ≠ sigRaw fields rows2 := by
  obtain ⟨e, he⟩ := h
  have hne : sigEntries fields rows1 ≠ sigEntries fields rows2 := by
    intro heq
    rcases he with ⟨h1, h2⟩ | ⟨h1, h2⟩
    · exact h2 ((mem_sigEntries fields rows2 e).mp
        (heq ▸ (mem_sigEntries fields rows1 e).mpr h1))
    · exact h2 ((mem_sigEntries fields rows1 e).mp
        (heq ▸ (mem_sigEntries fields rows2 e).mpr h1))
  refine ⟨hne, ?_⟩
  intro hraw
  apply hne
  have hinj := dumpsList_inj false _ _ hraw
  rw [map_eq_self_of_mem sortPairsByKey _ (sigEntries_sorted fields rows1),
    map_eq_self_of_mem sortPairsByKey _ (sigEntries_sorted fields rows2)] at hinj
  exact hinj

/-- Witness for the amended C5 at a concrete input: two one-row meters whose
single entry differs in the `v` field. -/
theorem build_schedule_signature_raw_injective_witness :
    sigEntries [['v']] [[(['v'], ['1'])]] ≠ sigEntries [['v']] [[(['v'], ['2'])]] ∧
      sigRaw [['v']] [[(['v'], ['1'])]] ≠ sigRaw [['v']] [[(['v'], ['2'])]] :=
  build_schedule_signature_raw_injective _ _ _
    ⟨[(['v'], ['1'])], Or.inl ⟨by decide, by decide⟩⟩

theorem sha1Block_bound (h : Nat × Nat × Nat × Nat × Nat) (block : List Nat) :
    (sha1Block h block).1 < 4294967296 ∧ (sha1Block h block).2.1 < 4294967296 ∧
      (sha1Block h block).2.2.1 < 4294967296 ∧ (sha1Block h block).2.2.2.1 < 4294967296 ∧
      (sha1Block h block).2.2.2.2 < 4294967296 := by
  refine ⟨?_, ?_, ?_, ?_, ?_⟩ <;>
    · rw [sha1Block]
      exact Nat.mod_lt _ (by norm_num)

theorem sha1_foldl_bound (blocks : List (List Nat)) :
    ∀ h : Nat × Nat × Nat × Nat × Nat,
      (h.1 < 4294967296 ∧ h.2.1 < 4294967296 ∧ h.2.2.1 < 4294967296 ∧
        h.2.2.2.1 < 4294967296 ∧ h.2.2.2.2 < 4294967296) →
      ((blocks.foldl sha1Block h).1 < 4294967296 ∧
        (blocks.foldl sha1Block h).2.1 < 4294967296 ∧
        (blocks.foldl sha1Block h).2.2.1 < 4294967296 ∧
        (blocks.foldl sha1Block h).2.2.2.1 < 4294967296 ∧
        (blocks.foldl sha1Block h).2.2.2.2 < 4294967296) := by
  induction blocks with
  | nil => intro h hb; exact hb
  | cons b bs ih =>
    intro h _
    rw [List.foldl_cons]
    exact ih (sha1Block h b) (sha1Block_bound h b)

/-- The SHA-1 digest is a 160-bit value. -/
theorem sha1Nat_lt (msg : List Nat) : sha1Nat msg < 2 ^ 160 := by
  rw [sha1Nat]
  have hb := sha1_foldl_bound (chunks16 (bytesToWords (sha1Pad msg)))
    (0x67452301, 0xefcdab89, 0x98badcfe, 0x10325476, 0xc3d2e1f0) (by norm_num)
  obtain ⟨b0, b1, b2, b3, b4⟩ := hb
  omega

/-- C5 (counterexample to the literal claim): the hash is a 40-hex-digit
SHA-1 digest, i.e. a 160-bit value, while there are infinitely many distinct
single-entry row sets; by pigeonhole two row sets with different normalized
entry sets receive the same hash, so "different entries always yield
different hashes" is false as a universal statement about
`build_schedule_signature`. -/
theorem build_schedule_signature_hash_not_injective :
    ¬ (∀ (rows1 rows2 : List Row) (fields : List (List Char)),
        (∃ e : Rec, (e ∈ rows1.map (normEntry fields) ∧ e ∉ rows2.map (normEntry fields)) ∨
          (e ∈ rows2.map (normEntry fields) ∧ e ∉ rows1.map (normEntry fields))) →
        (build_schedule_signature rows1 fields).1 ≠ (build_schedule_signature rows2 fields).1) := by
  intro hcl
  obtain ⟨m, n, hmn, hfeq⟩ := Finite.exists_ne_map_eq_of_infinite
    (fun k : ℕ => (⟨sha1Nat (utf8Encode (sigRaw [['v']]
      [[(['v'], List.replicate k 'a')]])), sha1Nat_lt _⟩ : Fin (2 ^ 160)))
  have hrep : ∀ k : ℕ, normEntry [['v']] [(['v'], List.replicate k 'a')]
      = [(['v'], List.replicate k 'a')] := fun k => rfl
  apply hcl [[(['v'], List.replicate m 'a')]] [[(['v'], List.replicate n 'a')]] [['v']]
  · refine ⟨[(['v'], List.replicate m 'a')], Or.inl ⟨?_, ?_⟩⟩
    · rw [List.map_cons, hrep]
      exact List.mem_cons_self _ _
    · intro hmem
      rw [List.map_cons, hrep, List.map_nil] at hmem
      rcases List.mem_cons.mp hmem with hx | hx
      · have hpair := (List.cons.inj hx).1
        have hlen := congrArg List.length (congrArg Prod.snd hpair)
        simp only [List.length_replicate] at hlen
        exact hmn hlen
      · simp at hx
  · show sha1Hex (utf8Encode (sigRaw [['v']] _)) = sha1Hex (utf8Encode (sigRaw [['v']] _))
    rw [sha1Hex, sha1Hex]
    have := congrArg Fin.val hfeq
    dsimp only at this
    rw [this]

/-- Witness for C1: a two-row meter, against the same rows permuted and with
one row duplicated, hashes identically. -/
theorem build_schedule_signature_deterministic_witness :
    build_schedule_signature
        ([[(['p'], ['1'])], [(['p'], ['2'])]] : List Row) [['p']]
      = build_schedule_signature
        ([[(['p'], ['2'])], [(['p'], ['1'])], [(['p'], ['1'])]] : List Row) [['p']] :=
  build_schedule_signature_deterministic _ _ _ ⟨by decide, by decide⟩


/-! ## `UnionFind` and `cluster_points_haversine` (cluster_meters.py lines 143-202)

The exact fallback strategy: an `O(N^2)` pair loop unioning every pair within
the radius, then one `find` per point and renumbering of the roots in
first-encounter order. The floating-point `haversine_m` distance is kept
abstract: the clustering is parameterized by a rational-valued distance
function, and the pair predicate is `dist(i,j) <= radius` exactly as in the
source. -/

/-- Union-find state: the parent list `self.p` and rank list `self.r`. -/
structure UnionFind where
  p : List Nat
  r : List Nat

/-- `UnionFind(n)`: `p = list(range(n))`, `r = [0]*n`. -/
def ufInit (n : Nat) : UnionFind :=
  ⟨List.range n, List.replicate n 0⟩

/-- One parent-pointer read, `self.p[x]` (identity out of range; the
invariant keeps all reads in range). -/
def pstep (p : List Nat) (x : Nat) : Nat := p.getD x x

/-- The `while self.p[x] != x` loop of `find`, with path halving
(`self.p[x] = self.p[self.p[x]]; x = self.p[x]`); the fuel bounds the
iterations and is sufficient whenever the chain reaches a root within it. -/
def findLoop : Nat → List Nat → Nat → List Nat × Nat
  | 0, p, x => (p, x)
  | fuel + 1, p, x =>
    let px := pstep p x
    if px = x then (p, x)
    else
      let g := pstep p px
      findLoop fuel (p.set x g) g

/-- `find(x)`: returns the mutated state and the root. -/
def ufFind (uf : UnionFind) (x : Nat) : UnionFind × Nat :=
  let pr := findLoop uf.p.length uf.p x
  (⟨pr.1, uf.r⟩, pr.2)

/-- `union(a, b)` with union by rank. -/
def ufUnion (uf : UnionFind) (a b : Nat) : UnionFind :=
  let fa := ufFind uf a
  let fb := ufFind fa.1 b
  let uf2 := fb.1
  let ra := fa.2
  let rb := fb.2
  if ra = rb then uf2
  else if uf2.r.getD ra 0 < uf2.r.getD rb 0 then ⟨uf2.p.set ra rb, uf2.r⟩
  else if uf2.r.getD rb 0 < uf2.r.getD ra 0 then ⟨uf2.p.set rb ra, uf2.r⟩
  else ⟨uf2.p.set rb ra, (uf2.r.set ra (uf2.r.getD ra 0 + 1))⟩

/-- The pair order of `for i in range(n): for j in range(i+1, n)`. -/
def pairList (n : Nat) : List (Nat × Nat) :=
  (List.range n).flatMap (fun i => (List.range (n - (i + 1))).map (fun k => (i, i + 1 + k)))

/-- One iteration of the pair loop body: `if hav <= radius_m: uf.union(i, j)`. -/
def ufStep (close : Nat → Nat → Bool) (uf : UnionFind) (ij : Nat × Nat) : UnionFind :=
  if close ij.1 ij.2 then ufUnion uf ij.1 ij.2 else uf

/-- The pair loop: union every pair with `close i j` true. -/
def clusterUF (close : Nat → Nat → Bool) (n : Nat) : UnionFind :=
  (pairList n).foldl (ufStep close) (ufInit n)

/-- `roots = [uf.find(i) for i in range(n)]`: sequential finds, threading the
mutated state. -/
def rootsAux (uf : UnionFind) : List Nat → UnionFind × List Nat
  | [] => (uf, [])
  | i :: is =>
    let fr := ufFind uf i
    let rest := rootsAux fr.1 is
    (rest.1, fr.2 :: rest.2)

/-- `hav <= radius_m` for the pair of points `i`, `j`. -/
def closeB (dist : ℚ → ℚ → ℚ → ℚ → ℚ) (lats lons : List ℚ)
    (radius_m : ℚ) (i j : Nat) : Bool :=
  decide (dist (lats.getD i 0) (lons.getD i 0) (lats.getD j 0) (lons.getD j 0) ≤ radius_m)

/-- The exact fallback of `cluster_points_haversine`, parameterized by the
distance function (the source uses floating-point `haversine_m`): pairwise
union of all pairs within `radius_m`, then root collection and renumbering
to `0..K-1` in first-encounter order (`uniq`/`next_id`). -/
def cluster_points_haversine (dist : ℚ → ℚ → ℚ → ℚ → ℚ)
    (lats lons : List ℚ) (radius_m : ℚ) : List Nat :=
  let n := lats.length
  if n = 0 then []
  else
    let uf := clusterUF (closeB dist lats lons radius_m) n
    let roots := (rootsAux uf (List.range n)).2
    roots.map (fun r => firstIdx r (firstDedup roots))

/-! ### Parent-chain iteration -/

/-- Follow parent pointers `k` times. -/
def iterP (p : List Nat) : Nat → Nat → Nat
  | 0, x => x
  | k + 1, x => iterP p k (pstep p x)

/-- `x` is a root: its parent is itself. -/
def IsRoot (p : List Nat) (x : Nat) : Prop := pstep p x = x

/-- The chain from `x` reaches a root within `k` steps. -/
def RootedIn (p : List Nat) (x k : Nat) : Prop := IsRoot p (iterP p k x)

/-- The root of `x`: the chain stabilizes within `p.length` steps under the
invariant. -/
def rootD (p : List Nat) (x : Nat) : Nat := iterP p p.length x

/-- No nontrivial parent cycles. -/
def Acyc (p : List Nat) : Prop :=
  ∀ x k, 0 < k → iterP p k x = x → IsRoot p x

/-- The union-find parent invariant: length, in-range parents, acyclicity. -/
def UFInv (n : Nat) (p : List Nat) : Prop :=
  p.length = n ∧ (∀ x, x < n → pstep p x < n) ∧ Acyc p

theorem iterP_succ_right (p : List Nat) : ∀ (k : Nat) (x : Nat),
    iterP p (k + 1) x = pstep p (iterP p k x)
  | 0, _ => rfl
  | k + 1, x => iterP_succ_right p k (pstep p x)

theorem iterP_add (p : List Nat) : ∀ (a b x : Nat),
    iterP p (a + b) x = iterP p b (iterP p a x)
  | 0, _, _ => by simp [iterP]
  | a + 1, b, x => by
    rw [show a + 1 + b = (a + b) + 1 from by omega]
    show iterP p (a + b) (pstep p x) = iterP p b (iterP p a (pstep p x))
    exact iterP_add p a b (pstep p x)

theorem iterP_root (p : List Nat) {r : Nat} (hr : IsRoot p r) :
    ∀ k, iterP p k r = r
  | 0 => rfl
  | k + 1 => by
    show iterP p k (pstep p r) = r
    rw [hr]
    exact iterP_root p hr k

theorem rootedIn_mono (p : List Nat) {x k1 k2 : Nat} (h : k1 ≤ k2)
    (hr : RootedIn p x k1) : RootedIn p x k2 := by
  obtain ⟨m, rfl⟩ := Nat.exists_eq_add_of_le h
  show IsRoot p (iterP p (k1 + m) x)
  rw [iterP_add]
  show IsRoot p (iterP p m (iterP p k1 x))
  rw [iterP_root p hr m]
  exact hr

theorem iterP_lt (p : List Nat) (n : Nat) (hb : ∀ x, x < n → pstep p x < n) :
    ∀ k x, x < n → iterP p k x < n
  | 0, _, hx => hx
  | k + 1, x, hx => iterP_lt p n hb k (pstep p x) (hb x hx)

/-- Pigeonhole: under the invariant every chain reaches a root within `n`
steps. -/
theorem exists_rootedIn (n : Nat) (p : List Nat) (hInv : UFInv n p)
    (x : Nat) (hx : x < n) : RootedIn p x n := by
  obtain ⟨hlen, hb, hacyc⟩ := hInv
  have hmaps : ∀ k : Fin (n + 1), iterP p k.1 x < n := fun k => iterP_lt p n hb k.1 x hx
  obtain ⟨k1, k2, hne, heq⟩ := Fintype.exists_ne_map_eq_of_card_lt
    (fun k : Fin (n + 1) => (⟨iterP p k.1 x, hmaps k⟩ : Fin n)) (by simp)
  have hval : iterP p k1.1 x = iterP p k2.1 x := congrArg Fin.val heq
  have hne' : k1.1 ≠ k2.1 := fun h => hne (Fin.ext h)
  rcases Nat.lt_or_ge k1.1 k2.1 with hlt | hge
  · have hcy : iterP p (k2.1 - k1.1) (iterP p k1.1 x) = iterP p k1.1 x := by
      rw [← iterP_add, show k1.1 + (k2.1 - k1.1) = k2.1 from by omega]
      exact hval.symm
    have hroot := hacyc _ _ (by omega) hcy
    exact rootedIn_mono p (le_trans (Nat.le_of_lt_succ k1.2) (le_refl n))
      (show RootedIn p x k1.1 from hroot)
  · have hlt2 : k2.1 < k1.1 := by omega
    have hcy : iterP p (k1.1 - k2.1) (iterP p k2.1 x) = iterP p k2.1 x := by
      rw [← iterP_add, show k2.1 + (k1.1 - k2.1) = k1.1 from by omega]
      exact hval
    have hroot := hacyc _ _ (by omega) hcy
    exact rootedIn_mono p (Nat.le_of_lt_succ k2.2)
      (show RootedIn p x k2.1 from hroot)

theorem rootD_isRoot {n : Nat} {p : List Nat} (hInv : UFInv n p)
    {x : Nat} (hx : x < n) : IsRoot p (rootD p x) := by
  have := exists_rootedIn n p hInv x hx
  rw [rootD, hInv.1]
  exact this

/-- Any root reached from `x` is `rootD p x`. -/
theorem root_reached_eq_rootD {n : Nat} {p : List Nat} (hInv : UFInv n p)
    {x k : Nat} (hx : x < n) (hroot : IsRoot p (iterP p k x)) :
    iterP p k x = rootD p x := by
  have hn : IsRoot p (iterP p n x) := by
    have := exists_rootedIn n p hInv x hx
    exact this
  rcases Nat.le_total k n with h | h
  · obtain ⟨m, rfl⟩ := Nat.exists_eq_add_of_le h
    rw [rootD, hInv.1, iterP_add, iterP_root p hroot]
  · obtain ⟨m, rfl⟩ := Nat.exists_eq_add_of_le h
    rw [rootD, hInv.1] at *
    rw [iterP_add, iterP_root p hn]


/-! ### Mutation lemmas: path halving and root linking -/

theorem pstep_set_ne {p : List Nat} {x g z : Nat} (h : z ≠ x) :
    pstep (p.set x g) z = pstep p z := by
  rw [pstep, pstep, List.getD_eq_getElem?_getD, List.getD_eq_getElem?_getD,
    List.getElem?_set_ne (fun he => h he.symm)]

theorem pstep_set_self {p : List Nat} {x g : Nat} (h : x < p.length) :
    pstep (p.set x g) x = g := by
  rw [pstep, List.getD_eq_getElem?_getD, List.getElem?_set_self h]
  rfl

/-- Orbits avoiding the mutated index are unchanged. -/
theorem iterP_set_avoid {p : List Nat} {x g : Nat} :
    ∀ {k y : Nat}, (∀ j, j < k → iterP (p.set x g) j y ≠ x) →
      iterP (p.set x g) k y = iterP p k y := by
  intro k
  induction k with
  | zero => intro y _; rfl
  | succ k ih =>
    intro y havoid
    have hy : y ≠ x := havoid 0 (by omega)
    show iterP (p.set x g) k (pstep (p.set x g) y) = iterP p k (pstep p y)
    rw [pstep_set_ne hy]
    exact ih (fun j hj => by
      have := havoid (j + 1) (by omega)
      rwa [show iterP (p.set x g) (j + 1) y
        = iterP (p.set x g) j (pstep (p.set x g) y) from rfl,
        pstep_set_ne hy] at this)

theorem iterP_rotate (q : List Nat) {k j y : Nat} (hcy : iterP q k y = y)
    (hj : j ≤ k) : iterP q k (iterP q j y) = iterP q j y := by
  rw [← iterP_add, Nat.add_comm, iterP_add, hcy]

/-- An orbit of the mutated parent list that reaches the mutated index can be
replayed in the original list. -/
theorem orbit_to_set_index {p : List Nat} {x g : Nat} :
    ∀ (m z : Nat), iterP (p.set x g) m z = x → ∃ m', m' ≤ m ∧ iterP p m' z = x := by
  intro m
  induction m using Nat.strong_induction_on with
  | _ m ih =>
    intro z hm
    by_cases hhit : ∃ j, j < m ∧ iterP (p.set x g) j z = x
    · obtain ⟨j, hj, hjx⟩ := hhit
      obtain ⟨m', hm', hx'⟩ := ih j hj z hjx
      exact ⟨m', by omega, hx'⟩
    · push_neg at hhit
      rw [iterP_set_avoid hhit] at hm
      exact ⟨m, le_refl m, hm⟩

/-- Path halving preserves acyclicity. -/
theorem acyc_halving {n : Nat} {p : List Nat} (hInv : UFInv n p) {x : Nat}
    (hx : x < n) (hnr : pstep p x ≠ x) :
    Acyc (p.set x (pstep p (pstep p x))) := by
  obtain ⟨hlen, hb, hacyc⟩ := hInv
  intro y k hk hcy
  by_cases hhit : ∃ j, j < k ∧ iterP (p.set x (pstep p (pstep p x))) j y = x
  · exfalso
    obtain ⟨j, hj, hjx⟩ := hhit
    have hcyx : iterP (p.set x (pstep p (pstep p x))) k x = x := by
      have hrot := iterP_rotate _ hcy (le_of_lt hj)
      rwa [hjx] at hrot
    have hstep : pstep (p.set x (pstep p (pstep p x))) x = pstep p (pstep p x) :=
      pstep_set_self (by omega)
    have hk1 : iterP (p.set x (pstep p (pstep p x))) (k - 1) (pstep p (pstep p x)) = x := by
      have h2 : iterP (p.set x (pstep p (pstep p x))) k x
          = iterP (p.set x (pstep p (pstep p x))) (k - 1)
              (pstep (p.set x (pstep p (pstep p x))) x) := by
        conv_lhs => rw [show k = 1 + (k - 1) from by omega]
        rw [iterP_add]
        rfl
      rw [h2, hstep] at hcyx
      exact hcyx
    obtain ⟨m', _, hm'⟩ := orbit_to_set_index (k - 1) (pstep p (pstep p x)) hk1
    have hcycle : iterP p (2 + m') x = x := by
      rw [iterP_add]
      exact hm'
    exact hnr (hacyc x (2 + m') (by omega) hcycle)
  · push_neg at hhit
    rw [iterP_set_avoid hhit] at hcy
    have hroot := hacyc y k hk hcy
    have hy_ne_x : y ≠ x := by
      intro h
      rw [h] at hroot
      exact hnr hroot
    show pstep (p.set x (pstep p (pstep p x))) y = y
    rw [pstep_set_ne hy_ne_x]
    exact hroot

/-- Path halving preserves the whole invariant. -/
theorem ufInv_halving {n : Nat} {p : List Nat} (hInv : UFInv n p) {x : Nat}
    (hx : x < n) (hnr : pstep p x ≠ x) :
    UFInv n (p.set x (pstep p (pstep p x))) := by
  have hlen := hInv.1
  have hb := hInv.2.1
  refine ⟨by rw [List.length_set]; exact hlen, ?_, acyc_halving hInv hx hnr⟩
  intro z hz
  by_cases hzx : z = x
  · subst hzx
    rw [pstep_set_self (by omega)]
    exact hb _ (hb _ hx)
  · rw [pstep_set_ne hzx]
    exact hb z hz

/-- After halving, every node keeps its root. -/
theorem rootD_halving {n : Nat} {p : List Nat} (hInv : UFInv n p) {x : Nat}
    (hx : x < n) (hnr : pstep p x ≠ x) :
    ∀ y, y < n → rootD (p.set x (pstep p (pstep p x))) y = rootD p y := by
  have hInv' := ufInv_halving hInv hx hnr
  have hb := hInv.2.1
  have hxlen : x < p.length := by rw [hInv.1]; exact hx
  have reach : ∀ k z, z < n → IsRoot p (iterP p k z) →
      ∃ k', iterP (p.set x (pstep p (pstep p x))) k' z = iterP p k z := by
    intro k
    induction k using Nat.strong_induction_on with
    | _ k ih =>
      intro z hz hroot
      by_cases hzx : z = x
      · rw [hzx] at hroot ⊢
        match k, hroot with
        | 0, hroot => exact absurd hroot hnr
        | 1, hroot =>
          refine ⟨1, ?_⟩
          show pstep (p.set x (pstep p (pstep p x))) x = iterP p 1 x
          rw [pstep_set_self hxlen]
          exact hroot
        | (m + 2), hroot =>
          have hsplit : iterP p (m + 2) x = iterP p m (pstep p (pstep p x)) := by
            rw [show m + 2 = 2 + m from by omega, iterP_add]
            rfl
          rw [hsplit] at hroot ⊢
          obtain ⟨k'', hk''⟩ := ih m (by omega) (pstep p (pstep p x))
            (hb _ (hb _ hx)) hroot
          refine ⟨1 + k'', ?_⟩
          rw [iterP_add, show iterP (p.set x (pstep p (pstep p x))) 1 x
            = pstep (p.set x (pstep p (pstep p x))) x from rfl,
            pstep_set_self hxlen]
          exact hk''
      · match k, hroot with
        | 0, _ => exact ⟨0, rfl⟩
        | (m + 1), hroot =>
          obtain ⟨k'', hk''⟩ := ih m (by omega) (pstep p z) (hb z hz) hroot
          refine ⟨1 + k'', ?_⟩
          rw [iterP_add, show iterP (p.set x (pstep p (pstep p x))) 1 z
            = pstep (p.set x (pstep p (pstep p x))) z from rfl, pstep_set_ne hzx]
          exact hk''
  intro y hy
  have hroot := rootD_isRoot hInv hy
  have hxnotroot : rootD p y ≠ x := by
    intro h
    rw [h] at hroot
    exact hnr hroot
  have hroot' : IsRoot (p.set x (pstep p (pstep p x))) (rootD p y) := by
    show pstep _ _ = _
    rw [pstep_set_ne hxnotroot]
    exact hroot
  obtain ⟨k', hk'⟩ := reach p.length y hy (by rw [← rootD]; exact hroot)
  rw [← rootD] at hk'
  have := root_reached_eq_rootD hInv' hy (hk' ▸ hroot')
  rw [hk'] at this
  exact this.symm


/-- Orbits of the original list avoiding the mutated index transfer to the
mutated list. -/
theorem iterP_set_avoid' {p : List Nat} {x g : Nat} :
    ∀ {k y : Nat}, (∀ j, j < k → iterP p j y ≠ x) →
      iterP (p.set x g) k y = iterP p k y := by
  intro k
  induction k with
  | zero => intro y _; rfl
  | succ k ih =>
    intro y havoid
    have hy : y ≠ x := havoid 0 (by omega)
    show iterP (p.set x g) k (pstep (p.set x g) y) = iterP p k (pstep p y)
    rw [pstep_set_ne hy]
    exact ih (fun j hj => havoid (j + 1) (by omega))

/-- Linking one root under another preserves acyclicity. -/
theorem acyc_link {n : Nat} {p : List Nat} (hInv : UFInv n p) {ra rb : Nat}
    (hra : ra < n) (hrb : rb < n) (hrootB : IsRoot p rb) (hne : ra ≠ rb) :
    Acyc (p.set ra rb) := by
  have hlen : ra < p.length := by rw [hInv.1]; exact hra
  have hrootB' : IsRoot (p.set ra rb) rb := by
    show pstep _ _ = _
    rw [pstep_set_ne (Ne.symm hne)]
    exact hrootB
  intro y k hk hcy
  by_cases hhit : ∃ j, j < k ∧ iterP (p.set ra rb) j y = ra
  · exfalso
    obtain ⟨j, hj, hjx⟩ := hhit
    have hcyx : iterP (p.set ra rb) k ra = ra := by
      have hrot := iterP_rotate _ hcy (le_of_lt hj)
      rwa [hjx] at hrot
    have hsplit : iterP (p.set ra rb) k ra
        = iterP (p.set ra rb) (k - 1) (pstep (p.set ra rb) ra) := by
      conv_lhs => rw [show k = 1 + (k - 1) from by omega]
      rw [iterP_add]
      rfl
    rw [hsplit, pstep_set_self hlen, iterP_root _ hrootB'] at hcyx
    exact hne hcyx.symm
  · push_neg at hhit
    rw [iterP_set_avoid hhit] at hcy
    have hroot := hInv.2.2 y k hk hcy
    have hy : y ≠ ra := by
      intro h
      exact (hhit 0 (by omega)) h
    show pstep (p.set ra rb) y = y
    rw [pstep_set_ne hy]
    exact hroot

theorem ufInv_link {n : Nat} {p : List Nat} (hInv : UFInv n p) {ra rb : Nat}
    (hra : ra < n) (hrb : rb < n) (hrootB : IsRoot p rb) (hne : ra ≠ rb) :
    UFInv n (p.set ra rb) := by
  refine ⟨by rw [List.length_set]; exact hInv.1, ?_, acyc_link hInv hra hrb hrootB hne⟩
  intro z hz
  by_cases hzr : z = ra
  · subst hzr
    rw [pstep_set_self (by rw [hInv.1]; exact hra)]
    exact hrb
  · rw [pstep_set_ne hzr]
    exact hInv.2.1 z hz

/-- Linking root `ra` under root `rb` rewires exactly `ra`'s class to `rb`. -/
theorem rootD_link {n : Nat} {p : List Nat} (hInv : UFInv n p) {ra rb : Nat}
    (hra : ra < n) (hrb : rb < n) (hrootA : IsRoot p ra) (hrootB : IsRoot p rb)
    (hne : ra ≠ rb) :
    ∀ y, y < n → rootD (p.set ra rb) y = if rootD p y = ra then rb else rootD p y := by
  have hInv' := ufInv_link hInv hra hrb hrootB hne
  have hlenra : ra < p.length := by rw [hInv.1]; exact hra
  have hrootB' : IsRoot (p.set ra rb) rb := by
    show pstep _ _ = _
    rw [pstep_set_ne (Ne.symm hne)]
    exact hrootB
  intro y hy
  by_cases hcase : rootD p y = ra
  · rw [if_pos hcase]
    have hex : ∃ k, iterP p k y = ra := ⟨p.length, hcase⟩
    have hspec := Nat.find_spec hex
    have havoid : ∀ j, j < Nat.find hex → iterP p j y ≠ ra := fun j hj => Nat.find_min hex hj
    have htrans : iterP (p.set ra rb) (Nat.find hex) y = ra := by
      rw [iterP_set_avoid' havoid]
      exact hspec
    have hreach : iterP (p.set ra rb) (Nat.find hex + 1) y = rb := by
      rw [iterP_succ_right, htrans, pstep_set_self hlenra]
    have := root_reached_eq_rootD hInv' hy (by rw [hreach]; exact hrootB')
    rw [hreach] at this
    exact this.symm
  · rw [if_neg hcase]
    have havoid : ∀ j, iterP p j y ≠ ra := by
      intro j hj
      have : iterP p j y = rootD p y :=
        root_reached_eq_rootD hInv hy (by rw [hj]; exact hrootA)
      rw [hj] at this
      exact hcase this.symm
    have htrans : iterP (p.set ra rb) p.length y = rootD p y := by
      rw [iterP_set_avoid' (fun j _ => havoid j)]
      rfl
    have hroot := rootD_isRoot hInv hy
    have hroot' : IsRoot (p.set ra rb) (rootD p y) := by
      show pstep _ _ = _
      rw [pstep_set_ne hcase]
      exact hroot
    have := root_reached_eq_rootD hInv' hy (by rw [htrans]; exact hroot')
    rw [htrans] at this
    exact this.symm

/-! ### `find` and `union` specifications -/

theorem findLoop_spec {n : Nat} :
    ∀ (fuel : Nat) (p : List Nat) (x : Nat), UFInv n p → x < n → RootedIn p x fuel →
      UFInv n (findLoop fuel p x).1 ∧
      (∀ y, y < n → rootD (findLoop fuel p x).1 y = rootD p y) ∧
      (findLoop fuel p x).2 = rootD p x := by
  intro fuel
  induction fuel with
  | zero =>
    intro p x hInv hx hrooted
    refine ⟨hInv, fun y _ => rfl, ?_⟩
    exact root_reached_eq_rootD hInv hx (k := 0) hrooted
  | succ fuel ih =>
    intro p x hInv hx hrooted
    rw [findLoop]
    by_cases hpx : pstep p x = x
    · rw [if_pos hpx]
      refine ⟨hInv, fun y _ => rfl, ?_⟩
      exact root_reached_eq_rootD hInv hx (k := 0) hpx
    · rw [if_neg hpx]
      have hInv1 := ufInv_halving hInv hx hpx
      have hpres := rootD_halving hInv hx hpx
      have hg_lt : pstep p (pstep p x) < n := hInv.2.1 _ (hInv.2.1 _ hx)
      have hg_root_eq : rootD p (pstep p (pstep p x)) = rootD p x := by
        have h2 : iterP p (2 + p.length) x = iterP p p.length (pstep p (pstep p x)) := by
          rw [iterP_add]
          rfl
        have h2' : iterP p (2 + p.length) x = rootD p x := by
          rw [Nat.add_comm, iterP_add]
          show iterP p 2 (rootD p x) = rootD p x
          exact iterP_root p (rootD_isRoot hInv hx) 2
        have : iterP p p.length (pstep p (pstep p x)) = rootD p x := by rw [← h2, h2']
        rw [rootD, this]
      have hrooted1 : RootedIn (p.set x (pstep p (pstep p x))) (pstep p (pstep p x)) fuel := by
        -- the orbit of g never goes through x
        have havoid : ∀ j, iterP p j (pstep p (pstep p x)) ≠ x := by
          intro j hj
          have hcy : iterP p (2 + j) x = x := by
            rw [iterP_add]
            exact hj
          exact hpx (hInv.2.2 x (2 + j) (by omega) hcy)
        by_cases hpxroot : IsRoot p (pstep p x)
        · have hgpx : pstep p (pstep p x) = pstep p x := hpxroot
          have : IsRoot (p.set x (pstep p (pstep p x))) (pstep p (pstep p x)) := by
            show pstep _ _ = _
            rw [pstep_set_ne (show pstep p (pstep p x) ≠ x from havoid 0)]
            rw [hgpx]
            exact hpxroot
          exact rootedIn_mono _ (Nat.zero_le fuel) this
        · -- the chain from x needs at least two steps; transfer RootedIn
          match fuel, hrooted with
          | 0, hrooted => exact absurd hrooted hpxroot
          | (f + 1), hrooted =>
            have hroot_g : IsRoot p (iterP p f (pstep p (pstep p x))) := by
              have : iterP p (f + 1 + 1) x = iterP p f (pstep p (pstep p x)) := rfl
              rw [← this]
              exact hrooted
            have hroot_g' : RootedIn p (pstep p (pstep p x)) (f + 1) :=
              rootedIn_mono p (by omega) hroot_g
            show IsRoot _ (iterP _ (f + 1) _)
            rw [iterP_set_avoid' (fun j _ => havoid j)]
            have hr := hroot_g'
            show pstep _ _ = _
            rw [pstep_set_ne (havoid (f + 1))]
            exact hr
      obtain ⟨hInvF, hpresF, hrootF⟩ := ih (p.set x (pstep p (pstep p x)))
        (pstep p (pstep p x)) hInv1 hg_lt hrooted1
      refine ⟨hInvF, ?_, ?_⟩
      · intro y hy
        rw [hpresF y hy, hpres y hy]
      · rw [hrootF, hpres _ hg_lt, hg_root_eq]


theorem ufFind_spec {n : Nat} (uf : UnionFind) (x : Nat)
    (hInv : UFInv n uf.p) (hx : x < n) :
    UFInv n (ufFind uf x).1.p ∧
    (∀ y, y < n → rootD (ufFind uf x).1.p y = rootD uf.p y) ∧
    (ufFind uf x).2 = rootD uf.p x ∧ (ufFind uf x).1.r = uf.r := by
  have hrooted : RootedIn uf.p x uf.p.length := by
    rw [hInv.1]
    exact exists_rootedIn n uf.p hInv x hx
  obtain ⟨h1, h2, h3⟩ := findLoop_spec uf.p.length uf.p x hInv hx hrooted
  exact ⟨h1, h2, h3, rfl⟩

theorem ufUnion_spec {n : Nat} (uf : UnionFind) (a b : Nat)
    (hInv : UFInv n uf.p) (ha : a < n) (hb : b < n) :
    UFInv n (ufUnion uf a b).p ∧
    ∃ w, (w = rootD uf.p a ∨ w = rootD uf.p b) ∧
      ∀ y, y < n → rootD (ufUnion uf a b).p y =
        if rootD uf.p y = rootD uf.p a ∨ rootD uf.p y = rootD uf.p b then w
        else rootD uf.p y := by
  obtain ⟨hInv1, hpres1, hra, _⟩ := ufFind_spec uf a hInv ha
  obtain ⟨hInv2, hpres2, hrb, _⟩ := ufFind_spec (ufFind uf a).1 b hInv1 hb
  have hra_lt : rootD uf.p a < n := by
    have := iterP_lt uf.p n hInv.2.1 uf.p.length a ha
    exact this
  have hrb_lt : rootD uf.p b < n := by
    have := iterP_lt uf.p n hInv.2.1 uf.p.length b hb
    exact this
  have hrb2 : (ufFind (ufFind uf a).1 b).2 = rootD uf.p b := by
    rw [hrb, hpres1 b hb]
  have hrootA : IsRoot (ufFind (ufFind uf a).1 b).1.p (rootD uf.p a) := by
    have h := rootD_isRoot hInv2 (x := rootD uf.p a) hra_lt
    rw [hpres2 _ hra_lt, hpres1 _ hra_lt] at h
    -- rootD of a root is itself
    have hr : rootD uf.p (rootD uf.p a) = rootD uf.p a := by
      have hroot := rootD_isRoot hInv ha
      exact (root_reached_eq_rootD hInv hra_lt (k := 0) hroot).symm
    have h2 := rootD_isRoot hInv2 (x := rootD uf.p a) hra_lt
    rw [hpres2 _ hra_lt, hpres1 _ hra_lt, hr] at h2
    exact h2
  have hrootB : IsRoot (ufFind (ufFind uf a).1 b).1.p (rootD uf.p b) := by
    have hr : rootD uf.p (rootD uf.p b) = rootD uf.p b := by
      have hroot := rootD_isRoot hInv hb
      exact (root_reached_eq_rootD hInv hrb_lt (k := 0) hroot).symm
    have h2 := rootD_isRoot hInv2 (x := rootD uf.p b) hrb_lt
    rw [hpres2 _ hrb_lt, hpres1 _ hrb_lt, hr] at h2
    exact h2
  have hpres12 : ∀ y, y < n →
      rootD (ufFind (ufFind uf a).1 b).1.p y = rootD uf.p y := by
    intro y hy
    rw [hpres2 y hy, hpres1 y hy]
  rw [ufUnion]
  by_cases heq : (ufFind uf a).2 = (ufFind (ufFind uf a).1 b).2
  · rw [if_pos heq]
    have heq' : rootD uf.p a = rootD uf.p b := by rw [← hra, heq, hrb2]
    refine ⟨hInv2, rootD uf.p a, Or.inl rfl, ?_⟩
    intro y hy
    rw [hpres12 y hy]
    by_cases hcy : rootD uf.p y = rootD uf.p a
    · rw [if_pos (Or.inl hcy), hcy]
    · rw [if_neg ?_]
      intro hor
      rcases hor with h | h
      · exact hcy h
      · exact hcy (by rw [h, heq'])
  · rw [if_neg heq]
    have hne : rootD uf.p a ≠ rootD uf.p b := by
      intro h
      exact heq (by rw [hra, hrb2, h])
    by_cases hr1 : ((ufFind (ufFind uf a).1 b).1.r.getD (ufFind uf a).2 0 <
        (ufFind (ufFind uf a).1 b).1.r.getD (ufFind (ufFind uf a).1 b).2 0)
    · rw [if_pos hr1]
      refine ⟨?_, rootD uf.p b, Or.inr rfl, ?_⟩
      · show UFInv n ((ufFind (ufFind uf a).1 b).1.p.set (ufFind uf a).2 (ufFind (ufFind uf a).1 b).2)
        rw [hra, hrb2]
        exact ufInv_link hInv2 hra_lt hrb_lt hrootB hne
      · intro y hy
        show rootD ((ufFind (ufFind uf a).1 b).1.p.set (ufFind uf a).2 (ufFind (ufFind uf a).1 b).2) y = _
        rw [hra, hrb2]
        rw [rootD_link hInv2 hra_lt hrb_lt hrootA hrootB hne y hy, hpres12 y hy]
        by_cases hcy : rootD uf.p y = rootD uf.p a
        · rw [if_pos hcy, if_pos (Or.inl hcy)]
        · rw [if_neg hcy]
          by_cases hcy2 : rootD uf.p y = rootD uf.p b
          · rw [if_pos (Or.inr hcy2), hcy2]
          · rw [if_neg ?_]
            intro hor
            rcases hor with h | h
            · exact hcy h
            · exact hcy2 h
    · rw [if_neg hr1]
      have hne' : rootD uf.p b ≠ rootD uf.p a := Ne.symm hne
      have hmain : UFInv n ((ufFind (ufFind uf a).1 b).1.p.set (ufFind (ufFind uf a).1 b).2 (ufFind uf a).2) ∧
          ∀ y, y < n → rootD ((ufFind (ufFind uf a).1 b).1.p.set (ufFind (ufFind uf a).1 b).2 (ufFind uf a).2) y =
            if rootD uf.p y = rootD uf.p a ∨ rootD uf.p y = rootD uf.p b then rootD uf.p a
            else rootD uf.p y := by
        constructor
        · rw [hra, hrb2]
          exact ufInv_link hInv2 hrb_lt hra_lt hrootA hne'
        · intro y hy
          rw [hra, hrb2]
          rw [rootD_link hInv2 hrb_lt hra_lt hrootB hrootA hne' y hy, hpres12 y hy]
          by_cases hcy : rootD uf.p y = rootD uf.p b
          · rw [if_pos hcy, if_pos (Or.inr hcy)]
          · rw [if_neg hcy]
            by_cases hcy2 : rootD uf.p y = rootD uf.p a
            · rw [if_pos (Or.inl hcy2), hcy2]
            · rw [if_neg ?_]
              intro hor
              rcases hor with h | h
              · exact hcy2 h
              · exact hcy h
      by_cases hr2 : ((ufFind (ufFind uf a).1 b).1.r.getD (ufFind (ufFind uf a).1 b).2 0 <
          (ufFind (ufFind uf a).1 b).1.r.getD (ufFind uf a).2 0)
      · rw [if_pos hr2]
        exact ⟨hmain.1, rootD uf.p a, Or.inl rfl, hmain.2⟩
      · rw [if_neg hr2]
        exact ⟨hmain.1, rootD uf.p a, Or.inl rfl, hmain.2⟩


/-! ### Single-linkage connectivity of the pair loop -/

/-- Endpoints within range whose root classes were already merged. -/
def rEq (n : Nat) (p : List Nat) (a b : Nat) : Prop :=
  a < n ∧ b < n ∧ rootD p a = rootD p b

/-- An edge of the processed pair list that the loop actually unioned. -/
def eStep (close : Nat → Nat → Bool) (es : List (Nat × Nat)) (a b : Nat) : Prop :=
  ∃ e ∈ es, close e.1 e.2 = true ∧ ((a = e.1 ∧ b = e.2) ∨ (a = e.2 ∧ b = e.1))

/-- Consecutive points within the radius, in either orientation: one step of
the single-linkage chain of the claim. -/
def CloseRel (dist : ℚ → ℚ → ℚ → ℚ → ℚ) (lats lons : List ℚ)
    (radius_m : ℚ) (n a b : Nat) : Prop :=
  (a < b ∧ b < n ∧ closeB dist lats lons radius_m a b = true) ∨
  (b < a ∧ a < n ∧ closeB dist lats lons radius_m b a = true)

theorem rtg_lift {α : Type} {r s : α → α → Prop}
    (h : ∀ a b, r a b → Relation.ReflTransGen s a b) :
    ∀ {y z : α}, Relation.ReflTransGen r y z → Relation.ReflTransGen s y z := by
  intro y z hr
  induction hr with
  | refl => exact Relation.ReflTransGen.refl
  | tail _ hstep ih => exact Relation.ReflTransGen.trans ih (h _ _ hstep)

theorem mem_pairList {n i j : Nat} : (i, j) ∈ pairList n ↔ i < j ∧ j < n := by
  simp only [pairList, List.mem_flatMap, List.mem_map, List.mem_range]
  constructor
  · rintro ⟨a, ha, k, hk, heq⟩
    obtain ⟨h1, h2⟩ := Prod.mk.injEq .. ▸ heq
    omega
  · rintro ⟨h1, h2⟩
    exact ⟨i, by omega, j - i - 1, by omega, by simp; omega⟩

theorem pstep_range (n y : Nat) : pstep (List.range n) y = y := by
  by_cases h : y < n
  · rw [pstep, List.getD_eq_getElem _ _ (by simpa using h)]
    simp
  · rw [pstep, List.getD_eq_default]
    simpa using h

theorem ufInit_inv (n : Nat) : UFInv n (ufInit n).p := by
  refine ⟨List.length_range n, ?_, ?_⟩
  · intro x hx
    rw [show (ufInit n).p = List.range n from rfl, pstep_range]
    exact hx
  · intro x k _ _
    show pstep _ _ = _
    rw [show (ufInit n).p = List.range n from rfl, pstep_range]

theorem rootD_ufInit (n y : Nat) : rootD (ufInit n).p y = y := by
  have hroot : IsRoot (ufInit n).p y := pstep_range n y
  exact (iterP_root _ hroot _)

/-- How `union` rewires equality of roots: the two argument classes merge,
everything else is untouched. -/
theorem ufUnion_rootD_iff {n : Nat} (uf : UnionFind) (a b : Nat)
    (hInv : UFInv n uf.p) (ha : a < n) (hb : b < n) {y z : Nat}
    (hy : y < n) (hz : z < n) :
    rootD (ufUnion uf a b).p y = rootD (ufUnion uf a b).p z ↔
      (rootD uf.p y = rootD uf.p z ∨
       ((rootD uf.p y = rootD uf.p a ∨ rootD uf.p y = rootD uf.p b) ∧
        (rootD uf.p z = rootD uf.p a ∨ rootD uf.p z = rootD uf.p b))) := by
  obtain ⟨_, w, hw, hmap⟩ := ufUnion_spec uf a b hInv ha hb
  rw [hmap y hy, hmap z hz]
  by_cases hcy : rootD uf.p y = rootD uf.p a ∨ rootD uf.p y = rootD uf.p b
  · rw [if_pos hcy]
    by_cases hcz : rootD uf.p z = rootD uf.p a ∨ rootD uf.p z = rootD uf.p b
    · rw [if_pos hcz]
      constructor
      · intro _
        exact Or.inr ⟨hcy, hcz⟩
      · intro _
        rfl
    · rw [if_neg hcz]
      constructor
      · intro hwz
        rcases hw with h | h
        · exact absurd (Or.inl (hwz.symm.trans h)) hcz
        · exact absurd (Or.inr (hwz.symm.trans h)) hcz
      · rintro (h | ⟨_, h2⟩)
        · rcases hcy with h1 | h1
          · exact absurd (Or.inl (h.symm.trans h1)) hcz
          · exact absurd (Or.inr (h.symm.trans h1)) hcz
        · exact absurd h2 hcz
  · rw [if_neg hcy]
    by_cases hcz : rootD uf.p z = rootD uf.p a ∨ rootD uf.p z = rootD uf.p b
    · rw [if_pos hcz]
      constructor
      · intro hyw
        rcases hw with h | h
        · exact absurd (Or.inl (hyw.trans h)) hcy
        · exact absurd (Or.inr (hyw.trans h)) hcy
      · rintro (h | ⟨h1, _⟩)
        · rcases hcz with h2 | h2
          · exact absurd (Or.inl (h.trans h2)) hcy
          · exact absurd (Or.inr (h.trans h2)) hcy
        · exact absurd h1 hcy
    · rw [if_neg hcz]
      constructor
      · exact Or.inl
      · rintro (h | ⟨h1, _⟩)
        · exact h
        · exact absurd h1 hcy


/-- The pair loop builds exactly the connectivity closure of the processed
edges over the classes it started from. -/
theorem clusterFold_spec {n : Nat} (close : Nat → Nat → Bool) :
    ∀ (es : List (Nat × Nat)) (uf : UnionFind), UFInv n uf.p →
      (∀ e ∈ es, e.1 < n ∧ e.2 < n) →
      UFInv n (es.foldl (ufStep close) uf).p ∧
      ∀ y z, y < n → z < n →
        ((rootD (es.foldl (ufStep close) uf).p y = rootD (es.foldl (ufStep close) uf).p z) ↔
          Relation.ReflTransGen (fun a b => rEq n uf.p a b ∨ eStep close es a b) y z) := by
  intro es
  induction es with
  | nil =>
    intro uf hInv _
    refine ⟨hInv, ?_⟩
    intro y z hy hz
    constructor
    · intro h
      exact Relation.ReflTransGen.single (Or.inl ⟨hy, hz, h⟩)
    · intro h
      induction h with
      | refl => rfl
      | tail _ hstep ihh =>
        rcases hstep with ⟨hb, _, heq⟩ | ⟨e, he, _⟩
        · exact (ihh hb).trans heq
        · exact absurd he (List.not_mem_nil e)
  | cons e es ih =>
    intro uf hInv hbounds
    have he := hbounds e (List.mem_cons_self e es)
    have hbounds' : ∀ e2, e2 ∈ es → e2.1 < n ∧ e2.2 < n :=
      fun e2 h => hbounds e2 (List.mem_cons_of_mem e h)
    have hInv' : UFInv n (ufStep close uf e).p := by
      rw [ufStep]
      by_cases hc : close e.1 e.2 = true
      · rw [if_pos hc]
        exact (ufUnion_spec uf e.1 e.2 hInv he.1 he.2).1
      · rw [if_neg hc]
        exact hInv
    obtain ⟨hInvF, hiff⟩ := ih (ufStep close uf e) hInv' hbounds'
    rw [List.foldl_cons]
    refine ⟨hInvF, ?_⟩
    intro y z hy hz
    rw [hiff y z hy hz]
    constructor
    · refine rtg_lift ?_ (y := y) (z := z)
      intro a b hab
      rcases hab with ⟨ha, hb, heq⟩ | ⟨e2, he2, hrest⟩
      · by_cases hc : close e.1 e.2 = true
        · rw [ufStep, if_pos hc,
            ufUnion_rootD_iff uf e.1 e.2 hInv he.1 he.2 ha hb] at heq
          have hedge : eStep close (e :: es) e.1 e.2 :=
            ⟨e, List.mem_cons_self e es, hc, Or.inl ⟨rfl, rfl⟩⟩
          have hedge2 : eStep close (e :: es) e.2 e.1 :=
            ⟨e, List.mem_cons_self e es, hc, Or.inr ⟨rfl, rfl⟩⟩
          rcases heq with h | ⟨h1, h2⟩
          · exact Relation.ReflTransGen.single (Or.inl ⟨ha, hb, h⟩)
          · rcases h1 with h1 | h1 <;> rcases h2 with h2 | h2
            · exact Relation.ReflTransGen.single (Or.inl ⟨ha, hb, h1.trans h2.symm⟩)
            · exact Relation.ReflTransGen.trans
                (Relation.ReflTransGen.single (Or.inl ⟨ha, he.1, h1⟩))
                (Relation.ReflTransGen.trans
                  (Relation.ReflTransGen.single (Or.inr hedge))
                  (Relation.ReflTransGen.single (Or.inl ⟨he.2, hb, h2.symm⟩)))
            · exact Relation.ReflTransGen.trans
                (Relation.ReflTransGen.single (Or.inl ⟨ha, he.2, h1⟩))
                (Relation.ReflTransGen.trans
                  (Relation.ReflTransGen.single (Or.inr hedge2))
                  (Relation.ReflTransGen.single (Or.inl ⟨he.1, hb, h2.symm⟩)))
            · exact Relation.ReflTransGen.single (Or.inl ⟨ha, hb, h1.trans h2.symm⟩)
        · rw [ufStep, if_neg hc] at heq
          exact Relation.ReflTransGen.single (Or.inl ⟨ha, hb, heq⟩)
      · exact Relation.ReflTransGen.single
          (Or.inr ⟨e2, List.mem_cons_of_mem e he2, hrest⟩)
    · refine rtg_lift ?_ (y := y) (z := z)
      intro a b hab
      rcases hab with ⟨ha, hb, heq⟩ | ⟨e2, he2, hc2, hor⟩
      · refine Relation.ReflTransGen.single (Or.inl ⟨ha, hb, ?_⟩)
        rw [ufStep]
        by_cases hc : close e.1 e.2 = true
        · rw [if_pos hc]
          exact (ufUnion_rootD_iff uf e.1 e.2 hInv he.1 he.2 ha hb).mpr (Or.inl heq)
        · rw [if_neg hc]
          exact heq
      · rcases List.mem_cons.mp he2 with rfl | hmem
        · have hkey : rootD (ufStep close uf e2).p e2.1 = rootD (ufStep close uf e2).p e2.2 := by
            rw [ufStep, if_pos hc2]
            exact (ufUnion_rootD_iff uf e2.1 e2.2 hInv he.1 he.2 he.1 he.2).mpr
              (Or.inr ⟨Or.inl rfl, Or.inr rfl⟩)
          rcases hor with ⟨ha2, hb2⟩ | ⟨ha2, hb2⟩
          · subst ha2
            subst hb2
            exact Relation.ReflTransGen.single (Or.inl ⟨he.1, he.2, hkey⟩)
          · subst ha2
            subst hb2
            exact Relation.ReflTransGen.single (Or.inl ⟨he.2, he.1, hkey.symm⟩)
        · exact Relation.ReflTransGen.single (Or.inr ⟨e2, hmem, hc2, hor⟩)


theorem eStep_pairList {close : Nat → Nat → Bool} {n a b : Nat} :
    eStep close (pairList n) a b ↔
      ((a < b ∧ b < n ∧ close a b = true) ∨ (b < a ∧ a < n ∧ close b a = true)) := by
  constructor
  · rintro ⟨⟨i, j⟩, he, hc, hor⟩
    obtain ⟨hij, hjn⟩ := mem_pairList.mp he
    rcases hor with ⟨ha, hb⟩ | ⟨ha, hb⟩
    · subst ha; subst hb
      exact Or.inl ⟨hij, hjn, hc⟩
    · subst ha; subst hb
      exact Or.inr ⟨hij, hjn, hc⟩
  · rintro (⟨hab, hbn, hc⟩ | ⟨hba, han, hc⟩)
    · exact ⟨(a, b), mem_pairList.mpr ⟨hab, hbn⟩, hc, Or.inl ⟨rfl, rfl⟩⟩
    · exact ⟨(b, a), mem_pairList.mpr ⟨hba, han⟩, hc, Or.inr ⟨rfl, rfl⟩⟩

/-- The whole pair loop: same root iff connected by a chain of close pairs. -/
theorem clusterUF_spec (close : Nat → Nat → Bool) (n : Nat) :
    UFInv n (clusterUF close n).p ∧
    ∀ y z, y < n → z < n →
      (rootD (clusterUF close n).p y = rootD (clusterUF close n).p z ↔
        Relation.ReflTransGen
          (fun a b => (a < b ∧ b < n ∧ close a b = true) ∨
            (b < a ∧ a < n ∧ close b a = true)) y z) := by
  have hbounds : ∀ e ∈ pairList n, e.1 < n ∧ e.2 < n := by
    rintro ⟨i, j⟩ he
    obtain ⟨h1, h2⟩ := mem_pairList.mp he
    exact ⟨by omega, h2⟩
  obtain ⟨hInv, hiff⟩ := clusterFold_spec close (pairList n) (ufInit n) (ufInit_inv n) hbounds
  refine ⟨hInv, ?_⟩
  intro y z hy hz
  rw [show clusterUF close n = (pairList n).foldl (ufStep close) (ufInit n) from rfl,
    hiff y z hy hz]
  constructor
  · refine rtg_lift ?_ (y := y) (z := z)
    intro a b hab
    rcases hab with ⟨_, _, heq⟩ | hstep
    · rw [rootD_ufInit, rootD_ufInit] at heq
      subst heq
      exact Relation.ReflTransGen.refl
    · exact Relation.ReflTransGen.single (eStep_pairList.mp hstep)
  · refine rtg_lift ?_ (y := y) (z := z)
    intro a b hab
    exact Relation.ReflTransGen.single (Or.inr (eStep_pairList.mpr hab))

theorem rootsAux_spec {n : Nat} :
    ∀ (is : List Nat) (uf : UnionFind), UFInv n uf.p → (∀ i ∈ is, i < n) →
      (rootsAux uf is).2 = is.map (fun i => rootD uf.p i) := by
  intro is
  induction is with
  | nil => intro uf _ _; rfl
  | cons i is ih =>
    intro uf hInv hbounds
    have hi := hbounds i (List.mem_cons_self i is)
    obtain ⟨hInv1, hpres, hfr, _⟩ := ufFind_spec uf i hInv hi
    show ((rootsAux (ufFind uf i).1 is).1, (ufFind uf i).2 :: (rootsAux (ufFind uf i).1 is).2).2
      = _
    rw [List.map_cons]
    have htail := ih (ufFind uf i).1 hInv1 (fun j hj => hbounds j (List.mem_cons_of_mem i hj))
    rw [show ((rootsAux (ufFind uf i).1 is).1, (ufFind uf i).2 :: (rootsAux (ufFind uf i).1 is).2).2
        = (ufFind uf i).2 :: (rootsAux (ufFind uf i).1 is).2 from rfl, htail, hfr]
    congr 1
    apply List.map_congr_left
    intro j hj
    exact hpres j (hbounds j (List.mem_cons_of_mem i hj))

/-! ### Renumbering to first-encounter labels -/

theorem firstIdx_getD {α : Type} [DecidableEq α] (d : α) :
    ∀ (l : List α) (a : α), a ∈ l → l.getD (firstIdx a l) d = a ∧ firstIdx a l < l.length := by
  intro l
  induction l with
  | nil => intro a ha; simp at ha
  | cons c t ih =>
    intro a ha
    by_cases hc : c = a
    · rw [firstIdx, if_pos hc]
      exact ⟨hc, by simp⟩
    · rw [firstIdx, if_neg hc]
      have hat : a ∈ t := by
        rcases List.mem_cons.mp ha with h | h
        · exact absurd h.symm hc
        · exact h
      obtain ⟨h1, h2⟩ := ih a hat
      refine ⟨?_, by simpa using h2⟩
      rw [List.getD_cons_succ]
      exact h1

theorem firstIdx_inj {α : Type} [DecidableEq α] {l : List α} {a b : α}
    (ha : a ∈ l) (hb : b ∈ l) (h : firstIdx a l = firstIdx b l) : a = b := by
  have h1 := (firstIdx_getD a l a ha).1
  have h2 := (firstIdx_getD a l b hb).1
  rw [← h1, ← h2, h]

theorem firstIdx_nodup_getD {α : Type} [DecidableEq α] (d : α) :
    ∀ (l : List α), l.Nodup → ∀ i, i < l.length → firstIdx (l.getD i d) l = i := by
  intro l
  induction l with
  | nil => intro _ i hi; simp at hi
  | cons c t ih =>
    intro hnd i hi
    obtain ⟨hct, hndt⟩ := List.nodup_cons.mp hnd
    match i with
    | 0 =>
      rw [List.getD_cons_zero, firstIdx, if_pos rfl]
    | i + 1 =>
      rw [List.getD_cons_succ]
      have hit : i < t.length := by simpa using hi
      have hmem : t.getD i d ∈ t := by
        rw [List.getD_eq_getElem t d hit]
        exact List.getElem_mem hit
      rw [firstIdx, if_neg (fun h => hct (by rw [h]; exact hmem))]
      rw [ih hndt i hit]

theorem firstDedup_map_bounded {α β : Type} [DecidableEq α] [DecidableEq β] (f : α → β) :
    ∀ (k : Nat) (l : List α), l.length ≤ k →
      (∀ a ∈ l, ∀ b ∈ l, f a = f b → a = b) →
      firstDedup (l.map f) = (firstDedup l).map f := by
  intro k
  induction k with
  | zero =>
    intro l hl _
    rw [List.length_eq_zero.mp (Nat.le_zero.mp hl)]
    simp [firstDedup_nil]
  | succ k ih =>
    intro l hl hinj
    match l with
    | [] => simp [firstDedup_nil]
    | v :: vs =>
      rw [List.map_cons, firstDedup_cons, firstDedup_cons, List.map_cons]
      congr 1
      have hfilter : (vs.map f).filter (fun w => w ≠ f v)
          = (vs.filter (fun w => w ≠ v)).map f := by
        rw [List.filter_map]
        congr 1
        apply List.filter_congr
        intro a ha
        show decide (f a ≠ f v) = decide (a ≠ v)
        apply decide_eq_decide.mpr
        constructor
        · intro hne hav
          exact hne (congrArg f hav)
        · intro hne hfeq
          exact hne (hinj a (List.mem_cons_of_mem v ha) v (List.mem_cons_self v vs) hfeq)
      rw [hfilter]
      refine ih (vs.filter (fun w => w ≠ v)) ?_ ?_
      · calc (vs.filter (fun w => w ≠ v)).length ≤ vs.length := List.length_filter_le _ _
          _ ≤ k := by simpa using hl
      · intro a ha b hb h
        exact hinj a (List.mem_cons_of_mem v (List.mem_of_mem_filter ha))
          b (List.mem_cons_of_mem v (List.mem_of_mem_filter hb)) h

theorem firstDedup_map {α β : Type} [DecidableEq α] [DecidableEq β] (f : α → β)
    (l : List α) (hinj : ∀ a ∈ l, ∀ b ∈ l, f a = f b → a = b) :
    firstDedup (l.map f) = (firstDedup l).map f :=
  firstDedup_map_bounded f l.length l le_rfl hinj

theorem map_firstIdx_range {α : Type} [DecidableEq α] (d : α) (l : List α) (hl : l.Nodup) :
    l.map (fun r => firstIdx r l) = List.range l.length := by
  apply List.ext_getElem
  · simp
  · intro i h1 h2
    have hil : i < l.length := by simpa using h1
    rw [List.getElem_map, List.getElem_range]
    have := firstIdx_nodup_getD d l hl i hil
    rw [List.getD_eq_getElem l d hil] at this
    exact this

theorem getD_map_lt {α β : Type} (f : α → β) (l : List α) (d : β) (d2 : α)
    (i : Nat) (h : i < l.length) : (l.map f).getD i d = f (l.getD i d2) := by
  rw [List.getD_eq_getElem _ _ (by simpa using h), List.getD_eq_getElem _ _ h,
    List.getElem_map]


/-- C2: the exact fallback of `cluster_points_haversine` returns one label per
point; two points get the same label iff they are connected by a chain of
points with consecutive pairs within `radius_m` of the (abstracted) haversine
distance; and the distinct labels, in first-encounter order over the points in
input order, are exactly `0..K-1`. -/
theorem cluster_points_haversine_spec (dist : ℚ → ℚ → ℚ → ℚ → ℚ)
    (lats lons : List ℚ) (radius_m : ℚ) :
    (cluster_points_haversine dist lats lons radius_m).length = lats.length ∧
    (∀ y z, y < lats.length → z < lats.length →
      ((cluster_points_haversine dist lats lons radius_m).getD y 0 =
         (cluster_points_haversine dist lats lons radius_m).getD z 0 ↔
        Relation.ReflTransGen (CloseRel dist lats lons radius_m lats.length) y z)) ∧
    firstDedup (cluster_points_haversine dist lats lons radius_m) =
      List.range (firstDedup (cluster_points_haversine dist lats lons radius_m)).length := by
  by_cases hn : lats.length = 0
  · have hcl0 : cluster_points_haversine dist lats lons radius_m =
        (if lats.length = 0 then []
         else ((rootsAux (clusterUF (closeB dist lats lons radius_m) lats.length) (List.range lats.length)).2).map (fun r => firstIdx r (firstDedup ((rootsAux (clusterUF (closeB dist lats lons radius_m) lats.length) (List.range lats.length)).2)))) := rfl
    have hcl : cluster_points_haversine dist lats lons radius_m = [] := by
      rw [hcl0, if_pos hn]
    rw [hcl]
    refine ⟨by rw [hn]; rfl, ?_, by rw [firstDedup_nil]; rfl⟩
    intro y z hy _
    rw [hn] at hy
    exact absurd hy (Nat.not_lt_zero y)
  · have hcl0 : cluster_points_haversine dist lats lons radius_m =
        (if lats.length = 0 then []
         else ((rootsAux (clusterUF (closeB dist lats lons radius_m) lats.length) (List.range lats.length)).2).map (fun r => firstIdx r (firstDedup ((rootsAux (clusterUF (closeB dist lats lons radius_m) lats.length) (List.range lats.length)).2)))) := rfl
    have hcl : cluster_points_haversine dist lats lons radius_m =
        ((rootsAux (clusterUF (closeB dist lats lons radius_m) lats.length) (List.range lats.length)).2).map (fun r => firstIdx r (firstDedup ((rootsAux (clusterUF (closeB dist lats lons radius_m) lats.length) (List.range lats.length)).2))) := by
      rw [hcl0, if_neg hn]
    obtain ⟨hInvU, hiffU⟩ := clusterUF_spec (closeB dist lats lons radius_m) lats.length
    have hroots : (rootsAux (clusterUF (closeB dist lats lons radius_m) lats.length) (List.range lats.length)).2 = (List.range lats.length).map (fun i => rootD (clusterUF (closeB dist lats lons radius_m) lats.length).p i) :=
      rootsAux_spec _ _ hInvU (fun i hi => List.mem_range.mp hi)
    have hrootsLen : ((rootsAux (clusterUF (closeB dist lats lons radius_m) lats.length) (List.range lats.length)).2).length = lats.length := by
      rw [hroots, List.length_map, List.length_range]
    have hmemroots : ∀ x, x < lats.length → rootD (clusterUF (closeB dist lats lons radius_m) lats.length).p x ∈ (rootsAux (clusterUF (closeB dist lats lons radius_m) lats.length) (List.range lats.length)).2 := by
      intro x hx
      rw [hroots]
      exact List.mem_map.mpr ⟨x, List.mem_range.mpr hx, rfl⟩
    have hrootsGetD : ∀ x, x < lats.length → ((rootsAux (clusterUF (closeB dist lats lons radius_m) lats.length) (List.range lats.length)).2).getD x 0 = rootD (clusterUF (closeB dist lats lons radius_m) lats.length).p x := by
      intro x hx
      rw [hroots, getD_map_lt _ _ 0 0 x (by rw [List.length_range]; exact hx)]
      congr 1
      rw [List.getD_eq_getElem _ _ (by rw [List.length_range]; exact hx), List.getElem_range]
    have hgetD : ∀ x, x < lats.length →
        (cluster_points_haversine dist lats lons radius_m).getD x 0
          = firstIdx (rootD (clusterUF (closeB dist lats lons radius_m) lats.length).p x) (firstDedup ((rootsAux (clusterUF (closeB dist lats lons radius_m) lats.length) (List.range lats.length)).2)) := by
      intro x hx
      rw [hcl, getD_map_lt _ _ 0 0 x (by rw [hrootsLen]; exact hx), hrootsGetD x hx]
    refine ⟨?_, ?_, ?_⟩
    · rw [hcl, List.length_map, hrootsLen]
    · intro y z hy hz
      rw [hgetD y hy, hgetD z hz]
      constructor
      · intro h
        have hyz : rootD (clusterUF (closeB dist lats lons radius_m) lats.length).p y = rootD (clusterUF (closeB dist lats lons radius_m) lats.length).p z :=
          firstIdx_inj ((mem_firstDedup _ _).mpr (hmemroots y hy))
            ((mem_firstDedup _ _).mpr (hmemroots z hz)) h
        exact (hiffU y z hy hz).mp hyz
      · intro h
        have hyz : rootD (clusterUF (closeB dist lats lons radius_m) lats.length).p y = rootD (clusterUF (closeB dist lats lons radius_m) lats.length).p z := (hiffU y z hy hz).mpr h
        rw [hyz]
    · rw [hcl]
      have hinj : ∀ a, a ∈ (rootsAux (clusterUF (closeB dist lats lons radius_m) lats.length) (List.range lats.length)).2 → ∀ b, b ∈ (rootsAux (clusterUF (closeB dist lats lons radius_m) lats.length) (List.range lats.length)).2 →
          firstIdx a (firstDedup ((rootsAux (clusterUF (closeB dist lats lons radius_m) lats.length) (List.range lats.length)).2)) = firstIdx b (firstDedup ((rootsAux (clusterUF (closeB dist lats lons radius_m) lats.length) (List.range lats.length)).2)) → a = b := by
        intro a ha b hb h
        exact firstIdx_inj ((mem_firstDedup _ a).mpr ha) ((mem_firstDedup _ b).mpr hb) h
      rw [firstDedup_map _ _ hinj, map_firstIdx_range 0 _ (nodup_firstDedup _),
        List.length_range]

theorem cluster_points_haversine_spec_witness :
    ((cluster_points_haversine (fun _ _ _ _ => (0 : ℚ)) [(0 : ℚ), 1] [(0 : ℚ), 0] 0).getD 0 0 =
       (cluster_points_haversine (fun _ _ _ _ => (0 : ℚ)) [(0 : ℚ), 1] [(0 : ℚ), 0] 0).getD 1 0 ↔
      Relation.ReflTransGen
        (CloseRel (fun _ _ _ _ => (0 : ℚ)) [(0 : ℚ), 1] [(0 : ℚ), 0] 0
          ([(0 : ℚ), 1].length)) 0 1) :=
  (cluster_points_haversine_spec (fun _ _ _ _ => 0) [0, 1] [0, 0] 0).2.1 0 1
    (by decide) (by decide)


/-! ### Decimal formatting of cluster ids -/

/-- `f"C\x7bglobal_cluster_id:05d\x7d"`: pad the decimal digits to width 5. -/
def fmt05 (n : Nat) : List Char :=
  List.replicate (5 - (natDigits n).length) '0' ++ natDigits n

def cidOf (gid : Nat) : List Char := 'C' :: fmt05 gid

/-- Value of a decimal digit character. -/
def digitVal (c : Char) : Nat := c.toNat - 48

/-- Evaluate a digit string back to the number it denotes. -/
def digitsVal (l : List Char) : Nat := l.foldl (fun a c => 10 * a + digitVal c) 0

theorem natDigitsAux_append : ∀ (fuel n : Nat) (ds : List Char),
    natDigitsAux fuel n ds = natDigitsAux fuel n [] ++ ds := by
  intro fuel
  induction fuel with
  | zero => intro n ds; rfl
  | succ fuel ih =>
    intro n ds
    show (if n / 10 = 0 then Nat.digitChar (n % 10) :: ds
        else natDigitsAux fuel (n / 10) (Nat.digitChar (n % 10) :: ds)) = _
    by_cases h : n / 10 = 0
    · rw [if_pos h]
      show _ = (if n / 10 = 0 then _ else _) ++ ds
      rw [if_pos h]
      rfl
    · rw [if_neg h]
      show _ = (if n / 10 = 0 then Nat.digitChar (n % 10) :: ([] : List Char)
          else natDigitsAux fuel (n / 10) [Nat.digitChar (n % 10)]) ++ ds
      rw [if_neg h, ih (n / 10) (Nat.digitChar (n % 10) :: ds),
        ih (n / 10) [Nat.digitChar (n % 10)], List.append_assoc]
      rfl

theorem natDigitsAux_fuel (n : Nat) : ∀ (fuel1 fuel2 : Nat) (ds : List Char),
    n < fuel1 → n < fuel2 → natDigitsAux fuel1 n ds = natDigitsAux fuel2 n ds := by
  induction n using Nat.strong_induction_on with
  | _ n ih =>
    intro fuel1 fuel2 ds h1 h2
    match fuel1, fuel2 with
    | f1 + 1, f2 + 1 =>
      show (if n / 10 = 0 then _ else natDigitsAux f1 (n / 10) _)
        = (if n / 10 = 0 then _ else natDigitsAux f2 (n / 10) _)
      by_cases h : n / 10 = 0
      · rw [if_pos h, if_pos h]
      · rw [if_neg h, if_neg h]
        have hpos : 0 < n := by
          rcases Nat.eq_zero_or_pos n with h0 | h0
          · exact absurd (by rw [h0]) h
          · exact h0
        have hlt : n / 10 < n := Nat.div_lt_self hpos (by norm_num)
        exact ih (n / 10) hlt f1 f2 _ (by omega) (by omega)

theorem digitVal_digitChar : ∀ d, d < 10 → digitVal (Nat.digitChar d) = d := by decide

theorem digitsVal_append_singleton (l : List Char) (c : Char) :
    digitsVal (l ++ [c]) = 10 * digitsVal l + digitVal c := by
  rw [digitsVal, digitsVal, List.foldl_append]
  rfl

theorem digitsVal_natDigits : ∀ n : Nat, digitsVal (natDigits n) = n := by
  intro n
  induction n using Nat.strong_induction_on with
  | _ n ih =>
    rw [natDigits]
    show digitsVal (if n / 10 = 0 then [Nat.digitChar (n % 10)]
      else natDigitsAux n (n / 10) [Nat.digitChar (n % 10)]) = n
    by_cases h : n / 10 = 0
    · rw [if_pos h]
      have hn : n < 10 := by
        by_contra hge
        have : 10 ≤ n := Nat.le_of_not_lt hge
        have := Nat.le_div_iff_mul_le (by norm_num : 0 < 10) |>.mpr (by omega : 1 * 10 ≤ n)
        omega
      rw [Nat.mod_eq_of_lt hn]
      show 10 * 0 + digitVal (Nat.digitChar n) = n
      rw [digitVal_digitChar n hn]
      omega
    · rw [if_neg h, natDigitsAux_append]
      have hpos : 0 < n := by
        rcases Nat.eq_zero_or_pos n with h0 | h0
        · exact absurd (by rw [h0]) h
        · exact h0
      have hlt : n / 10 < n := Nat.div_lt_self hpos (by norm_num)
      have hfuel : natDigitsAux n (n / 10) [] = natDigits (n / 10) :=
        natDigitsAux_fuel (n / 10) n (n / 10 + 1) [] hlt (Nat.lt_succ_self _)
      rw [hfuel, digitsVal_append_singleton, ih (n / 10) hlt,
        digitVal_digitChar _ (Nat.mod_lt _ (by norm_num))]
      omega

theorem foldl_digits_replicate_zero : ∀ k : Nat,
    List.foldl (fun a c => 10 * a + digitVal c) 0 (List.replicate k '0') = 0 := by
  intro k
  induction k with
  | zero => rfl
  | succ k ihk =>
    rw [List.replicate_succ, List.foldl_cons]
    show List.foldl _ (10 * 0 + digitVal '0') _ = 0
    have : 10 * 0 + digitVal '0' = 0 := by decide
    rw [this]
    exact ihk

theorem digitsVal_fmt05 (n : Nat) : digitsVal (fmt05 n) = n := by
  rw [fmt05, digitsVal, List.foldl_append, foldl_digits_replicate_zero]
  exact digitsVal_natDigits n

theorem cidOf_inj {a b : Nat} (h : cidOf a = cidOf b) : a = b := by
  have h2 : fmt05 a = fmt05 b := congrArg List.tail h
  calc a = digitsVal (fmt05 a) := (digitsVal_fmt05 a).symm
    _ = digitsVal (fmt05 b) := by rw [h2]
    _ = b := digitsVal_fmt05 b


/-! ## The `main` aggregation pipeline (cluster_meters.py lines 213-316) -/

/-- One meter of `mdf`: a row of the per-`post_id` aggregate. -/
structure Meter where
  post_id : List Char
  latitude : ℚ
  longitude : ℚ
  street_name : String
  street_num : String
  blockface_id : String
  cap_color : String
  schedule_hash : List Char
  schedule_json : List Char
deriving DecidableEq

/-- One record of `cluster_records`. -/
structure ClusterRow where
  cluster_id : List Char
  schedule_hash : List Char
  count_meters : Nat
  post_ids : List Char
  centroid_latitude : ℚ
  centroid_longitude : ℚ
  approx_max_radius_m : ℚ
  street_name_mode : String
  cap_color_mode : String
  blockface_ids : List Char
  schedule_json : List Char
deriving DecidableEq

/-- One record of `member_records`. -/
structure MemberRow where
  cluster_id : List Char
  post_id : List Char
  latitude : ℚ
  longitude : ℚ
  street_name : String
  street_num : String
  blockface_id : String
  cap_color : String
  schedule_hash : List Char
deriving DecidableEq

/-- `Series.mean()`: the unweighted arithmetic mean (0 on an empty list,
which never occurs here). -/
def ratMean (xs : List ℚ) : ℚ := xs.sum / xs.length

/-- `math.floor` on an exact rational. -/
def ratFloor (q : ℚ) : ℤ := q.num.fdiv q.den

/-- Round to the nearest integer, ties to even (Python `round`). -/
def roundHalfEven (q : ℚ) : ℤ :=
  let f := ratFloor q
  if q - f < 1 / 2 then f
  else if 1 / 2 < q - f then f + 1
  else if f % 2 = 0 then f else f + 1

/-- `round(x, 2)`. -/
def round2 (q : ℚ) : ℚ := (roundHalfEven (q * 100) : ℚ) / 100

/-- `sorted({str(x) for x in sub.get("blockface_id", []) if str(x).strip()})`. -/
def blockfaceSet (sub : List Meter) : List (List Char) :=
  sortStrs (firstDedup ((sub.map (fun m => m.blockface_id.data)).filter
    (fun s => ¬ stripL s = [])))

/-- The keys of `g.groupby("local_cluster")`: distinct labels in ascending
order (pandas sorts group keys by default). -/
def sortedLabels (labels : List Nat) : List Nat :=
  List.insertionSort (fun a b => a ≤ b) (firstDedup labels)

/-- The rows of `sub`: members of `g` whose attached label is `lc`. -/
def subMeters (g : List Meter) (labels : List Nat) (lc : Nat) : List Meter :=
  ((g.zip labels).filter (fun p => p.2 = lc)).map (fun p => p.1)

/-- The `cluster_records.append({...})` record for one local cluster. -/
def clusterRowOf (dist : ℚ → ℚ → ℚ → ℚ → ℚ) (shash : List Char) (gid : Nat)
    (sub : List Meter) : ClusterRow :=
  let clat := ratMean (sub.map (fun m => m.latitude))
  let clon := ratMean (sub.map (fun m => m.longitude))
  let max_r := (sub.map (fun m => dist clat clon m.latitude m.longitude)).foldl max 0
  { cluster_id := cidOf gid
    schedule_hash := shash
    count_meters := sub.length
    post_ids := intercalateL ['|'] (List.insertionSort lexLe (sub.map (fun m => m.post_id)))
    centroid_latitude := clat
    centroid_longitude := clon
    approx_max_radius_m := round2 max_r
    street_name_mode := mode (sub.map (fun m => m.street_name))
    cap_color_mode := mode (sub.map (fun m => m.cap_color))
    blockface_ids := intercalateL ['|'] (blockfaceSet sub)
    schedule_json := (sub.map (fun m => m.schedule_json)).headD [] }

/-- The `member_records.append({...})` rows for one local cluster. -/
def memberRowsOf (cid : List Char) (shash : List Char) (sub : List Meter) :
    List MemberRow :=
  sub.map (fun m =>
    { cluster_id := cid
      post_id := m.post_id
      latitude := m.latitude
      longitude := m.longitude
      street_name := m.street_name
      street_num := m.street_num
      blockface_id := m.blockface_id
      cap_color := m.cap_color
      schedule_hash := shash })

/-- The body of `for lc, sub in g.groupby("local_cluster")`, threading the
global cluster counter (incremented before use). -/
def processGroup (dist : ℚ → ℚ → ℚ → ℚ → ℚ) (radius_m : ℚ) (gid0 : Nat)
    (shash : List Char) (g : List Meter) :
    Nat × List ClusterRow × List MemberRow :=
  let labels := cluster_points_haversine dist (g.map (fun m => m.latitude))
    (g.map (fun m => m.longitude)) radius_m
  (sortedLabels labels).foldl
    (fun acc lc =>
      let gid := acc.1 + 1
      let sub := subMeters g labels lc
      (gid, acc.2.1 ++ [clusterRowOf dist shash gid sub],
        acc.2.2 ++ memberRowsOf (cidOf gid) shash sub))
    (gid0, [], [])

/-- `for shash, g in mdf.groupby("schedule_hash", sort=False)`: hash groups in
first-occurrence order, accumulating both record lists and the counter. -/
def processAll (dist : ℚ → ℚ → ℚ → ℚ → ℚ) (radius_m : ℚ) (meters : List Meter) :
    List ClusterRow × List MemberRow :=
  let hashes := firstDedup (meters.map (fun m => m.schedule_hash))
  let res := hashes.foldl
    (fun acc h =>
      ((processGroup dist radius_m acc.1 h
          (meters.filter (fun m => m.schedule_hash = h))).1,
        acc.2.1 ++ (processGroup dist radius_m acc.1 h
          (meters.filter (fun m => m.schedule_hash = h))).2.1,
        acc.2.2 ++ (processGroup dist radius_m acc.1 h
          (meters.filter (fun m => m.schedule_hash = h))).2.2))
    (0, [], [])
  (res.2.1, res.2.2)

/-! ### From the raw table to `mdf` (lines 225-254) -/

/-- `required_cols = {"post_id", "longitude", "latitude"}`. -/
def requiredCols : List (List Char) :=
  ["post_id".data, "longitude".data, "latitude".data]

/-- `[c for c in required_cols if c not in df.columns]`. -/
def missingCols (columns : List (List Char)) : List (List Char) :=
  requiredCols.filter (fun c => ¬ c ∈ columns)

/-- `pd.to_numeric(..., errors="coerce")` on the two coordinate cells of one
row: `some` iff neither is NaN afterwards (`parseNum` abstracts float
parsing). -/
def rowCoords (parseNum : List Char → Option ℚ) (r : Row) : Option (ℚ × ℚ) :=
  match parseNum ((rowGet r "latitude".data).getD []),
      parseNum ((rowGet r "longitude".data).getD []) with
  | some la, some lo => some (la, lo)
  | _, _ => none

/-- `mode(g.get(c, [])) if c in g else ""`. -/
def modeCol (columns : List (List Char)) (g : List Row) (c : List Char) : String :=
  if c ∈ columns then mode (g.map (fun r => (⟨(rowGet r c).getD []⟩ : String))) else ""

/-- The `meters` list: coordinate filtering, then one aggregate per `post_id`
in first-occurrence order. -/
def metersOf (parseNum : List Char → Option ℚ) (fields : List (List Char))
    (columns : List (List Char)) (rows : List Row) : List Meter :=
  let valid := rows.filter (fun r => (rowCoords parseNum r).isSome)
  let pids := firstDedup (valid.map (fun r => (rowGet r "post_id".data).getD []))
  pids.map (fun pid =>
    let g := valid.filter (fun r => (rowGet r "post_id".data).getD [] = pid)
    { post_id := pid
      latitude := ratMean ((g.filterMap (rowCoords parseNum)).map (fun p => p.1))
      longitude := ratMean ((g.filterMap (rowCoords parseNum)).map (fun p => p.2))
      street_name := modeCol columns g "street_name".data
      street_num := modeCol columns g "street_num".data
      blockface_id := modeCol columns g "blockface_id".data
      cap_color := modeCol columns g "cap_color".data
      schedule_hash := (build_schedule_signature g fields).1
      schedule_json := sigRaw fields g })

/-- The two ways `main` dies before writing any output: the explicit
`sys.exit` on missing required columns, and the uncaught exception paths
(modeled by the raised key). -/
inductive MainError where
  | missingColumns (missing : List (List Char)) : MainError
  | keyError (key : List Char) : MainError
deriving DecidableEq

/-- `main` after argument parsing: the required-column check guards all row
processing and output production (`sys.exit` with the missing list against
writing the two CSVs). When every data row is dropped by coordinate coercion,
`meters` is empty, `pd.DataFrame([])` has no columns, and
`mdf.groupby("schedule_hash", sort=False)` raises `KeyError("schedule_hash")`
before either CSV is written. -/
def mainModel (dist : ℚ → ℚ → ℚ → ℚ → ℚ) (parseNum : List Char → Option ℚ)
    (radius_m : ℚ) (fields : List (List Char))
    (columns : List (List Char)) (rows : List Row) :
    Except MainError (List ClusterRow × List MemberRow) :=
  if missingCols columns = [] then
    if metersOf parseNum fields columns rows = [] then
      Except.error (MainError.keyError "schedule_hash".data)
    else
      Except.ok (processAll dist radius_m (metersOf parseNum fields columns rows))
  else
    Except.error (MainError.missingColumns (missingCols columns))


/-- C9: the missing-column half of the claim holds — with a required column
absent, `main` aborts naming exactly the missing required columns, before any
row processing and without producing outputs — but the claim that this hard
failure occurs only for a missing required column is false of the program:
with all required columns present and no data row surviving coordinate
coercion, `meters` is empty and `mdf.groupby("schedule_hash")` raises an
uncaught `KeyError`, again a non-zero exit with neither output written. -/
theorem main_missing_columns_code_bug (dist : ℚ → ℚ → ℚ → ℚ → ℚ)
    (parseNum : List Char → Option ℚ) (radius_m : ℚ) (fields : List (List Char))
    (columns : List (List Char)) (rows : List Row) :
    (∀ m, mainModel dist parseNum radius_m fields columns rows
        = Except.error (MainError.missingColumns m) →
      m ≠ [] ∧ (∀ c, c ∈ m ↔ (c ∈ requiredCols ∧ ¬ c ∈ columns))) ∧
    ((∃ m, mainModel dist parseNum radius_m fields columns rows
        = Except.error (MainError.missingColumns m)) ↔
      (∃ c ∈ requiredCols, ¬ c ∈ columns)) ∧
    ((∀ c ∈ requiredCols, c ∈ columns) →
      metersOf parseNum fields columns rows = [] →
      mainModel dist parseNum radius_m fields columns rows
        = Except.error (MainError.keyError "schedule_hash".data)) := by
  have hmiss_of : (∀ c ∈ requiredCols, c ∈ columns) → missingCols columns = [] := by
    intro hall
    rw [missingCols]
    apply List.filter_eq_nil_iff.mpr
    intro c hc
    simp [hall c hc]
  refine ⟨?_, ?_, ?_⟩
  · intro m hm
    rw [mainModel] at hm
    by_cases h : missingCols columns = []
    · rw [if_pos h] at hm
      by_cases h2 : metersOf parseNum fields columns rows = []
      · rw [if_pos h2] at hm
        exact absurd (Except.error.inj hm) (by simp)
      · rw [if_neg h2] at hm
        exact absurd hm (by simp)
    · rw [if_neg h] at hm
      have hmm : MainError.missingColumns (missingCols columns)
          = MainError.missingColumns m := Except.error.inj hm
      have hmm2 : missingCols columns = m := by
        cases hmm
        rfl
      rw [← hmm2]
      refine ⟨h, ?_⟩
      intro c
      rw [missingCols]
      simp [List.mem_filter]
  · constructor
    · rintro ⟨m, hm⟩
      rw [mainModel] at hm
      by_cases h : missingCols columns = []
      · rw [if_pos h] at hm
        by_cases h2 : metersOf parseNum fields columns rows = []
        · rw [if_pos h2] at hm
          exact absurd (Except.error.inj hm) (by simp)
        · rw [if_neg h2] at hm
          exact absurd hm (by simp)
      · match hne : missingCols columns, h with
        | c :: _, _ =>
          have hc : c ∈ missingCols columns := by
            rw [hne]
            exact List.mem_cons_self c _
          rw [missingCols, List.mem_filter] at hc
          exact ⟨c, hc.1, by simpa using hc.2⟩
    · rintro ⟨c, hc, hnc⟩
      have h : ¬ missingCols columns = [] := by
        intro h0
        have hmem : c ∈ missingCols columns := by
          rw [missingCols, List.mem_filter]
          exact ⟨hc, by simpa using hnc⟩
        rw [h0] at hmem
        exact absurd hmem (List.not_mem_nil c)
      exact ⟨missingCols columns, by rw [mainModel, if_neg h]⟩
  · intro hall hempty
    rw [mainModel, if_pos (hmiss_of hall), if_pos hempty]

theorem main_missing_columns_code_bug_witness :
    mainModel (fun _ _ _ _ => (0 : ℚ)) (fun _ => none) 0 [] requiredCols []
      = Except.error (MainError.keyError "schedule_hash".data) :=
  (main_missing_columns_code_bug (fun _ _ _ _ => 0) (fun _ => none) 0 []
      requiredCols []).2.2 (by decide) (by decide)

/-! ### Partitioning lemmas for the two groupbys -/

/-- The meter-identifying fields carried into a member row. -/
def meterKey (m : Meter) :
    List Char × ℚ × ℚ × String × String × String × String × List Char :=
  (m.post_id, m.latitude, m.longitude, m.street_name, m.street_num,
    m.blockface_id, m.cap_color, m.schedule_hash)

def memberKey (r : MemberRow) :
    List Char × ℚ × ℚ × String × String × String × String × List Char :=
  (r.post_id, r.latitude, r.longitude, r.street_name, r.street_num,
    r.blockface_id, r.cap_color, r.schedule_hash)

theorem flatMap_congr_mem {α β : Type} {f g : α → List β} :
    ∀ {xs : List α}, (∀ x ∈ xs, f x = g x) → xs.flatMap f = xs.flatMap g := by
  intro xs
  induction xs with
  | nil => intro _; rfl
  | cons x xs ih =>
    intro h
    rw [List.flatMap_cons, List.flatMap_cons, h x (List.mem_cons_self x xs),
      ih (fun y hy => h y (List.mem_cons_of_mem x hy))]

/-- Grouping by a key over a duplicate-free cover of the keys and
concatenating the groups is a permutation of the list. -/
theorem flatMap_filter_perm {α κ : Type} [DecidableEq κ] (key : α → κ) :
    ∀ (ks : List κ) (l : List α), ks.Nodup → (∀ a ∈ l, key a ∈ ks) →
      (ks.flatMap (fun k => l.filter (fun a => key a = k))).Perm l := by
  intro ks
  induction ks with
  | nil =>
    intro l _ hcov
    have hnil : l = [] := by
      cases l with
      | nil => rfl
      | cons a t => exact absurd (hcov a (List.mem_cons_self a t)) (List.not_mem_nil _)
    rw [hnil]
    exact List.Perm.refl _
  | cons k ks ih =>
    intro l hnd hcov
    rw [List.flatMap_cons]
    obtain ⟨hk, hnd2⟩ := List.nodup_cons.mp hnd
    have hcov2 : ∀ a ∈ l.filter (fun a => !(decide (key a = k))), key a ∈ ks := by
      intro a ha
      obtain ⟨hal, hpa⟩ := List.mem_filter.mp ha
      rcases List.mem_cons.mp (hcov a hal) with h | h
      · rw [h] at hpa
        simp at hpa
      · exact h
    have hih := ih (l.filter (fun a => !(decide (key a = k)))) hnd2 hcov2
    have hsame : (ks.flatMap (fun k2 => l.filter (fun a => key a = k2)))
        = ks.flatMap (fun k2 =>
            (l.filter (fun a => !(decide (key a = k)))).filter (fun a => key a = k2)) := by
      apply flatMap_congr_mem
      intro k2 hk2
      have hne : k2 ≠ k := fun h => hk (h ▸ hk2)
      rw [List.filter_filter]
      apply List.filter_congr
      intro a _
      by_cases hak2 : key a = k2
      · have hak : ¬ key a = k := fun h => hne (by rw [← hak2, h])
        simp [hak2, hne]
      · simp [hak2]
    rw [hsame]
    exact (List.Perm.append_left (l.filter (fun a => key a = k)) hih).trans
      (List.filter_append_perm (fun a => decide (key a = k)) l)

theorem rootsAux_length (uf : UnionFind) :
    ∀ (is : List Nat), (rootsAux uf is).2.length = is.length := by
  intro is
  induction is generalizing uf with
  | nil => rfl
  | cons i is ih =>
    show ((ufFind uf i).2 :: (rootsAux (ufFind uf i).1 is).2).length = _
    rw [List.length_cons, ih]
    simp

theorem cluster_labels_length (dist : ℚ → ℚ → ℚ → ℚ → ℚ)
    (lats lons : List ℚ) (radius_m : ℚ) :
    (cluster_points_haversine dist lats lons radius_m).length = lats.length := by
  have hcl0 : cluster_points_haversine dist lats lons radius_m =
      (if lats.length = 0 then []
       else ((rootsAux (clusterUF (closeB dist lats lons radius_m) lats.length)
           (List.range lats.length)).2).map
         (fun r => firstIdx r (firstDedup
           ((rootsAux (clusterUF (closeB dist lats lons radius_m) lats.length)
               (List.range lats.length)).2)))) := rfl
  by_cases hn : lats.length = 0
  · rw [hcl0, if_pos hn, hn]
    rfl
  · rw [hcl0, if_neg hn, List.length_map, rootsAux_length, List.length_range]

/-- The labels attached to `g` cover it: concatenating the `sub` lists over
the sorted distinct labels permutes the group. -/
theorem subMeters_concat_perm (g : List Meter) (labels : List Nat)
    (hlen : labels.length = g.length) :
    ((sortedLabels labels).flatMap (subMeters g labels)).Perm g := by
  have hnd : (sortedLabels labels).Nodup :=
    (List.perm_insertionSort _ (firstDedup labels)).symm.nodup (nodup_firstDedup labels)
  have hcov : ∀ p ∈ g.zip labels, (p.2 : Nat) ∈ sortedLabels labels := by
    rintro ⟨m, lab⟩ hp
    have := (List.of_mem_zip hp).2
    exact (List.perm_insertionSort (fun a b => a ≤ b) (firstDedup labels)).symm.subset
      ((mem_firstDedup labels lab).mpr this)
  have hperm := flatMap_filter_perm (fun p : Meter × Nat => p.2)
    (sortedLabels labels) (g.zip labels) hnd hcov
  have hmap := hperm.map Prod.fst
  rw [List.map_flatMap] at hmap
  rw [List.map_fst_zip g labels (by omega)] at hmap
  exact hmap

/-- `member_records` rows of one cluster project back to the meters. -/
theorem memberRowsOf_map_key (cid shash : List Char) (sub : List Meter)
    (hhash : ∀ m ∈ sub, m.schedule_hash = shash) :
    (memberRowsOf cid shash sub).map memberKey = sub.map meterKey := by
  rw [memberRowsOf, List.map_map]
  apply List.map_congr_left
  intro m hm
  show (m.post_id, m.latitude, m.longitude, m.street_name, m.street_num,
    m.blockface_id, m.cap_color, shash) = meterKey m
  rw [meterKey, hhash m hm]

theorem memberRowsOf_cid (cid shash : List Char) (sub : List Meter) :
    ∀ r ∈ memberRowsOf cid shash sub, r.cluster_id = cid ∧ r.schedule_hash = shash := by
  intro r hr
  obtain ⟨m, _, rfl⟩ := List.mem_map.mp hr
  exact ⟨rfl, rfl⟩

theorem memberRowsOf_length (cid shash : List Char) (sub : List Meter) :
    (memberRowsOf cid shash sub).length = sub.length := List.length_map _ _

/-! ### The inner fold of `processGroup` -/

/-- Pure form of the local-cluster loop: rows emitted for `lcs`, numbering
from `gid0 + 1`. -/
def groupRows (dist : ℚ → ℚ → ℚ → ℚ → ℚ) (shash : List Char)
    (g : List Meter) (labels : List Nat) :
    Nat → List Nat → List ClusterRow × List MemberRow
  | _, [] => ([], [])
  | gid0, lc :: lcs =>
    let sub := subMeters g labels lc
    let rest := groupRows dist shash g labels (gid0 + 1) lcs
    (clusterRowOf dist shash (gid0 + 1) sub :: rest.1,
      memberRowsOf (cidOf (gid0 + 1)) shash sub ++ rest.2)

theorem processGroup_foldl (dist : ℚ → ℚ → ℚ → ℚ → ℚ) (shash : List Char)
    (g : List Meter) (labels : List Nat) :
    ∀ (lcs : List Nat) (gid0 : Nat) (cs0 : List ClusterRow) (ms0 : List MemberRow),
      lcs.foldl
        (fun acc lc =>
          (acc.1 + 1, acc.2.1 ++ [clusterRowOf dist shash (acc.1 + 1) (subMeters g labels lc)],
            acc.2.2 ++ memberRowsOf (cidOf (acc.1 + 1)) shash (subMeters g labels lc)))
        (gid0, cs0, ms0)
      = (gid0 + lcs.length, cs0 ++ (groupRows dist shash g labels gid0 lcs).1,
          ms0 ++ (groupRows dist shash g labels gid0 lcs).2) := by
  intro lcs
  induction lcs with
  | nil =>
    intro gid0 cs0 ms0
    show (gid0, cs0, ms0) = _
    rw [groupRows]
    simp
  | cons lc lcs ih =>
    intro gid0 cs0 ms0
    rw [List.foldl_cons, ih, groupRows]
    simp only [Prod.mk.injEq, List.append_assoc, List.singleton_append, List.length_cons]
    exact ⟨by omega, trivial⟩

/-- `processGroup` in terms of `groupRows`. -/
theorem processGroup_eq (dist : ℚ → ℚ → ℚ → ℚ → ℚ) (radius_m : ℚ) (gid0 : Nat)
    (shash : List Char) (g : List Meter) :
    processGroup dist radius_m gid0 shash g =
      (gid0 + (sortedLabels (cluster_points_haversine dist (g.map (fun m => m.latitude))
          (g.map (fun m => m.longitude)) radius_m)).length,
        groupRows dist shash g
          (cluster_points_haversine dist (g.map (fun m => m.latitude))
            (g.map (fun m => m.longitude)) radius_m) gid0
          (sortedLabels (cluster_points_haversine dist (g.map (fun m => m.latitude))
            (g.map (fun m => m.longitude)) radius_m))) := by
  rw [processGroup, processGroup_foldl]
  rfl


theorem subMeters_subset (g : List Meter) (labels : List Nat) (lc : Nat) :
    ∀ m ∈ subMeters g labels lc, m ∈ g := by
  intro m hm
  rw [subMeters] at hm
  obtain ⟨⟨m2, lab⟩, hp, rfl⟩ := List.mem_map.mp hm
  exact (List.of_mem_zip (List.mem_of_mem_filter hp)).1

theorem subMeters_ne_nil (g : List Meter) (labels : List Nat)
    (hlen : labels.length = g.length) (lc : Nat) (hlc : lc ∈ labels) :
    subMeters g labels lc ≠ [] := by
  obtain ⟨i, hi, hgi⟩ := List.mem_iff_getElem.mp hlc
  have hig : i < g.length := by omega
  have hzip : (g[i], labels[i]) ∈ g.zip labels := by
    rw [List.mem_iff_getElem]
    refine ⟨i, by rw [List.length_zip]; omega, ?_⟩
    exact List.getElem_zip
  intro hemp
  rw [subMeters] at hemp
  have hmem : (g[i], labels[i]) ∈ (g.zip labels).filter (fun p => p.2 = lc) :=
    List.mem_filter.mpr ⟨hzip, by simp [hgi]⟩
  rw [List.map_eq_nil_iff] at hemp
  rw [hemp] at hmem
  exact absurd hmem (List.not_mem_nil _)

/-- All local facts about the rows one hash group emits. -/
theorem groupRows_spec (dist : ℚ → ℚ → ℚ → ℚ → ℚ) (shash : List Char)
    (g : List Meter) (labels : List Nat)
    (hlen : labels.length = g.length)
    (hhash : ∀ m ∈ g, m.schedule_hash = shash) :
    ∀ (lcs : List Nat) (gid0 : Nat), (∀ lc ∈ lcs, lc ∈ labels) → lcs.Nodup →
      (∀ c ∈ (groupRows dist shash g labels gid0 lcs).1,
        ∃ gid, gid0 < gid ∧ gid ≤ gid0 + lcs.length ∧ c.cluster_id = cidOf gid ∧
          c.schedule_hash = shash) ∧
      (∀ r ∈ (groupRows dist shash g labels gid0 lcs).2,
        ∃ gid, gid0 < gid ∧ gid ≤ gid0 + lcs.length ∧ r.cluster_id = cidOf gid) ∧
      (∀ r ∈ (groupRows dist shash g labels gid0 lcs).2,
        r.cluster_id ∈ (groupRows dist shash g labels gid0 lcs).1.map
          (fun c => c.cluster_id)) ∧
      ((groupRows dist shash g labels gid0 lcs).1.map (fun c => c.cluster_id)).Nodup ∧
      (∀ c ∈ (groupRows dist shash g labels gid0 lcs).1,
        ∃ gid sub, sub ≠ [] ∧ c = clusterRowOf dist shash gid sub ∧
          cidOf gid = c.cluster_id ∧
          (groupRows dist shash g labels gid0 lcs).2.filter
            (fun r => r.cluster_id = c.cluster_id)
            = memberRowsOf c.cluster_id shash sub) ∧
      (groupRows dist shash g labels gid0 lcs).2.map memberKey
        = (lcs.flatMap (subMeters g labels)).map meterKey := by
  intro lcs
  induction lcs with
  | nil =>
    intro gid0 _ _
    rw [groupRows]
    refine ⟨?_, ?_, ?_, ?_, ?_, ?_⟩ <;> simp
  | cons lc lcs ih =>
    intro gid0 hmem hnd
    have hlc : lc ∈ labels := hmem lc (List.mem_cons_self lc lcs)
    have hsubne := subMeters_ne_nil g labels hlen lc hlc
    have hhash_sub : ∀ m ∈ subMeters g labels lc, m.schedule_hash = shash :=
      fun m hm => hhash m (subMeters_subset g labels lc m hm)
    obtain ⟨hlcnd, hnd2⟩ := List.nodup_cons.mp hnd
    obtain ⟨ihA, ihB, ihC, ihD, ihE, ihF⟩ :=
      ih (gid0 + 1) (fun x hx => hmem x (List.mem_cons_of_mem lc hx)) hnd2
    rw [groupRows]
    refine ⟨?_, ?_, ?_, ?_, ?_, ?_⟩
    · intro c hc
      rcases List.mem_cons.mp hc with rfl | hc2
      · exact ⟨gid0 + 1, by omega, by rw [List.length_cons]; omega, rfl, rfl⟩
      · obtain ⟨gid, h1, h2, h3, h4⟩ := ihA c hc2
        exact ⟨gid, by omega, by rw [List.length_cons]; omega, h3, h4⟩
    · intro r hr
      rcases List.mem_append.mp hr with hr1 | hr2
      · exact ⟨gid0 + 1, by omega, by rw [List.length_cons]; omega,
          (memberRowsOf_cid _ _ _ r hr1).1⟩
      · obtain ⟨gid, h1, h2, h3⟩ := ihB r hr2
        exact ⟨gid, by omega, by rw [List.length_cons]; omega, h3⟩
    · intro r hr
      rw [List.map_cons]
      rcases List.mem_append.mp hr with hr1 | hr2
      · rw [(memberRowsOf_cid _ _ _ r hr1).1]
        exact List.mem_cons_self _ _
      · exact List.mem_cons_of_mem _ (ihC r hr2)
    · rw [List.map_cons]
      refine List.nodup_cons.mpr ⟨?_, ihD⟩
      intro hbad
      obtain ⟨c, hc, hcid⟩ := List.mem_map.mp hbad
      obtain ⟨gid, h1, _, h3, _⟩ := ihA c hc
      rw [h3] at hcid
      have := cidOf_inj hcid
      omega
    · intro c hc
      rcases List.mem_cons.mp hc with rfl | hc2
      · refine ⟨gid0 + 1, subMeters g labels lc, hsubne, rfl, rfl, ?_⟩
        rw [List.filter_append]
        have hhead : (memberRowsOf (cidOf (gid0 + 1)) shash
            (subMeters g labels lc)).filter
            (fun r => r.cluster_id
              = (clusterRowOf dist shash (gid0 + 1) (subMeters g labels lc)).cluster_id)
            = memberRowsOf (cidOf (gid0 + 1)) shash (subMeters g labels lc) := by
          apply List.filter_eq_self.mpr
          intro r hr
          rw [(memberRowsOf_cid _ _ _ r hr).1]
          simp [clusterRowOf]
        have htail : (groupRows dist shash g labels (gid0 + 1) lcs).2.filter
            (fun r => r.cluster_id
              = (clusterRowOf dist shash (gid0 + 1) (subMeters g labels lc)).cluster_id)
            = [] := by
          apply List.filter_eq_nil_iff.mpr
          intro r hr
          obtain ⟨gid, h1, _, h3⟩ := ihB r hr
          rw [h3]
          intro hbad
          have heq : cidOf gid = cidOf (gid0 + 1) := by simpa [clusterRowOf] using hbad
          have := cidOf_inj heq
          omega
        rw [hhead, htail, List.append_nil]
        rfl
      · obtain ⟨gid, sub, hne, hceq, hcid, hfilter⟩ := ihE c hc2
        refine ⟨gid, sub, hne, hceq, hcid, ?_⟩
        rw [List.filter_append, hfilter]
        have hhead : (memberRowsOf (cidOf (gid0 + 1)) shash
            (subMeters g labels lc)).filter (fun r => r.cluster_id = c.cluster_id)
            = [] := by
          apply List.filter_eq_nil_iff.mpr
          intro r hr
          rw [(memberRowsOf_cid _ _ _ r hr).1]
          obtain ⟨gid2, h1, _, h3, _⟩ := ihA c hc2
          rw [h3]
          intro hbad
          have := cidOf_inj (of_decide_eq_true hbad)
          omega
        rw [hhead, List.nil_append]
    · rw [List.map_append, ihF, List.flatMap_cons, List.map_append,
        memberRowsOf_map_key _ _ _ hhash_sub]


/-- Pure form of the hash-group loop of `main`. -/
def hashRows (dist : ℚ → ℚ → ℚ → ℚ → ℚ) (radius_m : ℚ) (meters : List Meter) :
    Nat → List (List Char) → Nat × List ClusterRow × List MemberRow
  | gid0, [] => (gid0, [], [])
  | gid0, h :: hs =>
    let g := meters.filter (fun m => m.schedule_hash = h)
    let pr := processGroup dist radius_m gid0 h g
    let rest := hashRows dist radius_m meters pr.1 hs
    (rest.1, pr.2.1 ++ rest.2.1, pr.2.2 ++ rest.2.2)

theorem hashRows_foldl (dist : ℚ → ℚ → ℚ → ℚ → ℚ) (radius_m : ℚ) (meters : List Meter) :
    ∀ (hs : List (List Char)) (gid0 : Nat) (cs0 : List ClusterRow) (ms0 : List MemberRow),
      hs.foldl (fun acc h =>
          ((processGroup dist radius_m acc.1 h
              (meters.filter (fun m => m.schedule_hash = h))).1,
            acc.2.1 ++ (processGroup dist radius_m acc.1 h
              (meters.filter (fun m => m.schedule_hash = h))).2.1,
            acc.2.2 ++ (processGroup dist radius_m acc.1 h
              (meters.filter (fun m => m.schedule_hash = h))).2.2))
        (gid0, cs0, ms0)
      = ((hashRows dist radius_m meters gid0 hs).1,
          cs0 ++ (hashRows dist radius_m meters gid0 hs).2.1,
          ms0 ++ (hashRows dist radius_m meters gid0 hs).2.2) := by
  intro hs
  induction hs with
  | nil =>
    intro gid0 cs0 ms0
    show (gid0, cs0, ms0) = _
    rw [hashRows]
    simp
  | cons h hs ih =>
    intro gid0 cs0 ms0
    rw [List.foldl_cons, ih, hashRows]
    simp only [Prod.mk.injEq, List.append_assoc]

theorem processAll_eq (dist : ℚ → ℚ → ℚ → ℚ → ℚ) (radius_m : ℚ) (meters : List Meter) :
    processAll dist radius_m meters
      = ((hashRows dist radius_m meters 0
            (firstDedup (meters.map (fun m => m.schedule_hash)))).2.1,
          (hashRows dist radius_m meters 0
            (firstDedup (meters.map (fun m => m.schedule_hash)))).2.2) := by
  show (((firstDedup (meters.map (fun m => m.schedule_hash))).foldl
      (fun acc h =>
        ((processGroup dist radius_m acc.1 h
            (meters.filter (fun m => m.schedule_hash = h))).1,
          acc.2.1 ++ (processGroup dist radius_m acc.1 h
            (meters.filter (fun m => m.schedule_hash = h))).2.1,
          acc.2.2 ++ (processGroup dist radius_m acc.1 h
            (meters.filter (fun m => m.schedule_hash = h))).2.2))
      (0, [], [])).2.1,
    ((firstDedup (meters.map (fun m => m.schedule_hash))).foldl
      (fun acc h =>
        ((processGroup dist radius_m acc.1 h
            (meters.filter (fun m => m.schedule_hash = h))).1,
          acc.2.1 ++ (processGroup dist radius_m acc.1 h
            (meters.filter (fun m => m.schedule_hash = h))).2.1,
          acc.2.2 ++ (processGroup dist radius_m acc.1 h
            (meters.filter (fun m => m.schedule_hash = h))).2.2))
      (0, [], [])).2.2)
      = ((hashRows dist radius_m meters 0
            (firstDedup (meters.map (fun m => m.schedule_hash)))).2.1,
          (hashRows dist radius_m meters 0
            (firstDedup (meters.map (fun m => m.schedule_hash)))).2.2)
  rw [hashRows_foldl dist radius_m meters
    (firstDedup (meters.map (fun m => m.schedule_hash))) 0 [] []]
  simp

/-- All global facts about the emitted rows, for any duplicate-free list of
hash keys. -/
theorem hashRows_spec (dist : ℚ → ℚ → ℚ → ℚ → ℚ) (radius_m : ℚ) (meters : List Meter) :
    ∀ (hs : List (List Char)) (gid0 : Nat), hs.Nodup →
      gid0 ≤ (hashRows dist radius_m meters gid0 hs).1 ∧
      (∀ c ∈ (hashRows dist radius_m meters gid0 hs).2.1,
        ∃ gid, gid0 < gid ∧ gid ≤ (hashRows dist radius_m meters gid0 hs).1 ∧
          c.cluster_id = cidOf gid) ∧
      (∀ r ∈ (hashRows dist radius_m meters gid0 hs).2.2,
        ∃ gid, gid0 < gid ∧ gid ≤ (hashRows dist radius_m meters gid0 hs).1 ∧
          r.cluster_id = cidOf gid) ∧
      (∀ r ∈ (hashRows dist radius_m meters gid0 hs).2.2,
        r.cluster_id ∈ (hashRows dist radius_m meters gid0 hs).2.1.map
          (fun c => c.cluster_id)) ∧
      ((hashRows dist radius_m meters gid0 hs).2.1.map (fun c => c.cluster_id)).Nodup ∧
      (∀ c ∈ (hashRows dist radius_m meters gid0 hs).2.1,
        ∃ gid sub, sub ≠ [] ∧ c = clusterRowOf dist c.schedule_hash gid sub ∧
          cidOf gid = c.cluster_id ∧
          (hashRows dist radius_m meters gid0 hs).2.2.filter
            (fun r => r.cluster_id = c.cluster_id)
            = memberRowsOf c.cluster_id c.schedule_hash sub) ∧
      ((hashRows dist radius_m meters gid0 hs).2.2.map memberKey).Perm
        ((hs.flatMap (fun h => meters.filter (fun m => m.schedule_hash = h))).map
          meterKey) := by
  intro hs
  induction hs with
  | nil =>
    intro gid0 _
    rw [hashRows]
    refine ⟨le_rfl, ?_, ?_, ?_, ?_, ?_, ?_⟩ <;> simp
  | cons h hs ih =>
    intro gid0 hnd
    obtain ⟨hh, hnd2⟩ := List.nodup_cons.mp hnd
    have hlen : (cluster_points_haversine dist
        ((meters.filter (fun m => m.schedule_hash = h)).map (fun m => m.latitude))
        ((meters.filter (fun m => m.schedule_hash = h)).map (fun m => m.longitude))
        radius_m).length
        = (meters.filter (fun m => m.schedule_hash = h)).length := by
      rw [cluster_labels_length, List.length_map]
    have hhash : ∀ m ∈ meters.filter (fun m => m.schedule_hash = h),
        m.schedule_hash = h := by
      intro m hm
      exact of_decide_eq_true (List.mem_filter.mp hm).2
    have hlcs_mem : ∀ lc ∈ sortedLabels (cluster_points_haversine dist
        ((meters.filter (fun m => m.schedule_hash = h)).map (fun m => m.latitude))
        ((meters.filter (fun m => m.schedule_hash = h)).map (fun m => m.longitude))
        radius_m), lc ∈ cluster_points_haversine dist
        ((meters.filter (fun m => m.schedule_hash = h)).map (fun m => m.latitude))
        ((meters.filter (fun m => m.schedule_hash = h)).map (fun m => m.longitude))
        radius_m := by
      intro lc hlc
      have := (List.perm_insertionSort (fun a b => a ≤ b) _).subset hlc
      exact (mem_firstDedup _ _).mp this
    have hlcs_nd : (sortedLabels (cluster_points_haversine dist
        ((meters.filter (fun m => m.schedule_hash = h)).map (fun m => m.latitude))
        ((meters.filter (fun m => m.schedule_hash = h)).map (fun m => m.longitude))
        radius_m)).Nodup :=
      (List.perm_insertionSort _ _).symm.nodup (nodup_firstDedup _)
    obtain ⟨gA, gB, gC, gD, gE, gF⟩ :=
      groupRows_spec dist h (meters.filter (fun m => m.schedule_hash = h)) _ hlen hhash
        (sortedLabels (cluster_points_haversine dist
          ((meters.filter (fun m => m.schedule_hash = h)).map (fun m => m.latitude))
          ((meters.filter (fun m => m.schedule_hash = h)).map (fun m => m.longitude))
          radius_m)) gid0 hlcs_mem hlcs_nd
    obtain ⟨ih1, ihA, ihB, ihC, ihD, ihE, ihF⟩ :=
      ih (processGroup dist radius_m gid0 h
        (meters.filter (fun m => m.schedule_hash = h))).1 hnd2
    rw [hashRows]
    rw [processGroup_eq] at ih1 ihA ihB ihC ihD ihE ihF ⊢
    refine ⟨by omega, ?_, ?_, ?_, ?_, ?_, ?_⟩
    · intro c hc
      rcases List.mem_append.mp hc with hc1 | hc2
      · obtain ⟨gid, h1, h2, h3, _⟩ := gA c hc1
        exact ⟨gid, h1, by omega, h3⟩
      · obtain ⟨gid, h1, h2, h3⟩ := ihA c hc2
        exact ⟨gid, by omega, h2, h3⟩
    · intro r hr
      rcases List.mem_append.mp hr with hr1 | hr2
      · obtain ⟨gid, h1, h2, h3⟩ := gB r hr1
        exact ⟨gid, h1, by omega, h3⟩
      · obtain ⟨gid, h1, h2, h3⟩ := ihB r hr2
        exact ⟨gid, by omega, h2, h3⟩
    · intro r hr
      rw [List.map_append]
      rcases List.mem_append.mp hr with hr1 | hr2
      · exact List.mem_append_left _ (gC r hr1)
      · exact List.mem_append_right _ (ihC r hr2)
    · rw [List.map_append]
      refine (List.nodup_append).mpr ⟨gD, ihD, ?_⟩
      intro a ha hb
      obtain ⟨c1, hc1, hcid1⟩ := List.mem_map.mp ha
      obtain ⟨c2, hc2, hcid2⟩ := List.mem_map.mp hb
      obtain ⟨gid1, hg1, hg2, hg3, _⟩ := gA c1 hc1
      obtain ⟨gid2, hg4, hg5, hg6⟩ := ihA c2 hc2
      rw [← hcid1, hg3] at hcid2
      rw [hg6] at hcid2
      have := cidOf_inj hcid2
      omega
    · intro c hc
      rcases List.mem_append.mp hc with hc1 | hc2
      · obtain ⟨gid, sub, hne, hceq, hcid, hfilter⟩ := gE c hc1
        obtain ⟨gid2, _, _, hcid2, hsh⟩ := gA c hc1
        refine ⟨gid, sub, hne, by rw [hsh]; exact hceq, hcid, ?_⟩
        rw [List.filter_append, hfilter, hsh]
        have htail : (hashRows dist radius_m meters
            (gid0 + (sortedLabels (cluster_points_haversine dist
              ((meters.filter (fun m => m.schedule_hash = h)).map (fun m => m.latitude))
              ((meters.filter (fun m => m.schedule_hash = h)).map (fun m => m.longitude))
              radius_m)).length) hs).2.2.filter
            (fun r => r.cluster_id = c.cluster_id) = [] := by
          apply List.filter_eq_nil_iff.mpr
          intro r hr
          obtain ⟨gid3, hr1, _, hr3⟩ := ihB r hr
          rw [hr3, hcid2]
          intro hbad
          have := cidOf_inj (of_decide_eq_true hbad)
          obtain ⟨gid4, hh1, hh2, hh3, _⟩ := gA c hc1
          rw [hcid2] at hh3
          have := cidOf_inj hh3
          omega
        rw [htail, List.append_nil]
      · obtain ⟨gid, sub, hne, hceq, hcid, hfilter⟩ := ihE c hc2
        refine ⟨gid, sub, hne, hceq, hcid, ?_⟩
        rw [List.filter_append, hfilter]
        have hhead : (groupRows dist h (meters.filter (fun m => m.schedule_hash = h))
            (cluster_points_haversine dist
              ((meters.filter (fun m => m.schedule_hash = h)).map (fun m => m.latitude))
              ((meters.filter (fun m => m.schedule_hash = h)).map (fun m => m.longitude))
              radius_m) gid0
            (sortedLabels (cluster_points_haversine dist
              ((meters.filter (fun m => m.schedule_hash = h)).map (fun m => m.latitude))
              ((meters.filter (fun m => m.schedule_hash = h)).map (fun m => m.longitude))
              radius_m))).2.filter (fun r => r.cluster_id = c.cluster_id) = [] := by
          apply List.filter_eq_nil_iff.mpr
          intro r hr
          obtain ⟨gid3, hr1, hr2, hr3⟩ := gB r hr
          obtain ⟨gid4, hh4, hh5, hh6⟩ := ihA c hc2
          rw [hr3, hh6]
          intro hbad
          have := cidOf_inj (of_decide_eq_true hbad)
          omega
        rw [hhead, List.nil_append]
    · rw [List.map_append, List.flatMap_cons, List.map_append]
      refine List.Perm.append ?_ ihF
      rw [gF]
      have hperm := subMeters_concat_perm (meters.filter (fun m => m.schedule_hash = h))
        (cluster_points_haversine dist
          ((meters.filter (fun m => m.schedule_hash = h)).map (fun m => m.latitude))
          ((meters.filter (fun m => m.schedule_hash = h)).map (fun m => m.longitude))
          radius_m) hlen
      exact hperm.map meterKey


/-- The global facts, instantiated at the actual hash-group iteration of
`main`. -/
theorem processAll_spec (dist : ℚ → ℚ → ℚ → ℚ → ℚ) (radius_m : ℚ) (meters : List Meter) :
    ((processAll dist radius_m meters).1.map (fun c => c.cluster_id)).Nodup ∧
    (∀ r ∈ (processAll dist radius_m meters).2,
      r.cluster_id ∈ (processAll dist radius_m meters).1.map (fun c => c.cluster_id)) ∧
    (∀ c ∈ (processAll dist radius_m meters).1,
      ∃ gid sub, sub ≠ [] ∧ c = clusterRowOf dist c.schedule_hash gid sub ∧
        cidOf gid = c.cluster_id ∧
        (processAll dist radius_m meters).2.filter (fun r => r.cluster_id = c.cluster_id)
          = memberRowsOf c.cluster_id c.schedule_hash sub) ∧
    ((processAll dist radius_m meters).2.map memberKey).Perm (meters.map meterKey) := by
  obtain ⟨_, _, _, hCov, hNd, hBucket, hPerm⟩ := hashRows_spec dist radius_m meters
    (firstDedup (meters.map (fun m => m.schedule_hash))) 0 (nodup_firstDedup _)
  rw [processAll_eq]
  refine ⟨hNd, hCov, hBucket, ?_⟩
  refine hPerm.trans ?_
  have hcov2 : ∀ m ∈ meters,
      m.schedule_hash ∈ firstDedup (meters.map (fun m => m.schedule_hash)) := by
    intro m hm
    exact (mem_firstDedup _ _).mpr (List.mem_map.mpr ⟨m, hm, rfl⟩)
  exact (flatMap_filter_perm (fun m : Meter => m.schedule_hash) _ meters
    (nodup_firstDedup _) hcov2).map meterKey

/-- C6: two membership rows whose schedule hashes differ never carry the same
cluster id — meters with different signatures never share a cluster. -/
theorem different_hash_different_cluster (dist : ℚ → ℚ → ℚ → ℚ → ℚ)
    (radius_m : ℚ) (meters : List Meter) :
    ∀ r1 ∈ (processAll dist radius_m meters).2,
      ∀ r2 ∈ (processAll dist radius_m meters).2,
        r1.schedule_hash ≠ r2.schedule_hash → r1.cluster_id ≠ r2.cluster_id := by
  obtain ⟨_, hCov, hBucket, _⟩ := processAll_spec dist radius_m meters
  intro r1 h1 r2 h2 hne hcid
  obtain ⟨c, hc, hcid1⟩ := List.mem_map.mp (hCov r1 h1)
  obtain ⟨gid, sub, _, _, _, hfilter⟩ := hBucket c hc
  have hr1 : r1 ∈ (processAll dist radius_m meters).2.filter
      (fun r => r.cluster_id = c.cluster_id) :=
    List.mem_filter.mpr ⟨h1, by simp [hcid1]⟩
  have hr2 : r2 ∈ (processAll dist radius_m meters).2.filter
      (fun r => r.cluster_id = c.cluster_id) :=
    List.mem_filter.mpr ⟨h2, by simp [← hcid, hcid1]⟩
  rw [hfilter] at hr1 hr2
  have e1 := (memberRowsOf_cid _ _ _ r1 hr1).2
  have e2 := (memberRowsOf_cid _ _ _ r2 hr2).2
  exact hne (by rw [e1, e2])

theorem different_hash_different_cluster_witness :
    ((processAll (fun _ _ _ _ => (0 : ℚ)) 0
        [⟨['p'], 0, 0, "", "", "", "", ['a'], []⟩,
         ⟨['q'], 0, 0, "", "", "", "", ['b'], []⟩]).2.getD 0
        ⟨[], [], 0, 0, "", "", "", "", []⟩).cluster_id
      ≠ ((processAll (fun _ _ _ _ => (0 : ℚ)) 0
        [⟨['p'], 0, 0, "", "", "", "", ['a'], []⟩,
         ⟨['q'], 0, 0, "", "", "", "", ['b'], []⟩]).2.getD 1
        ⟨[], [], 0, 0, "", "", "", "", []⟩).cluster_id :=
  different_hash_different_cluster (fun _ _ _ _ => 0) 0
    [⟨['p'], 0, 0, "", "", "", "", ['a'], []⟩,
     ⟨['q'], 0, 0, "", "", "", "", ['b'], []⟩]
    _ (by decide) _ (by decide) (by decide)


theorem getD_zero_mem {α : Type} (l : List α) (d : α) (h : 0 < l.length) :
    l.getD 0 d ∈ l := by
  cases l with
  | nil => simp at h
  | cons a t =>
    rw [List.getD_cons_zero]
    exact List.mem_cons_self a t

/-- C7: membership rows are exactly the surviving meters (each appears in
exactly one cluster), `count_meters` totals the membership rows, the
cluster-id sets of the two outputs coincide, and each cluster's
`count_meters` counts its own membership rows. -/
theorem outputs_partition_spec (dist : ℚ → ℚ → ℚ → ℚ → ℚ) (radius_m : ℚ)
    (meters : List Meter) :
    (((processAll dist radius_m meters).2.map memberKey).Perm
      (meters.map meterKey)) ∧
    (((processAll dist radius_m meters).1.map (fun c => c.count_meters)).sum
      = (processAll dist radius_m meters).2.length) ∧
    (∀ cid, cid ∈ (processAll dist radius_m meters).2.map (fun r => r.cluster_id) ↔
      cid ∈ (processAll dist radius_m meters).1.map (fun c => c.cluster_id)) ∧
    (∀ c ∈ (processAll dist radius_m meters).1,
      c.count_meters = ((processAll dist radius_m meters).2.filter
        (fun r => r.cluster_id = c.cluster_id)).length) := by
  obtain ⟨hNd, hCov, hBucket, hPerm⟩ := processAll_spec dist radius_m meters
  have hcount : ∀ c ∈ (processAll dist radius_m meters).1,
      c.count_meters = ((processAll dist radius_m meters).2.filter
        (fun r => r.cluster_id = c.cluster_id)).length := by
    intro c hc
    obtain ⟨gid, sub, _, hceq, _, hfilter⟩ := hBucket c hc
    rw [hfilter, memberRowsOf_length, hceq]
    rfl
  refine ⟨hPerm, ?_, ?_, hcount⟩
  · have hpart := flatMap_filter_perm (fun r : MemberRow => r.cluster_id)
      ((processAll dist radius_m meters).1.map (fun c => c.cluster_id))
      (processAll dist radius_m meters).2 hNd hCov
    have hlen := hpart.length_eq
    rw [List.length_flatMap, List.map_map] at hlen
    rw [← hlen]
    apply congrArg
    apply List.map_congr_left
    intro c hc
    rw [hcount c hc]
    rfl
  · intro cid
    constructor
    · intro hmem
      obtain ⟨r, hr, rfl⟩ := List.mem_map.mp hmem
      exact hCov r hr
    · intro hmem
      obtain ⟨c, hc, rfl⟩ := List.mem_map.mp hmem
      obtain ⟨gid, sub, hne, _, _, hfilter⟩ := hBucket c hc
      have hbne : memberRowsOf c.cluster_id c.schedule_hash sub ≠ [] := by
        cases sub with
        | nil => exact absurd rfl hne
        | cons m rest =>
          intro hbad
          exact absurd (congrArg List.length hbad) (by simp [memberRowsOf])
      rw [← hfilter] at hbne
      obtain ⟨r, hr⟩ := List.exists_mem_of_ne_nil _ hbne
      obtain ⟨hrm, hrc⟩ := List.mem_filter.mp hr
      exact List.mem_map.mpr ⟨r, hrm, of_decide_eq_true hrc⟩

theorem outputs_partition_spec_witness :
    (((processAll (fun _ _ _ _ => (0 : ℚ)) 0
        [⟨['p'], 0, 0, "", "", "", "", ['a'], []⟩]).1.getD 0
        ⟨[], [], 0, [], 0, 0, 0, "", "", [], []⟩).count_meters
      = ((processAll (fun _ _ _ _ => (0 : ℚ)) 0
          [⟨['p'], 0, 0, "", "", "", "", ['a'], []⟩]).2.filter
          (fun r => r.cluster_id = ((processAll (fun _ _ _ _ => (0 : ℚ)) 0
            [⟨['p'], 0, 0, "", "", "", "", ['a'], []⟩]).1.getD 0
            ⟨[], [], 0, [], 0, 0, 0, "", "", [], []⟩).cluster_id)).length) :=
  (outputs_partition_spec (fun _ _ _ _ => 0) 0
      [⟨['p'], 0, 0, "", "", "", "", ['a'], []⟩]).2.2.2 _
    (getD_zero_mem _ _ (by decide))

/-- C8: each cluster's centroid coordinates are the unweighted means of its
members' coordinates, and `approx_max_radius_m` is the maximum (abstracted
haversine) distance from that centroid to a member, rounded to two decimals
(ties to even). -/
theorem cluster_centroid_radius_spec (dist : ℚ → ℚ → ℚ → ℚ → ℚ) (radius_m : ℚ)
    (meters : List Meter) :
    ∀ c ∈ (processAll dist radius_m meters).1,
      c.centroid_latitude = ratMean (((processAll dist radius_m meters).2.filter
          (fun r => r.cluster_id = c.cluster_id)).map (fun r => r.latitude)) ∧
      c.centroid_longitude = ratMean (((processAll dist radius_m meters).2.filter
          (fun r => r.cluster_id = c.cluster_id)).map (fun r => r.longitude)) ∧
      c.approx_max_radius_m = round2 ((((processAll dist radius_m meters).2.filter
          (fun r => r.cluster_id = c.cluster_id)).map
          (fun r => dist c.centroid_latitude c.centroid_longitude
            r.latitude r.longitude)).foldl max 0) := by
  obtain ⟨_, _, hBucket, _⟩ := processAll_spec dist radius_m meters
  intro c hc
  obtain ⟨gid, sub, _, hceq, _, hfilter⟩ := hBucket c hc
  refine ⟨?_, ?_, ?_⟩
  · rw [hfilter, memberRowsOf, List.map_map, hceq]
    rfl
  · rw [hfilter, memberRowsOf, List.map_map, hceq]
    rfl
  · rw [hfilter, memberRowsOf, List.map_map]
    rw [hceq]
    rfl

theorem cluster_centroid_radius_spec_witness :
    (((processAll (fun _ _ _ _ => (0 : ℚ)) 0
        [⟨['p'], 3, 5, "", "", "", "", ['a'], []⟩]).1.getD 0
        ⟨[], [], 0, [], 0, 0, 0, "", "", [], []⟩).centroid_latitude
      = ratMean (((processAll (fun _ _ _ _ => (0 : ℚ)) 0
          [⟨['p'], 3, 5, "", "", "", "", ['a'], []⟩]).2.filter
          (fun r => r.cluster_id = ((processAll (fun _ _ _ _ => (0 : ℚ)) 0
            [⟨['p'], 3, 5, "", "", "", "", ['a'], []⟩]).1.getD 0
            ⟨[], [], 0, [], 0, 0, 0, "", "", [], []⟩).cluster_id)).map
          (fun r => r.latitude))) :=
  ((cluster_centroid_radius_spec (fun _ _ _ _ => 0) 0
      [⟨['p'], 3, 5, "", "", "", "", ['a'], []⟩]) _
    (getD_zero_mem _ _ (by decide))).1


end ParkingLocator
